import Mathlib

/-!
# Verification of `ddot_repro` (reproducible double-precision dot product)

Shallow embedding of `src/repro_ddot/src/reproblas/ddot.c`.

Binary64 values are represented by their 64-bit patterns as `Nat`.
The wide accumulator `bigu_t` (66 little-endian limbs of 64 bits) is
represented as `Nat → Nat`; well-formed states (`BiguWF`) have every limb
below `2^64` and every limb at index `≥ 66` equal to zero, which is exactly
the information carried by the C type `uint64_t limb[66]`.  All machine
arithmetic is modelled on `Nat`/`Int` with explicit `% 2^w` where the C
computation wraps.
-/

set_option exponentiation.threshold 10000

set_option maxRecDepth 10000

/-! ## Constants from ddot.c -/

def WORD_BITS : Nat := 64

def ACC_EMIN : Int := -2148

def ACC_LIMBS : Nat := 66

/-- `2^64`, the limb radix. -/
def LIMB_RADIX : Nat := 2 ^ 64

/-- `2^4224 = 2^(66*64)`, one past the largest representable accumulator value. -/
def ACC_RADIX : Nat := 2 ^ 4224

/-- C `INT_MIN`, used by `pack_double` as the subnormal sentinel. -/
def INT_MIN_SENT : Int := -2147483648

/-- C `INT_MAX`, used by `pack_double` as the infinity sentinel. -/
def INT_MAX_SENT : Int := 2147483647

/-! ## The wide accumulator `bigu_t` -/

/-- `bigu_t`: 66 little-endian 64-bit limbs, as a function from limb index. -/
def Bigu : Type := Nat → Nat

/-- The all-zero accumulator (`bigu_clear` / `memset 0`). -/
def bigu_zero : Bigu := fun _ => 0

/-- Write limb `i`. -/
def bigu_set (a : Bigu) (i : Nat) (v : Nat) : Bigu :=
  fun j => if j = i then v else a j

/-- Well-formedness: what the C type `uint64_t limb[ACC_LIMBS]` guarantees. -/
def BiguWF (a : Bigu) : Prop :=
  (∀ i, a i < 2 ^ 64) ∧ (∀ i, 66 ≤ i → a i = 0)

/-- Value of the low `k` limbs: `Σ_{i<k} a i · 2^(64 i)`. -/
def biguValTo (a : Bigu) : Nat → Nat
  | 0 => 0
  | k + 1 => biguValTo a k + a k * 2 ^ (64 * k)

/-- The integer value held by the accumulator. -/
def biguVal (a : Bigu) : Nat := biguValTo a 66

theorem bigu_set_same (a : Bigu) (i v : Nat) : bigu_set a i v i = v := by
  simp [bigu_set]

theorem bigu_set_other (a : Bigu) (i v j : Nat) (h : j ≠ i) : bigu_set a i v j = a j := by
  simp [bigu_set, h]

theorem biguValTo_set_high (a : Bigu) (i v : Nat) :
    ∀ k, k ≤ i → biguValTo (bigu_set a i v) k = biguValTo a k := by
  intro k
  induction k with
  | zero => intro _; rfl
  | succ k ih =>
    intro hk
    have hk' : k ≤ i := Nat.le_of_succ_le hk
    have hne : k ≠ i := Nat.ne_of_lt hk
    simp [biguValTo, ih hk', bigu_set_other a i v k hne]

theorem biguValTo_set (a : Bigu) (i v : Nat) :
    ∀ k, i < k →
      biguValTo (bigu_set a i v) k + a i * 2 ^ (64 * i)
        = biguValTo a k + v * 2 ^ (64 * i) := by
  intro k
  induction k with
  | zero => intro h; exact absurd h (Nat.not_lt_zero i)
  | succ k ih =>
    intro hk
    rcases Nat.lt_succ_iff_lt_or_eq.mp hk with h | h
    · have hne : k ≠ i := fun he => absurd (he ▸ h) (Nat.lt_irrefl k)
      simp only [biguValTo, bigu_set_other a i v k hne]
      omega
    · subst h
      simp only [biguValTo, bigu_set_same, biguValTo_set_high a i v i (Nat.le_refl i)]
      omega

theorem biguValTo_lt (a : Bigu) (h : ∀ i, a i < 2 ^ 64) :
    ∀ k, biguValTo a k < 2 ^ (64 * k) := by
  intro k
  induction k with
  | zero => simp [biguValTo]
  | succ k ih =>
    have h1 : a k * 2 ^ (64 * k) + 2 ^ (64 * k) ≤ 2 ^ 64 * 2 ^ (64 * k) := by
      have := h k
      calc a k * 2 ^ (64 * k) + 2 ^ (64 * k) = (a k + 1) * 2 ^ (64 * k) := by ring
        _ ≤ 2 ^ 64 * 2 ^ (64 * k) := Nat.mul_le_mul_right _ (by omega)
    have h2 : (2 : Nat) ^ 64 * 2 ^ (64 * k) = 2 ^ (64 * (k + 1)) := by
      rw [← Nat.pow_add]; ring_nf
    simp only [biguValTo]
    omega

theorem biguVal_lt (a : Bigu) (h : BiguWF a) : biguVal a < ACC_RADIX := by
  have := biguValTo_lt a h.1 66
  simpa [biguVal, ACC_RADIX] using this

theorem bigu_zero_wf : BiguWF bigu_zero := by
  constructor <;> intro i <;> simp [bigu_zero]

theorem biguValTo_zero : ∀ k, biguValTo bigu_zero k = 0 := by
  intro k
  induction k with
  | zero => rfl
  | succ k ih => simp [biguValTo, ih, bigu_zero]

theorem biguVal_zero : biguVal bigu_zero = 0 := biguValTo_zero 66

/-! ## Shifted addition into the accumulator -/

/-- `add_word_at` from ddot.c: add word `w` plus the incoming carry into limb
`idx`, returning the updated accumulator, the outgoing carry, and the
overflow flag. -/
def add_word_at (a : Bigu) (idx : Nat) (w carry : Nat) (ovf : Bool) :
    Bigu × Nat × Bool :=
  if w = 0 ∧ carry = 0 then (a, carry, ovf)
  else if 66 ≤ idx then (a, carry, true)
  else (bigu_set a idx ((a idx + w + carry) % 2 ^ 64),
        (a idx + w + carry) / 2 ^ 64, ovf)

/-- The carry-propagation loop at the end of `bigu_add_shifted_u128`.
`rem` is the number of limbs from position `i` up to `ACC_LIMBS`
(the C loop condition `i >= ACC_LIMBS` corresponds to `rem = 0`). -/
def bigu_carry_loop (ovf : Bool) : Nat → Bigu → Nat → Nat → Bigu × Bool
  | 0, a, _, carry => if carry = 0 then (a, ovf) else (a, true)
  | rem + 1, a, i, carry =>
    if carry = 0 then (a, ovf)
    else
      bigu_carry_loop ovf rem (bigu_set a i ((a i + carry) % 2 ^ 64)) (i + 1)
        ((a i + carry) / 2 ^ 64)

/-- `bigu_add_shifted_u128` from ddot.c: add the 128-bit value `val`,
shifted left by `bit_shift` bits, into accumulator `a`; sticky overflow. -/
def bigu_add_shifted_u128 (a : Bigu) (val : Nat) (bit_shift : Nat) (ovf : Bool) :
    Bigu × Bool :=
  if val = 0 then (a, ovf)
  else
    let word_off := bit_shift / 64
    let r := bit_shift % 64
    let lo := val % 2 ^ 64
    let hi := (val >>> 64) % 2 ^ 64
    let v0 := if r = 0 then lo else (lo <<< r) % 2 ^ 64
    let v1 := if r = 0 then hi else ((hi <<< r) % 2 ^ 64) ||| (lo >>> (64 - r))
    let v2 := if r = 0 then 0 else hi >>> (64 - r)
    let s1 := add_word_at a word_off v0 0 ovf
    let s2 := add_word_at s1.1 (word_off + 1) v1 s1.2.1 s1.2.2
    let s3 := add_word_at s2.1 (word_off + 2) v2 s2.2.1 s2.2.2
    bigu_carry_loop s3.2.2 (66 - (word_off + 3)) s3.1 (word_off + 3) s3.2.1

theorem add_word_at_spec (a : Bigu) (idx w carry : Nat) (ovf : Bool)
    (hidx : idx < 66) :
    (add_word_at a idx w carry ovf).2.2 = ovf ∧
    ((add_word_at a idx w carry ovf).1 = a ∨
      ∃ v, (add_word_at a idx w carry ovf).1 = bigu_set a idx v ∧ v < 2 ^ 64) ∧
    biguVal (add_word_at a idx w carry ovf).1
        + (add_word_at a idx w carry ovf).2.1 * 2 ^ (64 * (idx + 1))
      = biguVal a + (w + carry) * 2 ^ (64 * idx) := by
  unfold add_word_at
  by_cases h0 : w = 0 ∧ carry = 0
  · rw [if_pos h0]
    refine ⟨rfl, Or.inl rfl, ?_⟩
    obtain ⟨hw, hc⟩ := h0
    subst hw; subst hc
    simp
  · rw [if_neg h0, if_neg (by omega : ¬ (66 ≤ idx))]
    dsimp only
    refine ⟨rfl, Or.inr ⟨(a idx + w + carry) % 2 ^ 64, rfl,
      Nat.mod_lt _ (by norm_num)⟩, ?_⟩
    have hset := biguValTo_set a idx ((a idx + w + carry) % 2 ^ 64) 66 hidx
    have hdm : (a idx + w + carry) % 2 ^ 64 + 2 ^ 64 * ((a idx + w + carry) / 2 ^ 64)
        = a idx + w + carry := Nat.mod_add_div _ _
    have hpow : (2 : Nat) ^ (64 * (idx + 1)) = 2 ^ 64 * 2 ^ (64 * idx) := by
      rw [← Nat.pow_add]; ring_nf
    unfold biguVal at *
    rw [hpow]
    generalize hX : (2 : Nat) ^ (64 * idx) = X at *
    have e3 : (a idx + w + carry) / 2 ^ 64 * (2 ^ 64 * X)
        = 2 ^ 64 * ((a idx + w + carry) / 2 ^ 64) * X := by ring
    rw [e3]
    have e2 : ((a idx + w + carry) % 2 ^ 64) * X
        + (2 ^ 64 * ((a idx + w + carry) / 2 ^ 64)) * X = (a idx + w + carry) * X := by
      rw [← Nat.add_mul, hdm]
    have e4 : (a idx + w + carry) * X = a idx * X + (w + carry) * X := by ring
    omega

theorem bigu_set_wf (a : Bigu) (i v : Nat) (hwf : BiguWF a) (hi : i < 66)
    (hv : v < 2 ^ 64) : BiguWF (bigu_set a i v) := by
  constructor
  · intro j
    by_cases h : j = i
    · subst h; simpa [bigu_set_same]
    · rw [bigu_set_other a i v j h]; exact hwf.1 j
  · intro j hj
    have h : j ≠ i := by omega
    rw [bigu_set_other a i v j h]; exact hwf.2 j hj

theorem bigu_carry_loop_spec (ovf : Bool) :
    ∀ rem a i carry, i + rem = 66 → BiguWF a →
      BiguWF (bigu_carry_loop ovf rem a i carry).1 ∧
      biguVal (bigu_carry_loop ovf rem a i carry).1
        = (biguVal a + carry * 2 ^ (64 * i)) % ACC_RADIX ∧
      (bigu_carry_loop ovf rem a i carry).2
        = (ovf || decide (ACC_RADIX ≤ biguVal a + carry * 2 ^ (64 * i))) := by
  intro rem
  induction rem with
  | zero =>
    intro a i carry hi hwf
    have hi66 : i = 66 := by omega
    subst hi66
    have hvlt : biguVal a < ACC_RADIX := biguVal_lt a hwf
    have hpow : (2 : Nat) ^ (64 * 66) = ACC_RADIX := by norm_num [ACC_RADIX]
    unfold bigu_carry_loop
    by_cases hc : carry = 0
    · subst hc
      simp [Nat.mod_eq_of_lt hvlt, Nat.not_le.mpr hvlt, hwf]
    · rw [if_neg hc]
      refine ⟨hwf, ?_, ?_⟩
      · show biguVal a = (biguVal a + carry * 2 ^ (64 * 66)) % ACC_RADIX
        rw [hpow, Nat.add_mul_mod_self_right, Nat.mod_eq_of_lt hvlt]
      · show true = (ovf || decide (ACC_RADIX ≤ biguVal a + carry * 2 ^ (64 * 66)))
        have : ACC_RADIX ≤ biguVal a + carry * 2 ^ (64 * 66) := by
          rw [hpow]
          have : 1 * ACC_RADIX ≤ carry * ACC_RADIX :=
            Nat.mul_le_mul_right _ (by omega)
          omega
        rw [decide_eq_true this, Bool.or_true]
  | succ rem ih =>
    intro a i carry hi hwf
    unfold bigu_carry_loop
    by_cases hc : carry = 0
    · subst hc
      have hvlt : biguVal a < ACC_RADIX := biguVal_lt a hwf
      simp [Nat.mod_eq_of_lt hvlt, Nat.not_le.mpr hvlt, hwf]
    · rw [if_neg hc]
      have hilt : i < 66 := by omega
      have hwf' : BiguWF (bigu_set a i ((a i + carry) % 2 ^ 64)) :=
        bigu_set_wf a i _ hwf hilt (Nat.mod_lt _ (by norm_num))
      have hkey : biguVal (bigu_set a i ((a i + carry) % 2 ^ 64))
          + (a i + carry) / 2 ^ 64 * 2 ^ (64 * (i + 1))
          = biguVal a + carry * 2 ^ (64 * i) := by
        have hset := biguValTo_set a i ((a i + carry) % 2 ^ 64) 66 hilt
        have hdm : (a i + carry) % 2 ^ 64 + 2 ^ 64 * ((a i + carry) / 2 ^ 64)
            = a i + carry := Nat.mod_add_div _ _
        have hpow : (2 : Nat) ^ (64 * (i + 1)) = 2 ^ 64 * 2 ^ (64 * i) := by
          rw [← Nat.pow_add]; ring_nf
        unfold biguVal at *
        rw [hpow]
        generalize hX : (2 : Nat) ^ (64 * i) = X at *
        have e3 : (a i + carry) / 2 ^ 64 * (2 ^ 64 * X)
            = 2 ^ 64 * ((a i + carry) / 2 ^ 64) * X := by ring
        rw [e3]
        have e2 : ((a i + carry) % 2 ^ 64) * X
            + (2 ^ 64 * ((a i + carry) / 2 ^ 64)) * X = (a i + carry) * X := by
          rw [← Nat.add_mul, hdm]
        have e4 : (a i + carry) * X = a i * X + carry * X := by ring
        omega
      obtain ⟨w1, w2, w3⟩ := ih (bigu_set a i ((a i + carry) % 2 ^ 64)) (i + 1)
        ((a i + carry) / 2 ^ 64) (by omega) hwf'
      exact ⟨w1, by rw [w2, hkey], by rw [w3, hkey]⟩

theorem add_word_at_wf (a : Bigu) (idx w carry : Nat) (ovf : Bool)
    (hidx : idx < 66) (hwf : BiguWF a) :
    BiguWF (add_word_at a idx w carry ovf).1 := by
  rcases (add_word_at_spec a idx w carry ovf hidx).2.1 with h | ⟨v, hv, hvlt⟩
  · rw [h]; exact hwf
  · rw [hv]; exact bigu_set_wf a idx v hwf hidx hvlt

theorem add3_carry_spec (a : Bigu) (wo v0 v1 v2 : Nat) (ovf : Bool)
    (hwo : wo ≤ 63) (hwf : BiguWF a) :
    BiguWF ((fun s3 => bigu_carry_loop s3.2.2 (66 - (wo + 3)) s3.1 (wo + 3) s3.2.1)
      (add_word_at (add_word_at (add_word_at a wo v0 0 ovf).1 (wo + 1) v1
        (add_word_at a wo v0 0 ovf).2.1 (add_word_at a wo v0 0 ovf).2.2).1 (wo + 2) v2
        (add_word_at (add_word_at a wo v0 0 ovf).1 (wo + 1) v1
          (add_word_at a wo v0 0 ovf).2.1 (add_word_at a wo v0 0 ovf).2.2).2.1
        (add_word_at (add_word_at a wo v0 0 ovf).1 (wo + 1) v1
          (add_word_at a wo v0 0 ovf).2.1 (add_word_at a wo v0 0 ovf).2.2).2.2)).1 ∧
    biguVal ((fun s3 => bigu_carry_loop s3.2.2 (66 - (wo + 3)) s3.1 (wo + 3) s3.2.1)
      (add_word_at (add_word_at (add_word_at a wo v0 0 ovf).1 (wo + 1) v1
        (add_word_at a wo v0 0 ovf).2.1 (add_word_at a wo v0 0 ovf).2.2).1 (wo + 2) v2
        (add_word_at (add_word_at a wo v0 0 ovf).1 (wo + 1) v1
          (add_word_at a wo v0 0 ovf).2.1 (add_word_at a wo v0 0 ovf).2.2).2.1
        (add_word_at (add_word_at a wo v0 0 ovf).1 (wo + 1) v1
          (add_word_at a wo v0 0 ovf).2.1 (add_word_at a wo v0 0 ovf).2.2).2.2)).1
      = (biguVal a + (v0 + v1 * 2 ^ 64 + v2 * 2 ^ 128) * 2 ^ (64 * wo)) % ACC_RADIX ∧
    ((fun s3 => bigu_carry_loop s3.2.2 (66 - (wo + 3)) s3.1 (wo + 3) s3.2.1)
      (add_word_at (add_word_at (add_word_at a wo v0 0 ovf).1 (wo + 1) v1
        (add_word_at a wo v0 0 ovf).2.1 (add_word_at a wo v0 0 ovf).2.2).1 (wo + 2) v2
        (add_word_at (add_word_at a wo v0 0 ovf).1 (wo + 1) v1
          (add_word_at a wo v0 0 ovf).2.1 (add_word_at a wo v0 0 ovf).2.2).2.1
        (add_word_at (add_word_at a wo v0 0 ovf).1 (wo + 1) v1
          (add_word_at a wo v0 0 ovf).2.1 (add_word_at a wo v0 0 ovf).2.2).2.2)).2
      = (ovf || decide (ACC_RADIX ≤
          biguVal a + (v0 + v1 * 2 ^ 64 + v2 * 2 ^ 128) * 2 ^ (64 * wo))) := by
  dsimp only
  set s1 := add_word_at a wo v0 0 ovf with hs1
  set s2 := add_word_at s1.1 (wo + 1) v1 s1.2.1 s1.2.2 with hs2
  set s3 := add_word_at s2.1 (wo + 2) v2 s2.2.1 s2.2.2 with hs3
  obtain ⟨ho1, hst1, he1⟩ := add_word_at_spec a wo v0 0 ovf (by omega)
  obtain ⟨ho2, hst2, he2⟩ := add_word_at_spec s1.1 (wo + 1) v1 s1.2.1 s1.2.2 (by omega)
  obtain ⟨ho3, hst3, he3⟩ := add_word_at_spec s2.1 (wo + 2) v2 s2.2.1 s2.2.2 (by omega)
  rw [← hs1] at ho1 he1
  rw [← hs2] at ho2 he2
  rw [← hs3] at ho3 he3
  have hwf1 : BiguWF s1.1 := add_word_at_wf a wo v0 0 ovf (by omega) hwf
  have hwf2 : BiguWF s2.1 := add_word_at_wf s1.1 (wo + 1) v1 s1.2.1 s1.2.2 (by omega) hwf1
  have hwf3 : BiguWF s3.1 := add_word_at_wf s2.1 (wo + 2) v2 s2.2.1 s2.2.2 (by omega) hwf2
  have hovf3 : s3.2.2 = ovf := by rw [ho3, ho2, ho1]
  -- the combined value identity
  have hchain : biguVal s3.1 + s3.2.1 * 2 ^ (64 * (wo + 3))
      = biguVal a + (v0 + v1 * 2 ^ 64 + v2 * 2 ^ 128) * 2 ^ (64 * wo) := by
    have hp1 : (2 : Nat) ^ (64 * (wo + 1)) = 2 ^ 64 * 2 ^ (64 * wo) := by
      rw [← Nat.pow_add]; ring_nf
    have hp2 : (2 : Nat) ^ (64 * (wo + 2)) = 2 ^ 128 * 2 ^ (64 * wo) := by
      rw [← Nat.pow_add]; ring_nf
    have hp3 : (2 : Nat) ^ (64 * (wo + 3)) = 2 ^ 192 * 2 ^ (64 * wo) := by
      rw [← Nat.pow_add]; ring_nf
    rw [hp1] at he1 he2
    rw [hp2] at he2 he3
    rw [hp3] at he3 ⊢
    generalize hX : (2 : Nat) ^ (64 * wo) = X at *
    have r1 : (v0 + 0) * X = v0 * X := by ring
    rw [r1] at he1
    have r2 : (v1 + s1.2.1) * (2 ^ 64 * X)
        = v1 * (2 ^ 64 * X) + s1.2.1 * (2 ^ 64 * X) := by ring
    rw [r2] at he2
    have r3 : (v2 + s2.2.1) * (2 ^ 128 * X)
        = v2 * (2 ^ 128 * X) + s2.2.1 * (2 ^ 128 * X) := by ring
    rw [r3] at he3
    have rG : (v0 + v1 * 2 ^ 64 + v2 * 2 ^ 128) * X
        = v0 * X + v1 * (2 ^ 64 * X) + v2 * (2 ^ 128 * X) := by ring
    rw [rG]
    omega
  obtain ⟨hW, hV, hO⟩ := bigu_carry_loop_spec s3.2.2 (66 - (wo + 3)) s3.1 (wo + 3)
    s3.2.1 (by omega) hwf3
  exact ⟨hW, by rw [hV, hchain], by rw [hO, hchain, hovf3]⟩

theorem shift_word_decomp (v r : Nat) (hv : v < 2 ^ 128) (hr0 : 0 < r)
    (hr : r < 64) :
    ((v % 2 ^ 64) <<< r) % 2 ^ 64
      + ((((v >>> 64) % 2 ^ 64) <<< r) % 2 ^ 64 ||| ((v % 2 ^ 64) >>> (64 - r)))
          * 2 ^ 64
      + (((v >>> 64) % 2 ^ 64) >>> (64 - r)) * 2 ^ 128
    = v * 2 ^ r := by
  have hsr : v >>> 64 = v / 2 ^ 64 := Nat.shiftRight_eq_div_pow v 64
  have hhilt : v / 2 ^ 64 < 2 ^ 64 := by
    apply Nat.div_lt_of_lt_mul
    calc v < 2 ^ 128 := hv
      _ = 2 ^ 64 * 2 ^ 64 := by norm_num
  have hhim : (v >>> 64) % 2 ^ 64 = v / 2 ^ 64 := by
    rw [hsr]; exact Nat.mod_eq_of_lt hhilt
  have hpowsplit : (2 : Nat) ^ (64 - r) * 2 ^ r = 2 ^ 64 := by
    rw [← Nat.pow_add]; congr 1; omega
  have hlolt : v % 2 ^ 64 < 2 ^ 64 := Nat.mod_lt _ (by norm_num)
  -- low word
  have hv0 : ((v % 2 ^ 64) <<< r) % 2 ^ 64 = ((v % 2 ^ 64) % 2 ^ (64 - r)) * 2 ^ r := by
    rw [Nat.shiftLeft_eq, ← hpowsplit, Nat.mul_mod_mul_right]
  -- cross carry out of the low word
  have hc0 : (v % 2 ^ 64) >>> (64 - r) = (v % 2 ^ 64) / 2 ^ (64 - r) :=
    Nat.shiftRight_eq_div_pow _ _
  have hc0lt : (v % 2 ^ 64) / 2 ^ (64 - r) < 2 ^ r := by
    rw [Nat.div_lt_iff_lt_mul (Nat.pos_pow_of_pos _ (by norm_num))]
    calc v % 2 ^ 64 < 2 ^ 64 := hlolt
      _ = 2 ^ r * 2 ^ (64 - r) := by rw [← Nat.pow_add]; congr 1; omega
  -- middle word: the OR is a disjoint addition
  have hv1 : (((v >>> 64) % 2 ^ 64) <<< r) % 2 ^ 64 ||| ((v % 2 ^ 64) >>> (64 - r))
      = ((v / 2 ^ 64) % 2 ^ (64 - r)) * 2 ^ r + (v % 2 ^ 64) / 2 ^ (64 - r) := by
    rw [hhim, Nat.shiftLeft_eq, hc0]
    generalize (v % 2 ^ 64) / 2 ^ (64 - r) = c0 at hc0lt ⊢
    generalize v / 2 ^ 64 = h1
    rw [← hpowsplit, Nat.mul_mod_mul_right]
    have h := Nat.mul_add_lt_is_or hc0lt (h1 % 2 ^ (64 - r))
    rw [Nat.mul_comm (2 ^ r) (h1 % 2 ^ (64 - r))] at h
    exact h.symm
  have hv2 : ((v >>> 64) % 2 ^ 64) >>> (64 - r) = (v / 2 ^ 64) / 2 ^ (64 - r) := by
    rw [hhim]; exact Nat.shiftRight_eq_div_pow _ _
  rw [hv0, hv1, hv2]
  -- arithmetic: everything in terms of lo := v % 2^64, hi := v / 2^64
  have e_lo : (v % 2 ^ 64) * 2 ^ r
      = ((v % 2 ^ 64) % 2 ^ (64 - r)) * 2 ^ r
        + 2 ^ 64 * ((v % 2 ^ 64) / 2 ^ (64 - r)) := by
    calc (v % 2 ^ 64) * 2 ^ r
        = ((v % 2 ^ 64) % 2 ^ (64 - r)
            + 2 ^ (64 - r) * ((v % 2 ^ 64) / 2 ^ (64 - r))) * 2 ^ r := by
          rw [Nat.mod_add_div]
      _ = ((v % 2 ^ 64) % 2 ^ (64 - r)) * 2 ^ r
            + (2 ^ (64 - r) * 2 ^ r) * ((v % 2 ^ 64) / 2 ^ (64 - r)) := by ring
      _ = _ := by rw [hpowsplit]
  have e_hi : (v / 2 ^ 64) * 2 ^ r
      = ((v / 2 ^ 64) % 2 ^ (64 - r)) * 2 ^ r
        + 2 ^ 64 * ((v / 2 ^ 64) / 2 ^ (64 - r)) := by
    calc (v / 2 ^ 64) * 2 ^ r
        = ((v / 2 ^ 64) % 2 ^ (64 - r)
            + 2 ^ (64 - r) * ((v / 2 ^ 64) / 2 ^ (64 - r))) * 2 ^ r := by
          rw [Nat.mod_add_div]
      _ = ((v / 2 ^ 64) % 2 ^ (64 - r)) * 2 ^ r
            + (2 ^ (64 - r) * 2 ^ r) * ((v / 2 ^ 64) / 2 ^ (64 - r)) := by ring
      _ = _ := by rw [hpowsplit]
  have e_v : v * 2 ^ r = (v % 2 ^ 64) * 2 ^ r + 2 ^ 64 * ((v / 2 ^ 64) * 2 ^ r) := by
    calc v * 2 ^ r = (v % 2 ^ 64 + 2 ^ 64 * (v / 2 ^ 64)) * 2 ^ r := by
          rw [Nat.mod_add_div]
      _ = _ := by ring
  rw [e_lo, e_hi] at e_v
  have hsq : (2 : Nat) ^ 64 * 2 ^ 64 = 2 ^ 128 := by norm_num
  calc ((v % 2 ^ 64) % 2 ^ (64 - r)) * 2 ^ r
      + (((v / 2 ^ 64) % 2 ^ (64 - r)) * 2 ^ r + (v % 2 ^ 64) / 2 ^ (64 - r)) * 2 ^ 64
      + ((v / 2 ^ 64) / 2 ^ (64 - r)) * 2 ^ 128
      = (((v % 2 ^ 64) % 2 ^ (64 - r)) * 2 ^ r
          + 2 ^ 64 * ((v % 2 ^ 64) / 2 ^ (64 - r)))
        + 2 ^ 64 * (((v / 2 ^ 64) % 2 ^ (64 - r)) * 2 ^ r)
        + (2 ^ 64 * 2 ^ 64) * ((v / 2 ^ 64) / 2 ^ (64 - r)) := by rw [hsq]; ring
    _ = v * 2 ^ r := by rw [e_v]; ring

theorem bigu_add_shifted_u128_spec (a : Bigu) (v shift : Nat) (ovf : Bool)
    (hwf : BiguWF a) (hv : v < 2 ^ 128) (hs : shift ≤ 4090) :
    BiguWF (bigu_add_shifted_u128 a v shift ovf).1 ∧
    biguVal (bigu_add_shifted_u128 a v shift ovf).1
      = (biguVal a + v * 2 ^ shift) % ACC_RADIX ∧
    (bigu_add_shifted_u128 a v shift ovf).2
      = (ovf || decide (ACC_RADIX ≤ biguVal a + v * 2 ^ shift)) := by
  by_cases hv0 : v = 0
  · subst hv0
    have hvlt : biguVal a < ACC_RADIX := biguVal_lt a hwf
    unfold bigu_add_shifted_u128
    rw [if_pos rfl]
    refine ⟨hwf, ?_, ?_⟩
    · simp [Nat.mod_eq_of_lt hvlt]
    · simp [Nat.not_le.mpr hvlt]
  · have hwo : shift / 64 ≤ 63 := by omega
    have key := add3_carry_spec a (shift / 64)
      (if shift % 64 = 0 then v % 2 ^ 64 else ((v % 2 ^ 64) <<< (shift % 64)) % 2 ^ 64)
      (if shift % 64 = 0 then (v >>> 64) % 2 ^ 64
        else (((v >>> 64) % 2 ^ 64) <<< (shift % 64)) % 2 ^ 64
          ||| ((v % 2 ^ 64) >>> (64 - shift % 64)))
      (if shift % 64 = 0 then 0 else ((v >>> 64) % 2 ^ 64) >>> (64 - shift % 64))
      ovf hwo hwf
    have hval :
        ((if shift % 64 = 0 then v % 2 ^ 64
            else ((v % 2 ^ 64) <<< (shift % 64)) % 2 ^ 64)
          + (if shift % 64 = 0 then (v >>> 64) % 2 ^ 64
              else (((v >>> 64) % 2 ^ 64) <<< (shift % 64)) % 2 ^ 64
                ||| ((v % 2 ^ 64) >>> (64 - shift % 64))) * 2 ^ 64
          + (if shift % 64 = 0 then 0
              else ((v >>> 64) % 2 ^ 64) >>> (64 - shift % 64)) * 2 ^ 128)
          * 2 ^ (64 * (shift / 64))
        = v * 2 ^ shift := by
      by_cases hr : shift % 64 = 0
      · rw [if_pos hr, if_pos hr, if_pos hr]
        have hhim : (v >>> 64) % 2 ^ 64 = v / 2 ^ 64 := by
          rw [Nat.shiftRight_eq_div_pow]
          exact Nat.mod_eq_of_lt (Nat.div_lt_of_lt_mul (by norm_num at hv ⊢; omega))
        have hsum : v % 2 ^ 64 + (v >>> 64) % 2 ^ 64 * 2 ^ 64 + 0 * 2 ^ 128 = v := by
          rw [hhim]
          have := Nat.mod_add_div v (2 ^ 64)
          omega
        rw [hsum]
        have h64 : 64 * (shift / 64) = shift := by omega
        rw [h64]
      · rw [if_neg hr, if_neg hr, if_neg hr]
        have hd := shift_word_decomp v (shift % 64) hv (Nat.pos_of_ne_zero hr)
          (Nat.mod_lt _ (by norm_num))
        rw [hd]
        have hp : (2 : Nat) ^ (shift % 64) * 2 ^ (64 * (shift / 64)) = 2 ^ shift := by
          rw [← Nat.pow_add]
          congr 1
          omega
        calc v * 2 ^ (shift % 64) * 2 ^ (64 * (shift / 64))
            = v * (2 ^ (shift % 64) * 2 ^ (64 * (shift / 64))) := by ring
          _ = v * 2 ^ shift := by rw [hp]
    rw [hval] at key
    unfold bigu_add_shifted_u128
    rw [if_neg hv0]
    exact key

/-! ## Comparison, subtraction, msb, bit extraction -/

/-- Loop of `bigu_cmp`: compares limbs `k-1, …, 0` from the top. -/
def bigu_cmp_loop (a b : Bigu) : Nat → Int
  | 0 => 0
  | k + 1 =>
    if a k < b k then -1
    else if b k < a k then 1
    else bigu_cmp_loop a b k

/-- `bigu_cmp` from ddot.c: lexicographic compare from the most significant limb. -/
def bigu_cmp (a b : Bigu) : Int := bigu_cmp_loop a b 66

theorem bigu_cmp_loop_spec (a b : Bigu) (ha : ∀ i, a i < 2 ^ 64)
    (hb : ∀ i, b i < 2 ^ 64) :
    ∀ k, (biguValTo a k < biguValTo b k → bigu_cmp_loop a b k = -1) ∧
      (biguValTo a k = biguValTo b k → bigu_cmp_loop a b k = 0) ∧
      (biguValTo b k < biguValTo a k → bigu_cmp_loop a b k = 1) := by
  intro k
  induction k with
  | zero => refine ⟨fun h => absurd h (by simp [biguValTo]), fun _ => rfl,
      fun h => absurd h (by simp [biguValTo])⟩
  | succ k ih =>
    have hak := biguValTo_lt a ha k
    have hbk := biguValTo_lt b hb k
    rcases Nat.lt_trichotomy (a k) (b k) with h | h | h
    · have hlt : biguValTo a (k + 1) < biguValTo b (k + 1) := by
        simp only [biguValTo]
        have : (a k + 1) * 2 ^ (64 * k) ≤ b k * 2 ^ (64 * k) :=
          Nat.mul_le_mul_right _ (by omega)
        have h2 : a k * 2 ^ (64 * k) + 2 ^ (64 * k) = (a k + 1) * 2 ^ (64 * k) := by ring
        omega
      refine ⟨fun _ => ?_, fun he => absurd he (by omega), fun hgt => absurd hgt (by omega)⟩
      simp only [bigu_cmp_loop, if_pos h]
    · have hstep : bigu_cmp_loop a b (k + 1) = bigu_cmp_loop a b k := by
        simp [bigu_cmp_loop, h]
      have e1 : biguValTo a (k + 1) = biguValTo a k + b k * 2 ^ (64 * k) := by
        simp [biguValTo, h]
      have e2 : biguValTo b (k + 1) = biguValTo b k + b k * 2 ^ (64 * k) := by
        simp [biguValTo]
      obtain ⟨i1, i2, i3⟩ := ih
      refine ⟨fun hl => ?_, fun he => ?_, fun hg => ?_⟩
      · rw [hstep]; exact i1 (by omega)
      · rw [hstep]; exact i2 (by omega)
      · rw [hstep]; exact i3 (by omega)
    · have hlt : biguValTo b (k + 1) < biguValTo a (k + 1) := by
        simp only [biguValTo]
        have : (b k + 1) * 2 ^ (64 * k) ≤ a k * 2 ^ (64 * k) :=
          Nat.mul_le_mul_right _ (by omega)
        have h2 : b k * 2 ^ (64 * k) + 2 ^ (64 * k) = (b k + 1) * 2 ^ (64 * k) := by ring
        omega
      refine ⟨fun hl => absurd hl (by omega), fun he => absurd he (by omega), fun _ => ?_⟩
      simp only [bigu_cmp_loop, if_neg (by omega : ¬ a k < b k), if_pos h]

theorem bigu_cmp_spec (a b : Bigu) (ha : BiguWF a) (hb : BiguWF b) :
    (bigu_cmp a b = -1 ↔ biguVal a < biguVal b) ∧
    (bigu_cmp a b = 0 ↔ biguVal a = biguVal b) ∧
    (bigu_cmp a b = 1 ↔ biguVal b < biguVal a) := by
  obtain ⟨c1, c2, c3⟩ := bigu_cmp_loop_spec a b ha.1 hb.1 66
  unfold bigu_cmp biguVal at *
  rcases Nat.lt_trichotomy (biguValTo a 66) (biguValTo b 66) with h | h | h
  · rw [c1 h]
    refine ⟨⟨fun _ => h, fun _ => rfl⟩, ⟨by omega, by omega⟩, ⟨by omega, by omega⟩⟩
  · rw [c2 h]
    refine ⟨⟨by omega, by omega⟩, ⟨fun _ => h, fun _ => rfl⟩, ⟨by omega, by omega⟩⟩
  · rw [c3 h]
    refine ⟨⟨by omega, by omega⟩, ⟨by omega, by omega⟩, ⟨fun _ => h, fun _ => rfl⟩⟩

/-- `bigu_cmp` is antisymmetric at the limb level (no well-formedness needed). -/
theorem bigu_cmp_loop_antisymm (a b : Bigu) :
    ∀ k, bigu_cmp_loop b a k = - bigu_cmp_loop a b k := by
  intro k
  induction k with
  | zero => simp [bigu_cmp_loop]
  | succ k ih =>
    rcases Nat.lt_trichotomy (a k) (b k) with h | h | h
    · have h2 : ¬ b k < a k := by omega
      simp [bigu_cmp_loop, h, h2]
    · simp only [bigu_cmp_loop, h]
      simp [ih]
    · have h2 : ¬ a k < b k := by omega
      simp [bigu_cmp_loop, h, h2]

theorem bigu_cmp_antisymm (a b : Bigu) : bigu_cmp b a = - bigu_cmp a b :=
  bigu_cmp_loop_antisymm a b 66

/-- Loop of `bigu_sub`: schoolbook subtraction with borrow, limbs `i, …, 65`
(`rem` limbs remaining).  `diff` is computed in wrapping 128-bit arithmetic
exactly as the C `unsigned __int128` subtraction does. -/
def bigu_sub_loop (a b : Bigu) : Nat → Nat → Nat → Bigu → Bigu
  | 0, _, _, c => c
  | rem + 1, i, borrow, c =>
    bigu_sub_loop a b rem (i + 1)
      ((((2 ^ 128 + a i - (b i + borrow)) % 2 ^ 128) >>> 64) &&& 1)
      (bigu_set c i (((2 ^ 128 + a i - (b i + borrow)) % 2 ^ 128) % 2 ^ 64))

/-- `bigu_sub` from ddot.c: `c = a - b` assuming `a ≥ b`. -/
def bigu_sub (a b : Bigu) : Bigu := bigu_sub_loop a b 66 0 0 bigu_zero

theorem word_sub_spec (x y β : Nat) (hx : x < 2 ^ 64) (hy : y < 2 ^ 64)
    (hβ : β ≤ 1) :
    ((2 ^ 128 + x - (y + β)) % 2 ^ 128) % 2 ^ 64 < 2 ^ 64 ∧
    ((((2 ^ 128 + x - (y + β)) % 2 ^ 128) >>> 64) &&& 1) ≤ 1 ∧
    ((((2 ^ 128 + x - (y + β)) % 2 ^ 128) % 2 ^ 64 : Nat) : Int)
      = (x : Int) - y - β
        + (((((2 ^ 128 + x - (y + β)) % 2 ^ 128) >>> 64) &&& 1 : Nat) : Int) * 2 ^ 64 := by
  rw [Nat.shiftRight_eq_div_pow, Nat.and_one_is_mod]
  omega

theorem bigu_sub_loop_spec (a b : Bigu) (ha : ∀ j, a j < 2 ^ 64)
    (hb : ∀ j, b j < 2 ^ 64) :
    ∀ rem i (borrow : Nat) c, i + rem = 66 → borrow ≤ 1 →
      (∀ j, c j < 2 ^ 64) → (∀ j, 66 ≤ j → c j = 0) →
      ((biguValTo c i : Int)
        = (biguValTo a i : Int) - biguValTo b i + (borrow : Int) * 2 ^ (64 * i)) →
      BiguWF (bigu_sub_loop a b rem i borrow c) ∧
      ∃ β ≤ 1, (biguVal (bigu_sub_loop a b rem i borrow c) : Int)
        = (biguVal a : Int) - biguVal b + β * ACC_RADIX := by
  intro rem
  induction rem with
  | zero =>
    intro i borrow c hi hβ hc hch hinv
    have hi66 : i = 66 := by omega
    subst hi66
    refine ⟨⟨hc, hch⟩, (borrow : Int), by exact_mod_cast hβ, ?_⟩
    unfold bigu_sub_loop biguVal
    have hpw : ((2 : Int) ^ (64 * 66)) = (ACC_RADIX : Int) := by norm_num [ACC_RADIX]
    rw [← hpw]
    exact_mod_cast hinv
  | succ rem ih =>
    intro i borrow c hi hβ hc hch hinv
    have hilt : i < 66 := by omega
    obtain ⟨w1, w2, w3⟩ := word_sub_spec (a i) (b i) borrow (ha i) (hb i) hβ
    unfold bigu_sub_loop
    apply ih (i + 1) _ _ (by omega) w2
    · intro j
      by_cases hj : j = i
      · subst hj; rw [bigu_set_same]; exact w1
      · rw [bigu_set_other _ _ _ _ hj]; exact hc j
    · intro j hj
      rw [bigu_set_other _ _ _ _ (by omega)]
      exact hch j hj
    · -- the invariant advances by one limb
      have hsetlow := biguValTo_set_high c i
        ((((2 ^ 128 + a i - (b i + borrow)) % 2 ^ 128) % 2 ^ 64)) i (Nat.le_refl i)
      have hstep : biguValTo (bigu_set c i
            ((((2 ^ 128 + a i - (b i + borrow)) % 2 ^ 128) % 2 ^ 64))) (i + 1)
          = biguValTo c i
            + (((2 ^ 128 + a i - (b i + borrow)) % 2 ^ 128) % 2 ^ 64) * 2 ^ (64 * i) := by
        simp only [biguValTo]
        rw [hsetlow, bigu_set_same]
      rw [hstep]
      have hpow : ((2 : Int) ^ (64 * (i + 1))) = 2 ^ 64 * 2 ^ (64 * i) := by
        rw [← pow_add]; ring_nf
      have hpush : ((biguValTo c i
            + (((2 ^ 128 + a i - (b i + borrow)) % 2 ^ 128) % 2 ^ 64) * 2 ^ (64 * i) : Nat) : Int)
          = (biguValTo c i : Int)
            + ((((2 ^ 128 + a i - (b i + borrow)) % 2 ^ 128) % 2 ^ 64 : Nat) : Int)
              * 2 ^ (64 * i) := by push_cast; ring
      rw [hpush, hinv, w3, hpow]
      have ea : (biguValTo a (i + 1) : Int) = (biguValTo a i : Int)
          + (a i : Int) * 2 ^ (64 * i) := by
        simp [biguValTo]
      have eb : (biguValTo b (i + 1) : Int) = (biguValTo b i : Int)
          + (b i : Int) * 2 ^ (64 * i) := by
        simp [biguValTo]
      rw [ea, eb]
      ring

theorem bigu_sub_spec (a b : Bigu) (ha : BiguWF a) (hb : BiguWF b)
    (hle : biguVal b ≤ biguVal a) :
    BiguWF (bigu_sub a b) ∧ biguVal (bigu_sub a b) = biguVal a - biguVal b := by
  unfold bigu_sub
  obtain ⟨hwf, β, hβ, heq⟩ := bigu_sub_loop_spec a b ha.1 hb.1 66 0 0 bigu_zero
    (by omega) (by omega) (fun j => by simp [bigu_zero]) (fun j _ => rfl)
    (by simp [biguValTo])
  refine ⟨hwf, ?_⟩
  have hres_lt : biguVal (bigu_sub_loop a b 66 0 0 bigu_zero) < ACC_RADIX :=
    biguVal_lt _ hwf
  have hβ0 : β = 0 ∨ β = 1 := by
    rcases Int.le_iff_lt_or_eq.mp hβ with h | h
    · left
      have hβnn : 0 ≤ β := by
        by_contra hneg
        push_neg at hneg
        have h1 : (biguVal (bigu_sub_loop a b 66 0 0 bigu_zero) : Int)
            ≤ (biguVal a : Int) - biguVal b - ACC_RADIX := by
          rw [heq]
          have : β ≤ -1 := by omega
          have h2 : β * ACC_RADIX ≤ -1 * ACC_RADIX := by
            apply mul_le_mul_of_nonneg_right this
            positivity
          omega
        have h3 : (biguVal a : Int) < ACC_RADIX := by exact_mod_cast biguVal_lt a ha
        omega
      omega
    · right; exact h
  rcases hβ0 with h0 | h1
  · rw [h0] at heq
    simp only [zero_mul, add_zero] at heq
    omega
  · exfalso
    rw [h1, one_mul] at heq
    have h3 : (ACC_RADIX : Int) ≤ (biguVal (bigu_sub_loop a b 66 0 0 bigu_zero) : Int) := by
      have hbla : (biguVal b : Int) ≤ (biguVal a : Int) := by exact_mod_cast hle
      omega
    have h4 : (biguVal (bigu_sub_loop a b 66 0 0 bigu_zero) : Int) < ACC_RADIX := by
      exact_mod_cast hres_lt
    omega

/-! ## Most significant bit -/

/-- The portable bit-scan loop of `bigu_msb_index`: highest set bit of a word,
scanning from bit `n-1` downwards; `-1` when no bit below `n` is set. -/
def msb_bit_loop (w : Nat) : Nat → Int
  | 0 => -1
  | b + 1 => if (w >>> b) &&& 1 ≠ 0 then (b : Int) else msb_bit_loop w b

/-- Loop of `bigu_msb_index`: scan limbs `k-1, …, 0` from the top. -/
def bigu_msb_loop (a : Bigu) : Nat → Int
  | 0 => -1
  | i + 1 =>
    if a i ≠ 0 then (64 * i : Int) + msb_bit_loop (a i) 64
    else bigu_msb_loop a i

/-- `bigu_msb_index` from ddot.c: index of the highest set bit, `-1` if zero. -/
def bigu_msb_index (a : Bigu) : Int := bigu_msb_loop a 66

theorem msb_bit_loop_spec (w : Nat) (hw : 0 < w) :
    ∀ n, w < 2 ^ n →
      ∃ b : Nat, msb_bit_loop w n = (b : Int) ∧ b < n ∧ 2 ^ b ≤ w ∧ w < 2 ^ (b + 1) := by
  intro n
  induction n with
  | zero => intro h; omega
  | succ n ih =>
    intro hlt
    by_cases hbit : (w >>> n) &&& 1 ≠ 0
    · refine ⟨n, ?_, by omega, ?_, hlt⟩
      · simp only [msb_bit_loop, if_pos hbit]
      · rw [Nat.shiftRight_eq_div_pow, Nat.and_one_is_mod] at hbit
        by_contra hcon
        push_neg at hcon
        have : w / 2 ^ n = 0 := Nat.div_eq_of_lt hcon
        omega
    · have hlow : w < 2 ^ n := by
        rw [Nat.shiftRight_eq_div_pow, Nat.and_one_is_mod] at hbit
        push_neg at hbit
        have hdiv2 : w / 2 ^ n < 2 := by
          rw [Nat.div_lt_iff_lt_mul (Nat.pos_pow_of_pos _ (by norm_num))]
          calc w < 2 ^ (n + 1) := hlt
            _ = 2 * 2 ^ n := by rw [Nat.pow_succ]; ring
        have hdiv0 : w / 2 ^ n = 0 := by
          rcases (Nat.lt_iff_le_pred (by norm_num : (0:Nat) < 2)).mp hdiv2 with h1
          interval_cases h : w / 2 ^ n
          · rfl
          · norm_num at hbit
        exact (Nat.div_eq_zero_iff (Nat.pos_pow_of_pos _ (by norm_num))).mp hdiv0
      obtain ⟨b, hb1, hb2, hb3, hb4⟩ := ih hlow
      refine ⟨b, ?_, by omega, hb3, hb4⟩
      simp only [msb_bit_loop, if_neg hbit]
      exact hb1

theorem bigu_msb_loop_spec (a : Bigu) (ha : ∀ i, a i < 2 ^ 64) :
    ∀ k, (biguValTo a k = 0 → bigu_msb_loop a k = -1) ∧
      (0 < biguValTo a k →
        ∃ m : Nat, bigu_msb_loop a k = (m : Int) ∧ m < 64 * k ∧
          2 ^ m ≤ biguValTo a k ∧ biguValTo a k < 2 ^ (m + 1)) := by
  intro k
  induction k with
  | zero => exact ⟨fun _ => rfl, fun h => absurd h (by simp [biguValTo])⟩
  | succ k ih =>
    by_cases htop : a k ≠ 0
    · have hpos : 0 < a k := Nat.pos_of_ne_zero htop
      obtain ⟨b, hb1, hb2, hb3, hb4⟩ := msb_bit_loop_spec (a k) hpos 64 (ha k)
      have hvlow := biguValTo_lt a ha k
      have hlower : 2 ^ (64 * k + b) ≤ biguValTo a (k + 1) := by
        simp only [biguValTo]
        calc 2 ^ (64 * k + b) = 2 ^ b * 2 ^ (64 * k) := by
              rw [← Nat.pow_add]; ring_nf
          _ ≤ a k * 2 ^ (64 * k) := Nat.mul_le_mul_right _ hb3
          _ ≤ biguValTo a k + a k * 2 ^ (64 * k) := by omega
      have hupper : biguValTo a (k + 1) < 2 ^ (64 * k + b + 1) := by
        simp only [biguValTo]
        have h1 : biguValTo a k + a k * 2 ^ (64 * k) < (a k + 1) * 2 ^ (64 * k) := by
          have : (a k + 1) * 2 ^ (64 * k) = a k * 2 ^ (64 * k) + 2 ^ (64 * k) := by ring
          omega
        have h2 : (a k + 1) * 2 ^ (64 * k) ≤ 2 ^ (b + 1) * 2 ^ (64 * k) :=
          Nat.mul_le_mul_right _ (by omega)
        have h3 : (2 : Nat) ^ (b + 1) * 2 ^ (64 * k) = 2 ^ (64 * k + b + 1) := by
          rw [← Nat.pow_add]; ring_nf
        omega
      constructor
      · intro h0
        exfalso
        have : 0 < biguValTo a (k + 1) := by
          simp only [biguValTo]
          have : 0 < a k * 2 ^ (64 * k) :=
            Nat.mul_pos hpos (Nat.pos_pow_of_pos _ (by norm_num))
          omega
        omega
      · intro _
        refine ⟨64 * k + b, ?_, by omega, hlower, hupper⟩
        simp only [bigu_msb_loop, if_pos htop, hb1]
        push_cast
        ring
    · push_neg at htop
      have hstep : biguValTo a (k + 1) = biguValTo a k := by
        simp [biguValTo, htop]
      have hloop : bigu_msb_loop a (k + 1) = bigu_msb_loop a k := by
        simp [bigu_msb_loop, htop]
      obtain ⟨i1, i2⟩ := ih
      constructor
      · intro h0; rw [hloop]; exact i1 (by omega)
      · intro hpos
        obtain ⟨m, hm1, hm2, hm3, hm4⟩ := i2 (by omega)
        exact ⟨m, by rw [hloop]; exact hm1, by omega, by omega, by omega⟩

theorem bigu_msb_index_spec (a : Bigu) (ha : BiguWF a) :
    (biguVal a = 0 → bigu_msb_index a = -1) ∧
    (0 < biguVal a →
      ∃ m : Nat, bigu_msb_index a = (m : Int) ∧ m < 4224 ∧
        2 ^ m ≤ biguVal a ∧ biguVal a < 2 ^ (m + 1)) := by
  have := bigu_msb_loop_spec a ha.1 66
  unfold bigu_msb_index biguVal
  exact ⟨this.1, fun h => by
    obtain ⟨m, h1, h2, h3, h4⟩ := this.2 h
    exact ⟨m, h1, by omega, h3, h4⟩⟩

/-! ## Bit extraction and sticky test -/

/-- `bigu_extract_bits64` from ddot.c: the `count`-bit window of `a` starting
at bit `start`, zero-padded past the top.  The C `widx0 >= 0` guard and the
`int` division agree with `toNat`-division on every reachable call
(the finalizer only passes `start ≥ 0`). -/
def bigu_extract_bits64 (a : Bigu) (start : Int) (count : Nat) : Nat :=
  if count = 0 then 0
  else if (66 * 64 : Int) ≤ start then 0
  else if start + count - 1 < 0 then 0
  else
    ((((if start.toNat / 64 + 1 < 66 then a (start.toNat / 64 + 1) else 0) <<< 64
        ||| (if start.toNat / 64 < 66 then a (start.toNat / 64) else 0))
      >>> (start.toNat % 64)) % 2 ^ 64)
    &&& (if count = 64 then 2 ^ 64 - 1 else 2 ^ count - 1)

/-- The limb scan of `bigu_has_any_below` over limbs `0, …, f-1`. -/
def bigu_any_limb_below (a : Bigu) : Nat → Bool
  | 0 => false
  | f + 1 => bigu_any_limb_below a f || (a f != 0)

/-- `bigu_has_any_below` from ddot.c: is any bit strictly below `idx` set? -/
def bigu_has_any_below (a : Bigu) (idx : Int) : Bool :=
  if idx ≤ 0 then false
  else
    bigu_any_limb_below a (idx.toNat / 64)
    || (if 0 < idx.toNat % 64 ∧ idx.toNat / 64 < 66 then
          (a (idx.toNat / 64) &&& (2 ^ (idx.toNat % 64) - 1)) != 0
        else false)

/-- Value of limbs `q, …, q+k-1` (proof-side decomposition helper). -/
def biguPart (a : Bigu) (q : Nat) : Nat → Nat
  | 0 => 0
  | k + 1 => biguPart a q k + a (q + k) * 2 ^ (64 * k)

theorem biguValTo_add_part (a : Bigu) (q : Nat) :
    ∀ k, biguValTo a (q + k) = biguValTo a q + 2 ^ (64 * q) * biguPart a q k := by
  intro k
  induction k with
  | zero => simp [biguPart]
  | succ k ih =>
    have h1 : q + (k + 1) = (q + k) + 1 := by omega
    rw [h1]
    simp only [biguValTo, biguPart, ih]
    have h2 : a (q + k) * 2 ^ (64 * (q + k))
        = 2 ^ (64 * q) * (a (q + k) * 2 ^ (64 * k)) := by
      have : (2 : Nat) ^ (64 * (q + k)) = 2 ^ (64 * q) * 2 ^ (64 * k) := by
        rw [← Nat.pow_add]; ring_nf
      rw [this]; ring
    rw [h2]; ring

theorem biguPart_peel (a : Bigu) (q : Nat) :
    ∀ k, biguPart a q (k + 1) = a q + 2 ^ 64 * biguPart a (q + 1) k := by
  intro k
  induction k with
  | zero => simp [biguPart]
  | succ k ih =>
    show biguPart a q (k + 1) + a (q + (k + 1)) * 2 ^ (64 * (k + 1))
      = a q + 2 ^ 64 * biguPart a (q + 1) (k + 1)
    rw [ih]
    simp only [biguPart]
    have h1 : a (q + (k + 1)) * 2 ^ (64 * (k + 1))
        = 2 ^ 64 * (a (q + 1 + k) * 2 ^ (64 * k)) := by
      have he : q + (k + 1) = q + 1 + k := by omega
      have hp : (2 : Nat) ^ (64 * (k + 1)) = 2 ^ 64 * 2 ^ (64 * k) := by
        rw [← Nat.pow_add]; ring_nf
      rw [he, hp]; ring
    rw [h1]; ring

/-- Split the accumulator value at limb `q`, exposing two limbs. -/
theorem biguVal_split_two (a : Bigu) (ha : BiguWF a) (q : Nat) (hq : q ≤ 65) :
    ∃ H, biguVal a
      = biguValTo a q + 2 ^ (64 * q) * (a q + 2 ^ 64 * a (q + 1) + 2 ^ 128 * H) := by
  have hv : biguVal a = biguValTo a q + 2 ^ (64 * q) * biguPart a q (66 - q) := by
    have h2 := biguValTo_add_part a q (66 - q)
    rw [biguVal, show (66 : Nat) = q + (66 - q) from by omega, h2,
      show q + (66 - q) - q = 66 - q from by omega]
  by_cases hq65 : q = 65
  · subst hq65
    refine ⟨0, ?_⟩
    rw [hv]
    have h1 : (66 : Nat) - 65 = 0 + 1 := by norm_num
    rw [h1, biguPart_peel]
    simp [biguPart, ha.2 66 (by norm_num)]
  · have hq64 : q ≤ 64 := by omega
    have h1 : 66 - q = (64 - q) + 1 + 1 := by omega
    refine ⟨biguPart a (q + 1 + 1) (64 - q), ?_⟩
    rw [hv, h1, biguPart_peel, biguPart_peel]
    have h128 : (2 : Nat) ^ 128 = 2 ^ 64 * 2 ^ 64 := by norm_num
    rw [h128]
    ring

/-- Split the accumulator value at limb `q` (single-part form). -/
theorem biguVal_split (a : Bigu) (q : Nat) (hq : q ≤ 66) :
    biguVal a = biguValTo a q + 2 ^ (64 * q) * biguPart a q (66 - q) := by
  have h2 := biguValTo_add_part a q (66 - q)
  rw [biguVal, show (66 : Nat) = q + (66 - q) from by omega, h2,
    show q + (66 - q) - q = 66 - q from by omega]

theorem bigu_any_limb_below_spec (a : Bigu) :
    ∀ f, bigu_any_limb_below a f = decide (biguValTo a f ≠ 0) := by
  intro f
  induction f with
  | zero => simp [bigu_any_limb_below, biguValTo]
  | succ f ih =>
    simp only [bigu_any_limb_below, ih, biguValTo]
    have hp : 0 < 2 ^ (64 * f) := Nat.pos_pow_of_pos _ (by norm_num)
    rcases Nat.eq_zero_or_pos (a f) with h | h
    · simp [h]
    · rw [Bool.eq_iff_iff]
      simp only [Bool.or_eq_true, decide_eq_true_eq, bne_iff_ne, ne_eq]
      have h2 : 0 < a f * 2 ^ (64 * f) := Nat.mul_pos h hp
      omega

theorem bigu_extract_bits64_spec (a : Bigu) (ha : BiguWF a) (s count : Nat)
    (hc0 : 0 < count) (hc : count ≤ 64) :
    bigu_extract_bits64 a (s : Int) count = (biguVal a / 2 ^ s) % 2 ^ count := by
  unfold bigu_extract_bits64
  rw [if_neg (by omega : ¬ count = 0)]
  by_cases hbig : 4224 ≤ s
  · rw [if_pos (by exact_mod_cast (by omega : (4224 : Int) ≤ (s : Int)))]
    have hlt : biguVal a < 2 ^ s :=
      lt_of_lt_of_le (biguVal_lt a ha)
        (by unfold ACC_RADIX; exact Nat.pow_le_pow_right (by norm_num) hbig)
    rw [Nat.div_eq_of_lt hlt]
    simp
  · rw [if_neg (by push_neg at hbig ⊢; exact_mod_cast (by omega : ((66 * 64 : Nat) : Int) > (s : Int)))]
    rw [if_neg (by
      have : (0 : Int) ≤ (s : Int) + count - 1 := by
        have h1 : (1 : Int) ≤ (count : Int) := by exact_mod_cast hc0
        have h2 : (0 : Int) ≤ (s : Int) := Int.ofNat_nonneg s
        omega
      omega)]
    have htn : (s : Int).toNat = s := Int.toNat_natCast s
    rw [htn]
    have hq : s / 64 ≤ 65 := by omega
    -- the two limb reads reduce to plain limb reads under well-formedness
    have hr1 : (if s / 64 + 1 < 66 then a (s / 64 + 1) else 0) = a (s / 64 + 1) := by
      by_cases h : s / 64 + 1 < 66
      · rw [if_pos h]
      · rw [if_neg h, ha.2 (s / 64 + 1) (by omega)]
    have hr0 : (if s / 64 < 66 then a (s / 64) else 0) = a (s / 64) := by
      rw [if_pos (by omega)]
    rw [hr1, hr0]
    -- OR of disjoint words is addition
    have hor : a (s / 64 + 1) <<< 64 ||| a (s / 64)
        = 2 ^ 64 * a (s / 64 + 1) + a (s / 64) := by
      rw [Nat.shiftLeft_eq, Nat.mul_comm (a (s / 64 + 1)) (2 ^ 64)]
      exact (Nat.mul_add_lt_is_or (ha.1 (s / 64)) (a (s / 64 + 1))).symm
    rw [hor]
    -- the mask is uniformly 2^count - 1
    have hmask : (if count = 64 then 2 ^ 64 - 1 else 2 ^ count - 1)
        = 2 ^ count - 1 := by
      by_cases h : count = 64
      · rw [if_pos h, h]
      · rw [if_neg h]
    rw [hmask, Nat.and_pow_two_sub_one_eq_mod, Nat.shiftRight_eq_div_pow]
    rw [Nat.mod_mod_of_dvd _ (Nat.pow_dvd_pow 2 hc)]
    -- now both sides are pure arithmetic; split the value at limb q
    obtain ⟨H, hsplit⟩ := biguVal_split_two a ha (s / 64) hq
    rw [hsplit]
    have hvq : (biguValTo a (s / 64)
          + 2 ^ (64 * (s / 64)) * (a (s / 64) + 2 ^ 64 * a (s / 64 + 1) + 2 ^ 128 * H))
          / 2 ^ s
        = (a (s / 64) + 2 ^ 64 * a (s / 64 + 1) + 2 ^ 128 * H) / 2 ^ (s % 64) := by
      have hs64 : (2 : Nat) ^ s = 2 ^ (64 * (s / 64)) * 2 ^ (s % 64) := by
        rw [← Nat.pow_add]
        congr 1
        omega
      rw [hs64, ← Nat.div_div_eq_div_mul]
      congr 1
      rw [Nat.mul_comm (2 ^ (64 * (s / 64)))
        (a (s / 64) + 2 ^ 64 * a (s / 64 + 1) + 2 ^ 128 * H)]
      rw [Nat.add_mul_div_right _ _ (Nat.pos_pow_of_pos _ (by norm_num))]
      rw [Nat.div_eq_of_lt (biguValTo_lt a ha.1 (s / 64))]
      omega
    rw [hvq]
    -- strip the 2^128·H part: it only contributes multiples of 2^count
    have hrlt : s % 64 < 64 := Nat.mod_lt _ (by norm_num)
    have hsplit2 : (a (s / 64) + 2 ^ 64 * a (s / 64 + 1) + 2 ^ 128 * H) / 2 ^ (s % 64)
        = (a (s / 64) + 2 ^ 64 * a (s / 64 + 1)) / 2 ^ (s % 64)
          + 2 ^ (128 - s % 64) * H := by
      have h1 : (2 : Nat) ^ 128 * H = 2 ^ (s % 64) * (2 ^ (128 - s % 64) * H) := by
        rw [← Nat.mul_assoc, ← Nat.pow_add]
        congr 2
        omega
      rw [h1, Nat.add_mul_div_left _ _ (Nat.pos_pow_of_pos _ (by norm_num))]
    rw [hsplit2]
    have hstrip : ((a (s / 64) + 2 ^ 64 * a (s / 64 + 1)) / 2 ^ (s % 64)
          + 2 ^ (128 - s % 64) * H) % 2 ^ count
        = ((a (s / 64) + 2 ^ 64 * a (s / 64 + 1)) / 2 ^ (s % 64)) % 2 ^ count := by
      have h1 : (2 : Nat) ^ (128 - s % 64) * H
          = 2 ^ count * (2 ^ (128 - s % 64 - count) * H) := by
        rw [← Nat.mul_assoc, ← Nat.pow_add]
        congr 2
        omega
      rw [h1, Nat.add_mul_mod_self_left]
    rw [hstrip, Nat.add_comm (2 ^ 64 * a (s / 64 + 1)) (a (s / 64))]

theorem bigu_any_limb_high (a : Bigu) (ha : BiguWF a) :
    ∀ d, bigu_any_limb_below a (66 + d) = bigu_any_limb_below a 66 := by
  intro d
  induction d with
  | zero => rfl
  | succ d ih =>
    show (bigu_any_limb_below a (66 + d) || (a (66 + d) != 0))
      = bigu_any_limb_below a 66
    rw [ih, ha.2 (66 + d) (by omega)]
    simp

theorem bigu_has_any_below_spec (a : Bigu) (ha : BiguWF a) (j : Nat) :
    bigu_has_any_below a (j : Int) = decide (biguVal a % 2 ^ j ≠ 0) := by
  unfold bigu_has_any_below
  by_cases hj0 : j = 0
  · subst hj0
    simp [Nat.mod_one]
  · rw [if_neg (by exact_mod_cast (by omega : ¬ (j : Int) ≤ 0))]
    have htn : (j : Int).toNat = j := Int.toNat_natCast j
    rw [htn]
    by_cases hf : j / 64 < 66
    · -- split the value at limb j/64
      have hsplit := biguVal_split a (j / 64) (by omega)
      have hm : 1 ≤ 66 - j / 64 := by omega
      have hpeel : biguPart a (j / 64) (66 - j / 64)
          = a (j / 64) + 2 ^ 64 * biguPart a (j / 64 + 1) (66 - j / 64 - 1) := by
        have hp := biguPart_peel a (j / 64) (66 - j / 64 - 1)
        rw [show 66 - j / 64 - 1 + 1 = 66 - j / 64 from by omega] at hp
        exact hp
      have hrlt : j % 64 < 64 := Nat.mod_lt _ (by norm_num)
      -- biguVal a % 2^j = valTo (j/64) + 2^(64*(j/64)) * (a (j/64) % 2^(j%64))
      have hmod : biguVal a % 2 ^ j
          = biguValTo a (j / 64)
            + 2 ^ (64 * (j / 64)) * (a (j / 64) % 2 ^ (j % 64)) := by
        rw [hsplit]
        have hjsplit : (2 : Nat) ^ j = 2 ^ (64 * (j / 64)) * 2 ^ (j % 64) := by
          rw [← Nat.pow_add]
          congr 1
          omega
        rw [hjsplit]
        have hPmod : biguPart a (j / 64) (66 - j / 64) % 2 ^ (j % 64)
            = a (j / 64) % 2 ^ (j % 64) := by
          rw [hpeel]
          have h1 : (2 : Nat) ^ 64 * biguPart a (j / 64 + 1) (66 - j / 64 - 1)
              = 2 ^ (j % 64) * (2 ^ (64 - j % 64)
                  * biguPart a (j / 64 + 1) (66 - j / 64 - 1)) := by
            rw [← Nat.mul_assoc, ← Nat.pow_add]
            congr 2
            omega
          rw [h1, Nat.add_mul_mod_self_left]
        -- (A + B*P) % (B*D) = A + B*(P % D)  when A < B
        have hA : biguValTo a (j / 64) < 2 ^ (64 * (j / 64)) :=
          biguValTo_lt a ha.1 (j / 64)
        have hBP : 2 ^ (64 * (j / 64)) * biguPart a (j / 64) (66 - j / 64)
              % (2 ^ (64 * (j / 64)) * 2 ^ (j % 64))
            = 2 ^ (64 * (j / 64)) * (biguPart a (j / 64) (66 - j / 64) % 2 ^ (j % 64)) :=
          Nat.mul_mod_mul_left _ _ _
        have h2 : biguPart a (j / 64) (66 - j / 64) % 2 ^ (j % 64) + 1 ≤ 2 ^ (j % 64) :=
          Nat.mod_lt _ (by positivity)
        have h3 : 2 ^ (64 * (j / 64))
              * (biguPart a (j / 64) (66 - j / 64) % 2 ^ (j % 64) + 1)
            ≤ 2 ^ (64 * (j / 64)) * 2 ^ (j % 64) :=
          Nat.mul_le_mul_left _ h2
        have h4 : 2 ^ (64 * (j / 64))
              * (biguPart a (j / 64) (66 - j / 64) % 2 ^ (j % 64) + 1)
            = 2 ^ (64 * (j / 64)) * (biguPart a (j / 64) (66 - j / 64) % 2 ^ (j % 64))
              + 2 ^ (64 * (j / 64)) := by ring
        have hfits : biguValTo a (j / 64)
            + 2 ^ (64 * (j / 64)) * (biguPart a (j / 64) (66 - j / 64) % 2 ^ (j % 64))
            < 2 ^ (64 * (j / 64)) * 2 ^ (j % 64) := by omega
        have hBPlt : 2 ^ (64 * (j / 64)) * (biguPart a (j / 64) (66 - j / 64) % 2 ^ (j % 64))
            < 2 ^ (64 * (j / 64)) * 2 ^ (j % 64) := by omega
        have hstep1 : (biguValTo a (j / 64)
              + 2 ^ (64 * (j / 64)) * biguPart a (j / 64) (66 - j / 64))
              % (2 ^ (64 * (j / 64)) * 2 ^ (j % 64))
            = (biguValTo a (j / 64)
                + 2 ^ (64 * (j / 64)) * (biguPart a (j / 64) (66 - j / 64) % 2 ^ (j % 64)))
              % (2 ^ (64 * (j / 64)) * 2 ^ (j % 64)) :=
          Nat.ModEq.add_left _ (by
            show 2 ^ (64 * (j / 64)) * biguPart a (j / 64) (66 - j / 64)
                % (2 ^ (64 * (j / 64)) * 2 ^ (j % 64))
              = 2 ^ (64 * (j / 64)) * (biguPart a (j / 64) (66 - j / 64) % 2 ^ (j % 64))
                % (2 ^ (64 * (j / 64)) * 2 ^ (j % 64))
            rw [hBP, Nat.mod_eq_of_lt hBPlt])
        calc (biguValTo a (j / 64)
              + 2 ^ (64 * (j / 64)) * biguPart a (j / 64) (66 - j / 64))
              % (2 ^ (64 * (j / 64)) * 2 ^ (j % 64))
            = (biguValTo a (j / 64)
                + 2 ^ (64 * (j / 64)) * (biguPart a (j / 64) (66 - j / 64) % 2 ^ (j % 64)))
              % (2 ^ (64 * (j / 64)) * 2 ^ (j % 64)) := hstep1
          _ = biguValTo a (j / 64)
                + 2 ^ (64 * (j / 64)) * (biguPart a (j / 64) (66 - j / 64) % 2 ^ (j % 64)) :=
              Nat.mod_eq_of_lt hfits
          _ = _ := by rw [hPmod]
      rw [hmod, Bool.eq_iff_iff]
      simp only [Bool.or_eq_true, decide_eq_true_eq, ne_eq]
      rw [bigu_any_limb_below_spec]
      simp only [decide_eq_true_eq, ne_eq]
      have hBpos : 0 < 2 ^ (64 * (j / 64)) := Nat.pos_pow_of_pos _ (by norm_num)
      constructor
      · rintro (h | h)
        · intro hcon
          omega
        · -- the masked-limb disjunct
          by_cases hr : 0 < j % 64
          · rw [if_pos ⟨hr, hf⟩] at h
            rw [Nat.and_pow_two_sub_one_eq_mod] at h
            simp only [bne_iff_ne, ne_eq] at h
            intro hcon
            have : 2 ^ (64 * (j / 64)) * (a (j / 64) % 2 ^ (j % 64)) = 0 := by omega
            rcases Nat.mul_eq_zero.mp this with h5 | h5
            · omega
            · exact h h5
          · rw [if_neg (by omega : ¬ (0 < j % 64 ∧ j / 64 < 66))] at h
            exact absurd h (by simp)
      · intro h
        by_cases hv : biguValTo a (j / 64) ≠ 0
        · exact Or.inl hv
        · right
          push_neg at hv
          have hr : 0 < j % 64 := by
            by_contra hr0
            push_neg at hr0
            have h64 : j % 64 = 0 := by omega
            rw [hv, h64] at h
            simp only [pow_zero, Nat.mod_one, Nat.mul_zero, Nat.add_zero,
              Nat.zero_add] at h
            simp at h
          rw [if_pos ⟨hr, hf⟩, Nat.and_pow_two_sub_one_eq_mod]
          simp only [bne_iff_ne, ne_eq]
          intro hcon
          rw [hv, hcon] at h
          simp at h
    · -- j / 64 ≥ 66 : everything below 2^j, so the test is just "value ≠ 0"
      have hjl : 4224 ≤ j := by omega
      have hvlt : biguVal a < 2 ^ j :=
        lt_of_lt_of_le (biguVal_lt a ha)
          (by unfold ACC_RADIX; exact Nat.pow_le_pow_right (by norm_num) hjl)
      rw [Nat.mod_eq_of_lt hvlt]
      rw [if_neg (by omega : ¬ (0 < j % 64 ∧ j / 64 < 66))]
      have hd : j / 64 = 66 + (j / 64 - 66) := by omega
      rw [hd, bigu_any_limb_high a ha, bigu_any_limb_below_spec]
      simp [biguVal]

/-! ## Packing and the finalizer -/

/-- `pack_double` from ddot.c, returning the 64-bit pattern.  `INT_MIN_SENT`
selects the subnormal encoding (biased exponent 0), `INT_MAX_SENT` selects
infinity. -/
def pack_double (sign : Int) (unbiased_exp : Int) (frac52 : Nat) : Nat :=
  let signbit : Nat := if sign < 0 then 2 ^ 63 else 0
  if unbiased_exp = INT_MIN_SENT then
    signbit ||| (0 <<< 52) ||| (frac52 &&& (2 ^ 52 - 1))
  else if unbiased_exp = INT_MAX_SENT then
    signbit ||| (0x7FF <<< 52) ||| 0
  else
    signbit
      ||| (((if unbiased_exp + 1023 ≤ 0 then 0 else unbiased_exp + 1023).toNat
            &&& 0x7FF) <<< 52)
      ||| (frac52 &&& (2 ^ 52 - 1))

/-- OR of the three binary64 fields is plain addition. -/
theorem or_fields (s e f : Nat) (he : e < 2 ^ 11) (hf : f < 2 ^ 52) :
    (s * 2 ^ 63) ||| (e <<< 52) ||| f = s * 2 ^ 63 + e * 2 ^ 52 + f := by
  rw [Nat.shiftLeft_eq]
  have h1 : (s * 2 ^ 63) ||| (e * 2 ^ 52) = s * 2 ^ 63 + e * 2 ^ 52 := by
    have hb : e * 2 ^ 52 < 2 ^ 63 := by
      calc e * 2 ^ 52 < 2 ^ 11 * 2 ^ 52 :=
            (Nat.mul_lt_mul_right (by norm_num)).mpr he
        _ = 2 ^ 63 := by norm_num
    have h := Nat.mul_add_lt_is_or hb s
    rw [Nat.mul_comm (2 ^ 63) s] at h
    exact h.symm
  rw [h1]
  have h2 : s * 2 ^ 63 + e * 2 ^ 52 = 2 ^ 52 * (s * 2 ^ 11 + e) := by ring
  rw [h2]
  have h3 := Nat.mul_add_lt_is_or hf (s * 2 ^ 11 + e)
  rw [← h3]

theorem pack_double_inf (sign : Int) :
    pack_double sign INT_MAX_SENT 0
      = (if sign < 0 then 2 ^ 63 else 0) + 0x7FF0000000000000 := by
  unfold pack_double
  rw [if_neg (by norm_num [INT_MIN_SENT, INT_MAX_SENT]), if_pos rfl]
  by_cases hs : sign < 0
  · rw [if_pos hs]
    have h := or_fields 1 0x7FF 0 (by norm_num) (by norm_num)
    rw [Nat.one_mul] at h
    rw [h]
    norm_num
  · rw [if_neg hs]
    have h := or_fields 0 0x7FF 0 (by norm_num) (by norm_num)
    rw [Nat.zero_mul] at h
    rw [h]
    norm_num

theorem pack_double_subnormal (sign : Int) (f : Nat) (hf : f < 2 ^ 52) :
    pack_double sign INT_MIN_SENT f = (if sign < 0 then 2 ^ 63 else 0) + f := by
  unfold pack_double
  rw [if_pos rfl]
  have hmask : f &&& (2 ^ 52 - 1) = f := by
    rw [Nat.and_pow_two_sub_one_eq_mod, Nat.mod_eq_of_lt hf]
  rw [hmask]
  by_cases hs : sign < 0
  · rw [if_pos hs]
    have h := or_fields 1 0 f (by norm_num) hf
    rw [Nat.one_mul] at h
    rw [h]
    ring
  · rw [if_neg hs]
    have h := or_fields 0 0 f (by norm_num) hf
    rw [Nat.zero_mul] at h
    rw [h]
    ring

theorem pack_double_normal (sign : Int) (e : Int) (f : Nat)
    (he1 : -1022 ≤ e) (he2 : e ≤ 1023) (hf : f < 2 ^ 52) :
    pack_double sign e f
      = (if sign < 0 then 2 ^ 63 else 0) + (e + 1023).toNat * 2 ^ 52 + f := by
  unfold pack_double
  rw [if_neg (by unfold INT_MIN_SENT; omega), if_neg (by unfold INT_MAX_SENT; omega)]
  rw [if_neg (by omega : ¬ e + 1023 ≤ 0)]
  have hmask : f &&& (2 ^ 52 - 1) = f := by
    rw [Nat.and_pow_two_sub_one_eq_mod, Nat.mod_eq_of_lt hf]
  have hemask : (e + 1023).toNat &&& 0x7FF = (e + 1023).toNat := by
    rw [show (0x7FF : Nat) = 2 ^ 11 - 1 from by norm_num,
      Nat.and_pow_two_sub_one_eq_mod]
    exact Nat.mod_eq_of_lt (by omega)
  rw [hmask, hemask]
  by_cases hs : sign < 0
  · rw [if_pos hs]
    have h := or_fields 1 (e + 1023).toNat f (by omega) hf
    rw [Nat.one_mul] at h
    rw [h]
  · rw [if_neg hs]
    have h := or_fields 0 (e + 1023).toNat f (by omega) hf
    rw [Nat.zero_mul] at h
    rw [h]

/-- `finalize_to_double` from ddot.c, returning the 64-bit pattern. -/
def finalize_to_double (Pos Neg : Bigu) : Nat :=
  let cmp := bigu_cmp Pos Neg
  if cmp = 0 then 0
  else
    let mag := if 0 < cmp then bigu_sub Pos Neg else bigu_sub Neg Pos
    let sgn : Int := if 0 < cmp then 1 else -1
    let msb := bigu_msb_index mag
    if msb < 0 then 0
    else
      let Estar : Int := ACC_EMIN + msb
      if 1023 < Estar then pack_double sgn INT_MAX_SENT 0
      else if Estar < -1022 then
        let bot : Int := -1074 - ACC_EMIN
        let mant52 := bigu_extract_bits64 mag bot 52
        let g_idx : Int := bot - 1
        let guard : Bool :=
          if 0 ≤ g_idx then (bigu_extract_bits64 mag g_idx 1) &&& 1 != 0 else false
        let sticky := bigu_has_any_below mag g_idx
        if guard && (sticky || (mant52 &&& 1 != 0)) then
          if mant52 + 1 = 2 ^ 52 then pack_double sgn (-1022) 0
          else pack_double sgn INT_MIN_SENT (mant52 + 1)
        else pack_double sgn INT_MIN_SENT mant52
      else
        let cut : Int := msb - 52
        let sig53 := bigu_extract_bits64 mag cut 53
        let g_idx : Int := cut - 1
        let guard : Bool :=
          if 0 ≤ g_idx then (bigu_extract_bits64 mag g_idx 1) &&& 1 != 0 else false
        let sticky := bigu_has_any_below mag g_idx
        if guard && (sticky || (sig53 &&& 1 != 0)) then
          if sig53 + 1 = 2 ^ 53 then
            if 1023 < Estar + 1 then pack_double sgn INT_MAX_SENT 0
            else pack_double sgn (Estar + 1) 0
          else pack_double sgn Estar ((sig53 + 1) &&& (2 ^ 52 - 1))
        else pack_double sgn Estar (sig53 &&& (2 ^ 52 - 1))

/-! ## The reference rounding function

Modelled from the spec: "For any input whose exact sum `S` is finite, the
result equals `round_to_nearest_even_binary64(S)`", with `S = D · 2^ACC_EMIN`
for an integer `D`, and "round-to-nearest, ties-to-even, exactly once, on the
final 53-bit significand", including the subnormal range and overflow to ±∞
after rounding. -/

/-- Fuelled integer base-2 logarithm (kernel-reducible). -/
def natLog2Fuel : Nat → Nat → Nat
  | 0, _ => 0
  | fuel + 1, m => if m < 2 then 0 else natLog2Fuel fuel (m / 2) + 1

/-- Position of the most significant bit of `m` (for `m ≥ 1`). -/
def natLog2 (m : Nat) : Nat := natLog2Fuel m m

theorem natLog2Fuel_spec :
    ∀ fuel m, 1 ≤ m → m ≤ fuel →
      2 ^ natLog2Fuel fuel m ≤ m ∧ m < 2 ^ (natLog2Fuel fuel m + 1) := by
  intro fuel
  induction fuel with
  | zero => intro m h1 h2; omega
  | succ fuel ih =>
    intro m h1 h2
    unfold natLog2Fuel
    by_cases hm : m < 2
    · rw [if_pos hm]
      norm_num
      omega
    · rw [if_neg hm]
      obtain ⟨l1, l2⟩ := ih (m / 2) (by omega) (by omega)
      constructor
      · calc 2 ^ (natLog2Fuel fuel (m / 2) + 1)
            = 2 * 2 ^ natLog2Fuel fuel (m / 2) := by ring
          _ ≤ 2 * (m / 2) := by omega
          _ ≤ m := by omega
      · calc m < 2 * (m / 2) + 2 := by omega
          _ ≤ 2 * 2 ^ (natLog2Fuel fuel (m / 2) + 1) := by omega
          _ = 2 ^ (natLog2Fuel fuel (m / 2) + 1 + 1) := by ring

theorem natLog2_spec (m : Nat) (h : 1 ≤ m) :
    2 ^ natLog2 m ≤ m ∧ m < 2 ^ (natLog2 m + 1) :=
  natLog2Fuel_spec m m h (Nat.le_refl m)

/-- The power-of-two sandwich determines the exponent uniquely. -/
theorem log2_unique (m b : Nat) (h1 : 2 ^ b ≤ m) (h2 : m < 2 ^ (b + 1)) :
    natLog2 m = b := by
  have hm : 1 ≤ m := le_trans (Nat.one_le_two_pow) h1
  obtain ⟨l1, l2⟩ := natLog2_spec m hm
  by_contra hne
  rcases Nat.lt_or_ge (natLog2 m) b with h | h
  · have : (2 : Nat) ^ (natLog2 m + 1) ≤ 2 ^ b :=
      Nat.pow_le_pow_right (by norm_num) (by omega)
    omega
  · have hgt : b < natLog2 m := by omega
    have : (2 : Nat) ^ (b + 1) ≤ 2 ^ natLog2 m :=
      Nat.pow_le_pow_right (by norm_num) (by omega)
    omega

/-- Core of the reference rounding: `sgnBit + ` the rounded magnitude encoding
of `m · 2^ACC_EMIN`, for `m ≥ 1`. -/
def roundMagCore (sgnBit : Nat) (m : Nat) : Nat :=
  let e := natLog2 m
  if 3171 < e then sgnBit + 0x7FF0000000000000
  else if e < 1126 then
    let q := m / 2 ^ 1074
    let r := m % 2 ^ 1074
    let q' := if 2 ^ 1073 < r ∨ (r = 2 ^ 1073 ∧ q % 2 = 1) then q + 1 else q
    sgnBit + q'
  else
    let q := m / 2 ^ (e - 52)
    let r := m % 2 ^ (e - 52)
    let q' := if 2 ^ (e - 53) < r ∨ (r = 2 ^ (e - 53) ∧ q % 2 = 1) then q + 1 else q
    if q' = 2 ^ 53 then
      if e = 3171 then sgnBit + 0x7FF0000000000000
      else sgnBit + (e - 1124) * 2 ^ 52
    else sgnBit + (e - 1125) * 2 ^ 52 + (q' - 2 ^ 52)

/-- Modelled from the spec: IEEE-754 round-to-nearest, ties-to-even, of the
exact value `D · 2^ACC_EMIN` into a binary64 bit pattern.  The rounding
happens exactly once, on the final 53-bit significand (as a quotient with
remainder-based tie handling); values below the subnormal range round
through the fixed window at bit 1074 (`= -1074 - ACC_EMIN`); a magnitude at
or above `2^1024` after rounding gives ±∞ (exponent `E★ = e - 2148`, biased
`e - 1125`). -/
def round_to_nearest_even_binary64 (D : Int) : Nat :=
  if D = 0 then 0
  else roundMagCore (if D < 0 then 2 ^ 63 else 0) D.natAbs

/-- The mantissa-rounding decomposition at a power-of-two boundary:
`m % 2^(k+1)` in terms of the guard bit at `k` and the sticky bits below. -/
theorem guard_sticky_decomp (m k : Nat) :
    m % (2 ^ k * 2) = m % 2 ^ k + 2 ^ k * (m / 2 ^ k % 2) :=
  Nat.mod_mul

theorem finalize_tail_eq (mag : Bigu) (sgn : Int) (hw : BiguWF mag)
    (hm : 0 < biguVal mag) :
    (if bigu_msb_index mag < 0 then 0
     else
       if 1023 < ACC_EMIN + bigu_msb_index mag then pack_double sgn INT_MAX_SENT 0
       else if ACC_EMIN + bigu_msb_index mag < -1022 then
         if (if 0 ≤ (-1074 - ACC_EMIN - 1 : Int) then
               bigu_extract_bits64 mag (-1074 - ACC_EMIN - 1) 1 &&& 1 != 0
             else false)
             && (bigu_has_any_below mag (-1074 - ACC_EMIN - 1)
                 || (bigu_extract_bits64 mag (-1074 - ACC_EMIN) 52 &&& 1 != 0)) then
           if bigu_extract_bits64 mag (-1074 - ACC_EMIN) 52 + 1 = 2 ^ 52 then
             pack_double sgn (-1022) 0
           else pack_double sgn INT_MIN_SENT
             (bigu_extract_bits64 mag (-1074 - ACC_EMIN) 52 + 1)
         else pack_double sgn INT_MIN_SENT (bigu_extract_bits64 mag (-1074 - ACC_EMIN) 52)
       else
         if (if 0 ≤ (bigu_msb_index mag - 52 - 1 : Int) then
               bigu_extract_bits64 mag (bigu_msb_index mag - 52 - 1) 1 &&& 1 != 0
             else false)
             && (bigu_has_any_below mag (bigu_msb_index mag - 52 - 1)
                 || (bigu_extract_bits64 mag (bigu_msb_index mag - 52) 53 &&& 1 != 0)) then
           if bigu_extract_bits64 mag (bigu_msb_index mag - 52) 53 + 1 = 2 ^ 53 then
             if 1023 < ACC_EMIN + bigu_msb_index mag + 1 then pack_double sgn INT_MAX_SENT 0
             else pack_double sgn (ACC_EMIN + bigu_msb_index mag + 1) 0
           else pack_double sgn (ACC_EMIN + bigu_msb_index mag)
             ((bigu_extract_bits64 mag (bigu_msb_index mag - 52) 53 + 1) &&& (2 ^ 52 - 1))
         else pack_double sgn (ACC_EMIN + bigu_msb_index mag)
           (bigu_extract_bits64 mag (bigu_msb_index mag - 52) 53 &&& (2 ^ 52 - 1)))
    = roundMagCore (if sgn < 0 then 2 ^ 63 else 0) (biguVal mag) := by
  obtain ⟨M, hMi, hM4224, hMl, hMu⟩ := (bigu_msb_index_spec mag hw).2 hm
  have hlog : natLog2 (biguVal mag) = M := log2_unique _ M hMl hMu
  rw [hMi]
  rw [if_neg (by omega : ¬ ((M : Int) < 0))]
  unfold roundMagCore
  dsimp only
  rw [hlog]
  by_cases hOV : 3171 < M
  · rw [if_pos (by unfold ACC_EMIN; omega : (1023 : Int) < ACC_EMIN + M), if_pos hOV,
      pack_double_inf]
  · rw [if_neg (by unfold ACC_EMIN; omega : ¬ (1023 : Int) < ACC_EMIN + M), if_neg hOV]
    by_cases hSub : M < 1126
    · rw [if_pos (by unfold ACC_EMIN; omega : (ACC_EMIN + M : Int) < -1022), if_pos hSub]
      -- subnormal branch
      rw [show (-1074 - ACC_EMIN - 1 : Int) = ((1073 : Nat) : Int) from by
            unfold ACC_EMIN; norm_num,
          show (-1074 - ACC_EMIN : Int) = ((1074 : Nat) : Int) from by
            unfold ACC_EMIN; norm_num]
      rw [if_pos (by positivity : (0 : Int) ≤ ((1073 : Nat) : Int))]
      rw [bigu_extract_bits64_spec mag hw 1073 1 (by norm_num) (by norm_num),
          bigu_extract_bits64_spec mag hw 1074 52 (by norm_num) (by norm_num),
          bigu_has_any_below_spec mag hw 1073]
      have hq52 : biguVal mag / 2 ^ 1074 < 2 ^ 52 := by
        rw [Nat.div_lt_iff_lt_mul (by positivity)]
        calc biguVal mag < 2 ^ (M + 1) := hMu
          _ ≤ 2 ^ 1126 := Nat.pow_le_pow_right (by norm_num) (by omega)
          _ = 2 ^ 52 * 2 ^ 1074 := by rw [← Nat.pow_add]
      rw [Nat.mod_eq_of_lt hq52]
      -- name the three quantities
      have hand1 : ∀ x : Nat, x &&& 1 = x % 2 := fun x => Nat.and_one_is_mod x
      have hg1 : biguVal mag / 2 ^ 1073 % 2 ^ 1 &&& 1 = biguVal mag / 2 ^ 1073 % 2 := by
        rw [hand1, pow_one]
        exact Nat.mod_mod_of_dvd _ (dvd_refl 2)
      have hdec : biguVal mag % 2 ^ 1074
          = biguVal mag % 2 ^ 1073 + 2 ^ 1073 * (biguVal mag / 2 ^ 1073 % 2) := by
        have h := guard_sticky_decomp (biguVal mag) 1073
        rw [show (2 : Nat) ^ 1073 * 2 = 2 ^ 1074 from by rw [← Nat.pow_succ]] at h
        exact h
      have hlowlt : biguVal mag % 2 ^ 1073 < 2 ^ 1073 := Nat.mod_lt _ (by positivity)
      have hglt : biguVal mag / 2 ^ 1073 % 2 < 2 := Nat.mod_lt _ (by norm_num)
      have hqparity : biguVal mag / 2 ^ 1074 % 2
          = biguVal mag / 2 ^ 1073 / 2 % 2 := by
        rw [Nat.div_div_eq_div_mul,
          show (2 : Nat) ^ 1073 * 2 = 2 ^ 1074 from by rw [← Nat.pow_succ]]
      have hPB : (((biguVal mag / 2 ^ 1073 % 2 ^ 1 &&& 1 != 0)
            && (decide (biguVal mag % 2 ^ 1073 ≠ 0)
                || (biguVal mag / 2 ^ 1074 &&& 1 != 0))) = true)
          ↔ (2 ^ 1073 < biguVal mag % 2 ^ 1074
              ∨ (biguVal mag % 2 ^ 1074 = 2 ^ 1073 ∧ biguVal mag / 2 ^ 1074 % 2 = 1)) := by
        rw [hg1]
        simp only [Bool.and_eq_true, Bool.or_eq_true, bne_iff_ne, ne_eq,
          decide_eq_true_eq, hand1]
        omega
      by_cases hP : 2 ^ 1073 < biguVal mag % 2 ^ 1074
          ∨ (biguVal mag % 2 ^ 1074 = 2 ^ 1073 ∧ biguVal mag / 2 ^ 1074 % 2 = 1)
      · rw [if_pos (hPB.mpr hP), if_pos hP]
        by_cases hroll : biguVal mag / 2 ^ 1074 + 1 = 2 ^ 52
        · rw [if_pos hroll,
            pack_double_normal sgn (-1022) 0 (by norm_num) (by norm_num) (by positivity),
            hroll]
          norm_num
        · rw [if_neg hroll,
            pack_double_subnormal sgn (biguVal mag / 2 ^ 1074 + 1) (by omega)]
      · rw [if_neg (fun hc => hP (hPB.mp hc)), if_neg hP,
          pack_double_subnormal sgn (biguVal mag / 2 ^ 1074) hq52]
    · rw [if_neg (by unfold ACC_EMIN; omega : ¬ (ACC_EMIN + M : Int) < -1022),
        if_neg hSub]
      have hM1126 : 1126 ≤ M := by omega
      rw [show ((M : Int) - 52 - 1) = ((M - 53 : Nat) : Int) from by omega,
        show ((M : Int) - 52) = ((M - 52 : Nat) : Int) from by omega]
      rw [if_pos (by positivity : (0 : Int) ≤ ((M - 53 : Nat) : Int))]
      rw [bigu_extract_bits64_spec mag hw (M - 53) 1 (by norm_num) (by norm_num),
          bigu_extract_bits64_spec mag hw (M - 52) 53 (by norm_num) (by norm_num),
          bigu_has_any_below_spec mag hw (M - 53)]
      have hpow5253 : (2 : Nat) ^ (M - 53) * 2 = 2 ^ (M - 52) := by
        rw [← Nat.pow_succ]
        congr 1
        omega
      have hq53 : biguVal mag / 2 ^ (M - 52) < 2 ^ 53 := by
        rw [Nat.div_lt_iff_lt_mul (by positivity)]
        calc biguVal mag < 2 ^ (M + 1) := hMu
          _ = 2 ^ 53 * 2 ^ (M - 52) := by rw [← Nat.pow_add]; congr 1; omega
      rw [Nat.mod_eq_of_lt hq53]
      have hqge : 2 ^ 52 ≤ biguVal mag / 2 ^ (M - 52) := by
        rw [Nat.le_div_iff_mul_le (by positivity)]
        calc 2 ^ 52 * 2 ^ (M - 52) = 2 ^ M := by rw [← Nat.pow_add]; congr 1; omega
          _ ≤ biguVal mag := hMl
      have hand1 : ∀ x : Nat, x &&& 1 = x % 2 := fun x => Nat.and_one_is_mod x
      have hg1 : biguVal mag / 2 ^ (M - 53) % 2 ^ 1 &&& 1
          = biguVal mag / 2 ^ (M - 53) % 2 := by
        rw [hand1, pow_one]
        exact Nat.mod_mod_of_dvd _ (dvd_refl 2)
      have hdec : biguVal mag % 2 ^ (M - 52)
          = biguVal mag % 2 ^ (M - 53)
            + 2 ^ (M - 53) * (biguVal mag / 2 ^ (M - 53) % 2) := by
        have h := guard_sticky_decomp (biguVal mag) (M - 53)
        rw [hpow5253] at h
        exact h
      have hlowlt : biguVal mag % 2 ^ (M - 53) < 2 ^ (M - 53) :=
        Nat.mod_lt _ (by positivity)
      have hqpar : biguVal mag / 2 ^ (M - 52)
          = biguVal mag / 2 ^ (M - 53) / 2 := by
        rw [Nat.div_div_eq_div_mul, hpow5253]
      have hHpos : 0 < (2 : Nat) ^ (M - 53) := by positivity
      have hPB : (((biguVal mag / 2 ^ (M - 53) % 2 ^ 1 &&& 1 != 0)
            && (decide (biguVal mag % 2 ^ (M - 53) ≠ 0)
                || (biguVal mag / 2 ^ (M - 52) &&& 1 != 0))) = true)
          ↔ (2 ^ (M - 53) < biguVal mag % 2 ^ (M - 52)
              ∨ (biguVal mag % 2 ^ (M - 52) = 2 ^ (M - 53)
                  ∧ biguVal mag / 2 ^ (M - 52) % 2 = 1)) := by
        rw [hg1]
        simp only [Bool.and_eq_true, Bool.or_eq_true, bne_iff_ne, ne_eq,
          decide_eq_true_eq, hand1]
        rcases Nat.mod_two_eq_zero_or_one (biguVal mag / 2 ^ (M - 53)) with hg | hg <;>
          rw [hg] at hdec ⊢ <;>
          simp only [Nat.mul_zero, Nat.mul_one, Nat.add_zero] at hdec <;>
          omega
      by_cases hP : 2 ^ (M - 53) < biguVal mag % 2 ^ (M - 52)
          ∨ (biguVal mag % 2 ^ (M - 52) = 2 ^ (M - 53)
              ∧ biguVal mag / 2 ^ (M - 52) % 2 = 1)
      · rw [if_pos (hPB.mpr hP), if_pos hP]
        by_cases hroll : biguVal mag / 2 ^ (M - 52) + 1 = 2 ^ 53
        · rw [if_pos hroll, if_pos hroll]
          by_cases hM71 : M = 3171
          · rw [if_pos (by unfold ACC_EMIN; omega : (1023 : Int) < ACC_EMIN + M + 1),
              if_pos hM71, pack_double_inf]
          · rw [if_neg (by unfold ACC_EMIN; omega : ¬ (1023 : Int) < ACC_EMIN + M + 1),
              if_neg hM71,
              pack_double_normal sgn (ACC_EMIN + M + 1) 0
                (by unfold ACC_EMIN; omega) (by unfold ACC_EMIN; omega) (by positivity)]
            rw [show (ACC_EMIN + (M : Int) + 1 + 1023).toNat = M - 1124 from by
              unfold ACC_EMIN; omega, Nat.add_zero]
        · rw [if_neg hroll, if_neg hroll]
          have hmask : (biguVal mag / 2 ^ (M - 52) + 1) &&& (2 ^ 52 - 1)
              = biguVal mag / 2 ^ (M - 52) + 1 - 2 ^ 52 := by
            rw [Nat.and_pow_two_sub_one_eq_mod]
            omega
          rw [hmask,
            pack_double_normal sgn (ACC_EMIN + M) _
              (by unfold ACC_EMIN; omega) (by unfold ACC_EMIN; omega) (by omega),
            show (ACC_EMIN + (M : Int) + 1023).toNat = M - 1125 from by
              unfold ACC_EMIN; omega]
      · rw [if_neg (fun hc => hP (hPB.mp hc)), if_neg hP,
          if_neg (by omega : ¬ biguVal mag / 2 ^ (M - 52) = 2 ^ 53)]
        have hmask : biguVal mag / 2 ^ (M - 52) &&& (2 ^ 52 - 1)
            = biguVal mag / 2 ^ (M - 52) - 2 ^ 52 := by
          rw [Nat.and_pow_two_sub_one_eq_mod]
          omega
        rw [hmask,
          pack_double_normal sgn (ACC_EMIN + M) _
            (by unfold ACC_EMIN; omega) (by unfold ACC_EMIN; omega) (by omega),
          show (ACC_EMIN + (M : Int) + 1023).toNat = M - 1125 from by
            unfold ACC_EMIN; omega]

theorem finalize_eq_round (Pos Neg : Bigu) (hP : BiguWF Pos) (hN : BiguWF Neg) :
    finalize_to_double Pos Neg
      = round_to_nearest_even_binary64 ((biguVal Pos : Int) - biguVal Neg) := by
  obtain ⟨c1, c2, c3⟩ := bigu_cmp_spec Pos Neg hP hN
  rcases Nat.lt_trichotomy (biguVal Pos) (biguVal Neg) with h | h | h
  · have hcmp : bigu_cmp Pos Neg = -1 := c1.mpr h
    obtain ⟨hwf, hval⟩ := bigu_sub_spec Neg Pos hN hP (le_of_lt h)
    have hD : ¬ ((biguVal Pos : Int) - biguVal Neg = 0) := by omega
    have hDneg : (biguVal Pos : Int) - biguVal Neg < 0 := by omega
    have habs : ((biguVal Pos : Int) - biguVal Neg).natAbs = biguVal (bigu_sub Neg Pos) := by
      rw [hval]; omega
    have hpos : 0 < biguVal (bigu_sub Neg Pos) := by omega
    unfold finalize_to_double
    rw [hcmp]
    unfold round_to_nearest_even_binary64
    rw [if_neg hD, if_pos hDneg, habs]
    simp only [show ((-1 : Int) = 0) = False from by norm_num,
      show ((0 : Int) < -1) = False from by norm_num, if_true, if_false]
    exact finalize_tail_eq (bigu_sub Neg Pos) (-1) hwf hpos
  · have hcmp : bigu_cmp Pos Neg = 0 := c2.mpr h
    have hD : (biguVal Pos : Int) - biguVal Neg = 0 := by omega
    unfold finalize_to_double round_to_nearest_even_binary64
    rw [hcmp, hD]
    norm_num
  · have hcmp : bigu_cmp Pos Neg = 1 := c3.mpr h
    obtain ⟨hwf, hval⟩ := bigu_sub_spec Pos Neg hP hN (le_of_lt h)
    have hD : ¬ ((biguVal Pos : Int) - biguVal Neg = 0) := by omega
    have hDpos : ¬ ((biguVal Pos : Int) - biguVal Neg < 0) := by omega
    have habs : ((biguVal Pos : Int) - biguVal Neg).natAbs = biguVal (bigu_sub Pos Neg) := by
      rw [hval]; omega
    have hpos : 0 < biguVal (bigu_sub Pos Neg) := by omega
    unfold finalize_to_double
    rw [hcmp]
    unfold round_to_nearest_even_binary64
    rw [if_neg hD, if_neg hDpos, habs]
    simp only [show ((1 : Int) = 0) = False from by norm_num,
      show ((0 : Int) < 1) = True from by norm_num, if_true, if_false]
    exact finalize_tail_eq (bigu_sub Pos Neg) 1 hwf hpos

/-! ## The driver: classification, decoding, and the accumulation loop -/

/-- `is_nan_u64` from ddot.c. -/
def is_nan_u64 (u : Nat) : Bool :=
  ((u >>> 52) &&& 0x7FF == 0x7FF) && (u &&& (2 ^ 52 - 1) != 0)

/-- `is_inf_u64` from ddot.c. -/
def is_inf_u64 (u : Nat) : Bool :=
  ((u >>> 52) &&& 0x7FF == 0x7FF) && (u &&& (2 ^ 52 - 1) == 0)

/-- `is_zero_u64` from ddot.c (`u & ~(1<<63)`, the sign of zero ignored). -/
def is_zero_u64 (u : Nat) : Bool :=
  u &&& 0x7FFFFFFFFFFFFFFF == 0

/-- The sign test `(u >> 63) ? -1 : +1` used by ddot.c. -/
def sign_u64 (u : Nat) : Int :=
  if u >>> 63 != 0 then -1 else 1

/-- `decode_double_SE` from ddot.c: `none` for NaN/Inf, otherwise
`(sign, S, E)` with `|value| = S · 2^E`. -/
def decode_double_SE (u : Nat) : Option (Int × Nat × Int) :=
  let sign := sign_u64 u
  let exp := (u >>> 52) &&& 0x7FF
  let frac := u &&& (2 ^ 52 - 1)
  if exp = 0x7FF then none
  else if exp = 0 then
    if frac = 0 then some (sign, 0, 0)
    else some (sign, frac, -1074)
  else
    some (sign, 2 ^ 52 ||| frac, (exp : Int) - 1023 - 52)

/-- The mutable state of `ddot_repro`'s loop. -/
structure DState where
  pos : Bigu
  neg : Bigu
  overflow : Bool
  saw_nan : Bool
  saw_invalid_zero_inf : Bool
  saw_pos_inf : Bool
  saw_neg_inf : Bool

/-- The state before the loop: cleared accumulators, no flag latched. -/
def dstate_init : DState :=
  ⟨bigu_zero, bigu_zero, false, false, false, false, false⟩

/-- One iteration of the loop of `ddot_repro` from ddot.c, on the bit
patterns of `x[i]` and `y[i]`. -/
def ddot_step (st : DState) (p : Nat × Nat) : DState :=
  let xu := p.1
  let yu := p.2
  if is_nan_u64 xu || is_nan_u64 yu then
    { st with saw_nan := true }
  else
    let x_is_inf := is_inf_u64 xu
    let y_is_inf := is_inf_u64 yu
    let x_is_zero := is_zero_u64 xu
    let y_is_zero := is_zero_u64 yu
    if (x_is_inf && y_is_zero) || (y_is_inf && x_is_zero) then
      { st with saw_invalid_zero_inf := true }
    else if x_is_inf || y_is_inf then
      let s := sign_u64 xu * sign_u64 yu
      if 0 < s then { st with saw_pos_inf := true }
      else { st with saw_neg_inf := true }
    else
      match decode_double_SE xu, decode_double_SE yu with
      | none, _ => { st with saw_nan := true }
      | some _, none => { st with saw_nan := true }
      | some (sx, Sx, Ex), some (sy, Sy, Ey) =>
        if Sx = 0 ∨ Sy = 0 then st
        else
          let Sprod := Sx * Sy % 2 ^ 128
          let Eprod := Ex + Ey
          if Eprod < ACC_EMIN then st
          else
            let shift := (Eprod - ACC_EMIN).toNat
            if 0 < sx * sy then
              let r := bigu_add_shifted_u128 st.pos Sprod shift st.overflow
              { st with pos := r.1, overflow := r.2 }
            else
              let r := bigu_add_shifted_u128 st.neg Sprod shift st.overflow
              { st with neg := r.1, overflow := r.2 }

/-- The returns after the loop of `ddot_repro` from ddot.c, as a function of
the final state. -/
def ddot_dispatch (st : DState) : Nat :=
  if st.saw_nan || st.saw_invalid_zero_inf then 0x7FF8000000000001
  else if st.saw_pos_inf && st.saw_neg_inf then 0x7FF8000000000001
  else if st.saw_pos_inf && !st.saw_neg_inf then pack_double 1 INT_MAX_SENT 0
  else if !st.saw_pos_inf && st.saw_neg_inf then pack_double (-1) INT_MAX_SENT 0
  else if st.overflow then
    let cmp := bigu_cmp st.pos st.neg
    if cmp = 0 then 0
    else pack_double (if 0 < cmp then 1 else -1) INT_MAX_SENT 0
  else finalize_to_double st.pos st.neg

/-- `ddot_repro` from ddot.c on the list of bit-pattern pairs
`(x[i], y[i])`, returning the result's 64-bit pattern. -/
def ddot_repro (l : List (Nat × Nat)) : Nat :=
  ddot_dispatch (l.foldl ddot_step dstate_init)

/-! ## Per-pair abstractions of the loop body -/

/-- Some operand of the pair is a NaN (latches `saw_nan`). -/
def pairNaN (p : Nat × Nat) : Bool :=
  is_nan_u64 p.1 || is_nan_u64 p.2

/-- One operand is an infinity and the other a zero. -/
def pairZeroInf (p : Nat × Nat) : Bool :=
  (is_inf_u64 p.1 && is_zero_u64 p.2) || (is_inf_u64 p.2 && is_zero_u64 p.1)

/-- Some operand of the pair is an infinity. -/
def pairAnyInf (p : Nat × Nat) : Bool :=
  is_inf_u64 p.1 || is_inf_u64 p.2

/-- The pair latches `saw_invalid_zero_inf`. -/
def pairInvalid (p : Nat × Nat) : Bool :=
  !pairNaN p && pairZeroInf p

/-- The pair latches `saw_pos_inf`. -/
def pairPosInf (p : Nat × Nat) : Bool :=
  !pairNaN p && !pairZeroInf p && pairAnyInf p
    && decide (0 < sign_u64 p.1 * sign_u64 p.2)

/-- The pair latches `saw_neg_inf`. -/
def pairNegInf (p : Nat × Nat) : Bool :=
  !pairNaN p && !pairZeroInf p && pairAnyInf p
    && !decide (0 < sign_u64 p.1 * sign_u64 p.2)

/-- Both operands of the pair are finite (no NaN, no infinity). -/
def finPair (p : Nat × Nat) : Bool :=
  !is_nan_u64 p.1 && !is_nan_u64 p.2 && !is_inf_u64 p.1 && !is_inf_u64 p.2

/-- The signed accumulator contribution of a pair: `some (sign, m)` when the
loop adds `m` to the accumulator selected by `sign`, `none` when the pair is
skipped or handled by a flag. -/
def pairProd (p : Nat × Nat) : Option (Int × Nat) :=
  if pairNaN p || pairZeroInf p || pairAnyInf p then none
  else
    match decode_double_SE p.1, decode_double_SE p.2 with
    | some (sx, Sx, Ex), some (sy, Sy, Ey) =>
      if Sx = 0 ∨ Sy = 0 then none
      else if Ex + Ey < ACC_EMIN then none
      else some (sx * sy, (Sx * Sy % 2 ^ 128) * 2 ^ (Ex + Ey - ACC_EMIN).toNat)
    | _, _ => none

/-- What the pair adds into the `pos` accumulator. -/
def posContrib (p : Nat × Nat) : Nat :=
  match pairProd p with
  | some (s, m) => if 0 < s then m else 0
  | none => 0

/-- What the pair adds into the `neg` accumulator. -/
def negContrib (p : Nat × Nat) : Nat :=
  match pairProd p with
  | some (s, m) => if 0 < s then 0 else m
  | none => 0

/-- Total of the `pos` contributions of a list of pairs. -/
def posSumL (l : List (Nat × Nat)) : Nat := (l.map posContrib).sum

/-- Total of the `neg` contributions of a list of pairs. -/
def negSumL (l : List (Nat × Nat)) : Nat := (l.map negContrib).sum

/-- Modelled from the spec: the exact product `x · y` of a finite pair, as an
integer multiple of `2^ACC_EMIN` (the scale at which
`round_to_nearest_even_binary64` reads its argument).  Zero for NaN/Inf
operands. -/
def prodZ (p : Nat × Nat) : Int :=
  match decode_double_SE p.1, decode_double_SE p.2 with
  | some (sx, Sx, Ex), some (sy, Sy, Ey) =>
    sx * sy * ((Sx * Sy * 2 ^ (Ex + Ey + 2148).toNat : Nat) : Int)
  | _, _ => 0

/-- Modelled from the spec: the exact mathematical sum `Σ x_i · y_i`, as an
integer multiple of `2^ACC_EMIN`. -/
def exactSumZ (l : List (Nat × Nat)) : Int := (l.map prodZ).sum

/-- Elementwise negation of the first sequence: bit 63 of each `x_i` flipped. -/
def negX (l : List (Nat × Nat)) : List (Nat × Nat) :=
  l.map fun p => (p.1 ^^^ 2 ^ 63, p.2)

/-- Elementwise negation of the second sequence: bit 63 of each `y_i` flipped. -/
def negY (l : List (Nat × Nat)) : List (Nat × Nat) :=
  l.map fun p => (p.1, p.2 ^^^ 2 ^ 63)

/-- Bit 63 of a 64-bit pattern flipped (the binary64 negation). -/
def flip63 (u : Nat) : Nat := u ^^^ 2 ^ 63

/-- The fold invariant: the state's accumulators hold the running totals `P`
and `N` reduced modulo the accumulator radix, the overflow flag records
whether either total has ever exceeded the radix, and each exception flag
records whether some seen pair latched it. -/
def StAbs (st : DState) (b : Bool) (P N : Nat) (fn fz fp fm : Bool) : Prop :=
  BiguWF st.pos ∧ BiguWF st.neg ∧
  biguVal st.pos = P % ACC_RADIX ∧ biguVal st.neg = N % ACC_RADIX ∧
  st.overflow = (b || decide (ACC_RADIX ≤ P) || decide (ACC_RADIX ≤ N)) ∧
  st.saw_nan = fn ∧ st.saw_invalid_zero_inf = fz ∧
  st.saw_pos_inf = fp ∧ st.saw_neg_inf = fm

theorem decode_bounds (u : Nat) (s : Int) (S : Nat) (E : Int)
    (h : decode_double_SE u = some (s, S, E)) :
    (s = 1 ∨ s = -1) ∧ S < 2 ^ 53 ∧ -1074 ≤ E ∧ E ≤ 971 ∧ (S = 0 → E = 0) := by
  unfold decode_double_SE at h
  dsimp only at h
  have hsgn : sign_u64 u = 1 ∨ sign_u64 u = -1 := by
    unfold sign_u64
    by_cases hb : (u >>> 63 != 0) = true
    · rw [if_pos hb]; right; rfl
    · rw [if_neg hb]; left; rfl
  have hexplt : (u >>> 52) &&& 0x7FF < 2 ^ 11 := by
    rw [show (0x7FF : Nat) = 2 ^ 11 - 1 from rfl, Nat.and_pow_two_sub_one_eq_mod]
    exact Nat.mod_lt _ (by norm_num)
  have hfrac : u &&& (2 ^ 52 - 1) < 2 ^ 52 := by
    rw [Nat.and_pow_two_sub_one_eq_mod]
    exact Nat.mod_lt _ (by norm_num)
  by_cases h7 : (u >>> 52) &&& 0x7FF = 0x7FF
  · rw [if_pos h7] at h; exact absurd h (by simp)
  · rw [if_neg h7] at h
    by_cases h0 : (u >>> 52) &&& 0x7FF = 0
    · rw [if_pos h0] at h
      by_cases hf : u &&& (2 ^ 52 - 1) = 0
      · rw [if_pos hf] at h
        simp only [Option.some.injEq, Prod.mk.injEq] at h
        obtain ⟨hs, hS, hE⟩ := h
        refine ⟨hs ▸ hsgn, ?_, ?_, ?_, ?_⟩ <;> omega
      · rw [if_neg hf] at h
        simp only [Option.some.injEq, Prod.mk.injEq] at h
        obtain ⟨hs, hS, hE⟩ := h
        refine ⟨hs ▸ hsgn, by omega, by omega, by omega, by omega⟩
    · rw [if_neg h0] at h
      simp only [Option.some.injEq, Prod.mk.injEq] at h
      obtain ⟨hs, hS, hE⟩ := h
      have hor : 2 ^ 52 ||| (u &&& (2 ^ 52 - 1)) = 2 ^ 52 + (u &&& (2 ^ 52 - 1)) := by
        have hh := Nat.mul_add_lt_is_or hfrac 1
        simp only [Nat.mul_one] at hh
        exact hh.symm
      refine ⟨hs ▸ hsgn, by omega, by omega, by omega, by omega⟩

theorem decode_finite_some (u : Nat) (h1 : is_nan_u64 u = false)
    (h2 : is_inf_u64 u = false) :
    ∃ s S E, decode_double_SE u = some (s, S, E) := by
  unfold is_nan_u64 at h1
  unfold is_inf_u64 at h2
  unfold decode_double_SE
  dsimp only
  by_cases h7 : (u >>> 52) &&& 0x7FF = 0x7FF
  · exfalso
    simp only [h7, beq_self_eq_true, Bool.true_and] at h1 h2
    simp only [bne_eq_false_iff_eq] at h1
    simp only [beq_eq_false_iff_ne, ne_eq] at h2
    exact h2 h1
  · rw [if_neg h7]
    by_cases h0 : (u >>> 52) &&& 0x7FF = 0
    · rw [if_pos h0]
      by_cases hf : u &&& (2 ^ 52 - 1) = 0
      · rw [if_pos hf]; exact ⟨_, _, _, rfl⟩
      · rw [if_neg hf]; exact ⟨_, _, _, rfl⟩
    · rw [if_neg h0]; exact ⟨_, _, _, rfl⟩

theorem ovf_fold_pos (b dN : Bool) (P m : Nat) :
    ((b || decide (ACC_RADIX ≤ P) || dN) || decide (ACC_RADIX ≤ P % ACC_RADIX + m))
      = (b || decide (ACC_RADIX ≤ P + m) || dN) := by
  by_cases hP : ACC_RADIX ≤ P
  · have h2 : ACC_RADIX ≤ P + m := le_trans hP (Nat.le_add_right _ _)
    simp [hP, h2]
  · have hPm : P % ACC_RADIX = P := Nat.mod_eq_of_lt (Nat.lt_of_not_le hP)
    rw [hPm]
    by_cases h2 : ACC_RADIX ≤ P + m
    · simp [hP, h2]
    · simp [hP, h2]

theorem ovf_fold_neg (b dP : Bool) (N m : Nat) :
    ((b || dP || decide (ACC_RADIX ≤ N)) || decide (ACC_RADIX ≤ N % ACC_RADIX + m))
      = (b || dP || decide (ACC_RADIX ≤ N + m)) := by
  by_cases hN : ACC_RADIX ≤ N
  · have h2 : ACC_RADIX ≤ N + m := le_trans hN (Nat.le_add_right _ _)
    simp [hN, h2]
  · have hNm : N % ACC_RADIX = N := Nat.mod_eq_of_lt (Nat.lt_of_not_le hN)
    rw [hNm]
    by_cases h2 : ACC_RADIX ≤ N + m
    · simp [hN, h2]
    · simp [hN, h2]

theorem ddot_step_spec (st : DState) (p : Nat × Nat) (b : Bool) (P N : Nat)
    (fn fz fp fm : Bool) (h : StAbs st b P N fn fz fp fm) :
    StAbs (ddot_step st p) b (P + posContrib p) (N + negContrib p)
      (fn || pairNaN p) (fz || pairInvalid p) (fp || pairPosInf p)
      (fm || pairNegInf p) := by
  obtain ⟨hwp, hwn, hvp, hvn, ho, hf1, hf2, hf3, hf4⟩ := h
  unfold ddot_step
  dsimp only
  by_cases hnan : (is_nan_u64 p.1 || is_nan_u64 p.2) = true
  · rw [if_pos hnan]
    have hpn : pairNaN p = true := hnan
    have hpp : pairProd p = none := by
      unfold pairProd
      rw [if_pos (by rw [show (pairNaN p || pairZeroInf p || pairAnyInf p)
        = (true || pairZeroInf p || pairAnyInf p) from by rw [hpn]]; rfl)]
    have hc1 : posContrib p = 0 := by unfold posContrib; rw [hpp]
    have hc2 : negContrib p = 0 := by unfold negContrib; rw [hpp]
    have hinv : pairInvalid p = false := by unfold pairInvalid; rw [hpn]; rfl
    have hppi : pairPosInf p = false := by unfold pairPosInf; rw [hpn]; rfl
    have hpni : pairNegInf p = false := by unfold pairNegInf; rw [hpn]; rfl
    refine ⟨hwp, hwn, ?_, ?_, ?_, ?_, ?_, ?_, ?_⟩ <;> dsimp only <;>
      simp [hvp, hvn, ho, hf1, hf2, hf3, hf4, hc1, hc2, hpn, hinv, hppi, hpni]
  · have hpnf : pairNaN p = false := by
      cases hb : (is_nan_u64 p.1 || is_nan_u64 p.2) with
      | false => exact hb
      | true => exact absurd hb hnan
    rw [if_neg hnan]
    by_cases hzi : ((is_inf_u64 p.1 && is_zero_u64 p.2)
        || (is_inf_u64 p.2 && is_zero_u64 p.1)) = true
    · rw [if_pos hzi]
      have hzip : pairZeroInf p = true := hzi
      have hinv : pairInvalid p = true := by
        unfold pairInvalid; rw [hpnf, hzip]; rfl
      have hpp : pairProd p = none := by
        unfold pairProd
        rw [if_pos (by rw [show (pairNaN p || pairZeroInf p || pairAnyInf p)
          = (false || true || pairAnyInf p) from by rw [hpnf, hzip]]; rfl)]
      have hc1 : posContrib p = 0 := by unfold posContrib; rw [hpp]
      have hc2 : negContrib p = 0 := by unfold negContrib; rw [hpp]
      have hppi : pairPosInf p = false := by
        unfold pairPosInf; rw [hzip]; simp
      have hpni : pairNegInf p = false := by
        unfold pairNegInf; rw [hzip]; simp
      refine ⟨hwp, hwn, ?_, ?_, ?_, ?_, ?_, ?_, ?_⟩ <;> dsimp only <;>
        simp [hvp, hvn, ho, hf1, hf2, hf3, hf4, hc1, hc2, hpnf, hinv, hppi, hpni]
    · have hzif : pairZeroInf p = false := by
        cases hb : ((is_inf_u64 p.1 && is_zero_u64 p.2)
            || (is_inf_u64 p.2 && is_zero_u64 p.1)) with
        | false => exact hb
        | true => exact absurd hb hzi
      rw [if_neg hzi]
      have hinv : pairInvalid p = false := by
        unfold pairInvalid; rw [hzif]; simp
      by_cases hinf : (is_inf_u64 p.1 || is_inf_u64 p.2) = true
      · rw [if_pos hinf]
        have hai : pairAnyInf p = true := hinf
        have hpp : pairProd p = none := by
          unfold pairProd
          rw [if_pos (by rw [show (pairNaN p || pairZeroInf p || pairAnyInf p)
            = (false || false || true) from by rw [hpnf, hzif, hai]]; rfl)]
        have hc1 : posContrib p = 0 := by unfold posContrib; rw [hpp]
        have hc2 : negContrib p = 0 := by unfold negContrib; rw [hpp]
        by_cases hs : 0 < sign_u64 p.1 * sign_u64 p.2
        · rw [if_pos hs]
          have hppi : pairPosInf p = true := by
            unfold pairPosInf; rw [hpnf, hzif, hai]; simp [hs]
          have hpni : pairNegInf p = false := by
            unfold pairNegInf; rw [hpnf, hzif, hai]; simp [hs]
          refine ⟨hwp, hwn, ?_, ?_, ?_, ?_, ?_, ?_, ?_⟩ <;> dsimp only <;>
            simp [hvp, hvn, ho, hf1, hf2, hf3, hf4, hc1, hc2, hpnf, hinv, hppi, hpni]
        · rw [if_neg hs]
          have hppi : pairPosInf p = false := by
            unfold pairPosInf; rw [hpnf, hzif, hai]; simp [hs]
          have hpni : pairNegInf p = true := by
            unfold pairNegInf; rw [hpnf, hzif, hai]; simp [hs]
          refine ⟨hwp, hwn, ?_, ?_, ?_, ?_, ?_, ?_, ?_⟩ <;> dsimp only <;>
            simp [hvp, hvn, ho, hf1, hf2, hf3, hf4, hc1, hc2, hpnf, hinv, hppi, hpni]
      · have haif : pairAnyInf p = false := by
          cases hb : (is_inf_u64 p.1 || is_inf_u64 p.2) with
          | false => exact hb
          | true => exact absurd hb hinf
        rw [if_neg hinf]
        have hpnf2 : (is_nan_u64 p.1 || is_nan_u64 p.2) = false := hpnf
        have haif2 : (is_inf_u64 p.1 || is_inf_u64 p.2) = false := haif
        have hnx : is_nan_u64 p.1 = false := by
          cases h1 : is_nan_u64 p.1 with
          | false => rfl
          | true => rw [h1] at hpnf2; simp at hpnf2
        have hny : is_nan_u64 p.2 = false := by
          cases h2 : is_nan_u64 p.2 with
          | false => rfl
          | true => rw [h2] at hpnf2; simp at hpnf2
        have hix : is_inf_u64 p.1 = false := by
          cases h1 : is_inf_u64 p.1 with
          | false => rfl
          | true => rw [h1] at haif2; simp at haif2
        have hiy : is_inf_u64 p.2 = false := by
          cases h2 : is_inf_u64 p.2 with
          | false => rfl
          | true => rw [h2] at haif2; simp at haif2
        obtain ⟨sx, Sx, Ex, hdx⟩ := decode_finite_some p.1 hnx hix
        obtain ⟨sy, Sy, Ey, hdy⟩ := decode_finite_some p.2 hny hiy
        rw [hdx, hdy]
        dsimp only
        have hppi : pairPosInf p = false := by
          unfold pairPosInf; rw [haif]; simp
        have hpni : pairNegInf p = false := by
          unfold pairNegInf; rw [haif]; simp
        have hpp : pairProd p
            = (if Sx = 0 ∨ Sy = 0 then none
               else if Ex + Ey < ACC_EMIN then none
               else some (sx * sy,
                 (Sx * Sy % 2 ^ 128) * 2 ^ (Ex + Ey - ACC_EMIN).toNat)) := by
          unfold pairProd
          rw [if_neg (by rw [show (pairNaN p || pairZeroInf p || pairAnyInf p)
            = (false || false || false) from by rw [hpnf, hzif, haif]]; simp),
            hdx, hdy]
        by_cases hS0 : Sx = 0 ∨ Sy = 0
        · rw [if_pos hS0]
          have hppn : pairProd p = none := by rw [hpp, if_pos hS0]
          have hc1 : posContrib p = 0 := by unfold posContrib; rw [hppn]
          have hc2 : negContrib p = 0 := by unfold negContrib; rw [hppn]
          refine ⟨hwp, hwn, ?_, ?_, ?_, ?_, ?_, ?_, ?_⟩ <;>
            simp [hvp, hvn, ho, hf1, hf2, hf3, hf4, hc1, hc2, hpnf, hinv, hppi, hpni]
        · rw [if_neg hS0]
          by_cases hE : Ex + Ey < ACC_EMIN
          · rw [if_pos hE]
            have hppn : pairProd p = none := by rw [hpp, if_neg hS0, if_pos hE]
            have hc1 : posContrib p = 0 := by unfold posContrib; rw [hppn]
            have hc2 : negContrib p = 0 := by unfold negContrib; rw [hppn]
            refine ⟨hwp, hwn, ?_, ?_, ?_, ?_, ?_, ?_, ?_⟩ <;>
              simp [hvp, hvn, ho, hf1, hf2, hf3, hf4, hc1, hc2, hpnf, hinv, hppi, hpni]
          · rw [if_neg hE]
            have hppm : pairProd p = some (sx * sy,
                (Sx * Sy % 2 ^ 128) * 2 ^ (Ex + Ey - ACC_EMIN).toNat) := by
              rw [hpp, if_neg hS0, if_neg hE]
            obtain ⟨hsx, hSxlt, hEx1, hEx2, _⟩ := decode_bounds p.1 sx Sx Ex hdx
            obtain ⟨hsy, hSylt, hEy1, hEy2, _⟩ := decode_bounds p.2 sy Sy Ey hdy
            have hshift : (Ex + Ey - ACC_EMIN).toNat ≤ 4090 := by
              unfold ACC_EMIN at hE ⊢; omega
            have hvlt : Sx * Sy % 2 ^ 128 < 2 ^ 128 := Nat.mod_lt _ (by norm_num)
            by_cases hsgn : 0 < sx * sy
            · rw [if_pos hsgn]
              obtain ⟨hw', hv', ho'⟩ := bigu_add_shifted_u128_spec st.pos
                (Sx * Sy % 2 ^ 128) (Ex + Ey - ACC_EMIN).toNat st.overflow
                hwp hvlt hshift
              have hc1 : posContrib p
                  = (Sx * Sy % 2 ^ 128) * 2 ^ (Ex + Ey - ACC_EMIN).toNat := by
                unfold posContrib; rw [hppm]; dsimp only; rw [if_pos hsgn]
              have hc2 : negContrib p = 0 := by
                unfold negContrib; rw [hppm]; dsimp only; rw [if_pos hsgn]
              refine ⟨hw', hwn, ?_, ?_, ?_, ?_, ?_, ?_, ?_⟩ <;> dsimp only
              · rw [hv', hvp, hc1, Nat.mod_add_mod]
              · rw [hc2, Nat.add_zero]; exact hvn
              · rw [ho', ho, hvp, hc1, hc2, Nat.add_zero]
                exact ovf_fold_pos b _ P _
              · rw [hf1, hpnf]; simp
              · rw [hf2, hinv]; simp
              · rw [hf3, hppi]; simp
              · rw [hf4, hpni]; simp
            · rw [if_neg hsgn]
              obtain ⟨hw', hv', ho'⟩ := bigu_add_shifted_u128_spec st.neg
                (Sx * Sy % 2 ^ 128) (Ex + Ey - ACC_EMIN).toNat st.overflow
                hwn hvlt hshift
              have hc1 : posContrib p = 0 := by
                unfold posContrib; rw [hppm]; dsimp only; rw [if_neg hsgn]
              have hc2 : negContrib p
                  = (Sx * Sy % 2 ^ 128) * 2 ^ (Ex + Ey - ACC_EMIN).toNat := by
                unfold negContrib; rw [hppm]; dsimp only; rw [if_neg hsgn]
              refine ⟨hwp, hw', ?_, ?_, ?_, ?_, ?_, ?_, ?_⟩ <;> dsimp only
              · rw [hc1, Nat.add_zero]; exact hvp
              · rw [hv', hvn, hc2, Nat.mod_add_mod]
              · rw [ho', ho, hvn, hc1, hc2, Nat.add_zero]
                exact ovf_fold_neg b _ N _
              · rw [hf1, hpnf]; simp
              · rw [hf2, hinv]; simp
              · rw [hf3, hppi]; simp
              · rw [hf4, hpni]; simp

theorem ddot_fold_spec (l : List (Nat × Nat)) :
    ∀ (st : DState) (b : Bool) (P N : Nat) (fn fz fp fm : Bool),
      StAbs st b P N fn fz fp fm →
      StAbs (l.foldl ddot_step st) b (P + posSumL l) (N + negSumL l)
        (fn || l.any pairNaN) (fz || l.any pairInvalid)
        (fp || l.any pairPosInf) (fm || l.any pairNegInf) := by
  induction l with
  | nil =>
    intro st b P N fn fz fp fm h
    simpa [posSumL, negSumL] using h
  | cons q t ih =>
    intro st b P N fn fz fp fm h
    have hstep := ddot_step_spec st q b P N fn fz fp fm h
    have hrest := ih (ddot_step st q) b (P + posContrib q) (N + negContrib q)
      (fn || pairNaN q) (fz || pairInvalid q) (fp || pairPosInf q)
      (fm || pairNegInf q) hstep
    simpa [posSumL, negSumL, Nat.add_assoc, Bool.or_assoc] using hrest

theorem ddot_run_spec (l : List (Nat × Nat)) :
    StAbs (l.foldl ddot_step dstate_init) false (posSumL l) (negSumL l)
      (l.any pairNaN) (l.any pairInvalid) (l.any pairPosInf)
      (l.any pairNegInf) := by
  have hR : decide (ACC_RADIX ≤ 0) = false := by
    apply decide_eq_false
    unfold ACC_RADIX
    norm_num
  have hinit : StAbs dstate_init false 0 0 false false false false := by
    refine ⟨bigu_zero_wf, bigu_zero_wf, ?_, ?_, ?_, rfl, rfl, rfl, rfl⟩
    · show biguVal bigu_zero = 0 % ACC_RADIX
      rw [biguVal_zero, Nat.zero_mod]
    · show biguVal bigu_zero = 0 % ACC_RADIX
      rw [biguVal_zero, Nat.zero_mod]
    · show false = (false || decide (ACC_RADIX ≤ 0) || decide (ACC_RADIX ≤ 0))
      rw [hR]
      rfl
  have hfold := ddot_fold_spec l dstate_init false 0 0 false false false false hinit
  simpa using hfold

/-- Under well-formedness, limb `i` is determined by the accumulator's value. -/
theorem bigu_limb_of_val (a : Bigu) (ha : BiguWF a) (i : Nat) (hi : i ≤ 65) :
    a i = biguVal a / 2 ^ (64 * i) % 2 ^ 64 := by
  obtain ⟨H, hs⟩ := biguVal_split_two a ha i hi
  have hlo : biguValTo a i < 2 ^ (64 * i) := biguValTo_lt a ha.1 i
  have hpos : 0 < (2 : Nat) ^ (64 * i) := Nat.pos_pow_of_pos _ (by norm_num)
  have hdiv : biguVal a / 2 ^ (64 * i)
      = a i + 2 ^ 64 * a (i + 1) + 2 ^ 128 * H := by
    rw [hs, Nat.add_mul_div_left _ _ hpos, Nat.div_eq_of_lt hlo, Nat.zero_add]
  rw [hdiv]
  have h128 : (2 : Nat) ^ 128 = 2 ^ 64 * 2 ^ 64 := by norm_num
  have hmod : (a i + 2 ^ 64 * a (i + 1) + 2 ^ 128 * H) % 2 ^ 64 = a i := by
    rw [h128]
    have : a i + 2 ^ 64 * a (i + 1) + 2 ^ 64 * 2 ^ 64 * H
        = a i + 2 ^ 64 * (a (i + 1) + 2 ^ 64 * H) := by ring
    rw [this, Nat.add_mul_mod_self_left, Nat.mod_eq_of_lt (ha.1 i)]
  rw [hmod]

/-- Well-formed accumulators with equal values are equal limb functions. -/
theorem bigu_eq_of_val_eq (a b : Bigu) (ha : BiguWF a) (hb : BiguWF b)
    (h : biguVal a = biguVal b) : a = b := by
  funext i
  by_cases hi : i ≤ 65
  · rw [bigu_limb_of_val a ha i hi, bigu_limb_of_val b hb i hi, h]
  · rw [ha.2 i (by omega), hb.2 i (by omega)]

/-- `List.any` only depends on the multiset of elements. -/
theorem any_of_perm (l1 l2 : List (Nat × Nat)) (h : l1.Perm l2)
    (q : Nat × Nat → Bool) : l1.any q = l2.any q := by
  cases h1 : l1.any q with
  | false =>
    cases h2 : l2.any q with
    | false => rfl
    | true =>
      obtain ⟨x, hx, hqx⟩ := List.any_eq_true.mp h2
      have : l1.any q = true := List.any_eq_true.mpr ⟨x, (h.mem_iff).mpr hx, hqx⟩
      rw [h1] at this
      exact absurd this (by simp)
  | true =>
    obtain ⟨x, hx, hqx⟩ := List.any_eq_true.mp h1
    exact (List.any_eq_true.mpr ⟨x, (h.mem_iff).mp hx, hqx⟩).symm

theorem dstate_ext (s1 s2 : DState) (h1 : s1.pos = s2.pos) (h2 : s1.neg = s2.neg)
    (h3 : s1.overflow = s2.overflow) (h4 : s1.saw_nan = s2.saw_nan)
    (h5 : s1.saw_invalid_zero_inf = s2.saw_invalid_zero_inf)
    (h6 : s1.saw_pos_inf = s2.saw_pos_inf)
    (h7 : s1.saw_neg_inf = s2.saw_neg_inf) : s1 = s2 := by
  cases s1
  cases s2
  simp only [DState.mk.injEq]
  exact ⟨h1, h2, h3, h4, h5, h6, h7⟩

/-- C2.  Order independence: for any permutation of the pair sequence,
`ddot_repro` returns the bit-identical pattern — including when exceptional
flags or the accumulator overflow flag are latched. -/
theorem ddot_repro_perm (l1 l2 : List (Nat × Nat)) (h : l1.Perm l2) :
    ddot_repro l1 = ddot_repro l2 := by
  obtain ⟨hw1p, hw1n, hv1p, hv1n, ho1, ha1, hb1, hc1, hd1⟩ := ddot_run_spec l1
  obtain ⟨hw2p, hw2n, hv2p, hv2n, ho2, ha2, hb2, hc2, hd2⟩ := ddot_run_spec l2
  have hps : posSumL l1 = posSumL l2 := List.Perm.sum_eq (h.map posContrib)
  have hns : negSumL l1 = negSumL l2 := List.Perm.sum_eq (h.map negContrib)
  have hstate : l1.foldl ddot_step dstate_init = l2.foldl ddot_step dstate_init := by
    refine dstate_ext _ _ ?_ ?_ ?_ ?_ ?_ ?_ ?_
    · exact bigu_eq_of_val_eq _ _ hw1p hw2p (by rw [hv1p, hv2p, hps])
    · exact bigu_eq_of_val_eq _ _ hw1n hw2n (by rw [hv1n, hv2n, hns])
    · rw [ho1, ho2, hps, hns]
    · rw [ha1, ha2, any_of_perm l1 l2 h]
    · rw [hb1, hb2, any_of_perm l1 l2 h]
    · rw [hc1, hc2, any_of_perm l1 l2 h]
    · rw [hd1, hd2, any_of_perm l1 l2 h]
  unfold ddot_repro
  rw [hstate]

theorem ddot_repro_perm_witness :
    (([(3, 5), (7, 11)] : List (Nat × Nat)).Perm [(7, 11), (3, 5)] ∧
      ddot_repro [(3, 5), (7, 11)] = ddot_repro [(7, 11), (3, 5)]) :=
  ⟨by decide, ddot_repro_perm _ _ (by decide)⟩

theorem any_false_mem (l : List (Nat × Nat)) (q : Nat × Nat → Bool)
    (h : l.any q = false) (p : Nat × Nat) (hp : p ∈ l) : q p = false := by
  cases hq : q p with
  | false => rfl
  | true =>
    have ht : l.any q = true := List.any_eq_true.mpr ⟨p, hp, hq⟩
    rw [h] at ht
    exact absurd ht (by simp)

theorem any_false_of_all (l : List (Nat × Nat)) (q : Nat × Nat → Bool)
    (h : ∀ p ∈ l, q p = false) : l.any q = false := by
  cases hq : l.any q with
  | false => rfl
  | true =>
    obtain ⟨p, hp, hqq⟩ := List.any_eq_true.mp hq
    rw [h p hp] at hqq
    exact absurd hqq (by simp)

/-- C3.  NaN precedence: any NaN operand, or any ±∞ paired with a ±0, makes
`ddot_repro` return the canonical quiet NaN pattern `0x7FF8000000000001`,
regardless of every other contribution. -/
theorem ddot_repro_nan_precedence (l : List (Nat × Nat))
    (h : (∃ p ∈ l, pairNaN p = true) ∨ (∃ p ∈ l, pairZeroInf p = true)) :
    ddot_repro l = 0x7FF8000000000001 := by
  obtain ⟨_, _, _, _, _, ha, hb, _, _⟩ := ddot_run_spec l
  unfold ddot_repro ddot_dispatch
  have key : ((l.foldl ddot_step dstate_init).saw_nan
      || (l.foldl ddot_step dstate_init).saw_invalid_zero_inf) = true := by
    rw [ha, hb]
    rcases h with ⟨p, hp, hq⟩ | ⟨p, hp, hq⟩
    · have h1 : l.any pairNaN = true := List.any_eq_true.mpr ⟨p, hp, hq⟩
      rw [h1]
      rfl
    · cases hn : l.any pairNaN with
      | true => rfl
      | false =>
        have hpn : pairNaN p = false := any_false_mem l pairNaN hn p hp
        have hpi : pairInvalid p = true := by
          unfold pairInvalid
          rw [hpn, hq]
          rfl
        have h2 : l.any pairInvalid = true := List.any_eq_true.mpr ⟨p, hp, hpi⟩
        rw [h2]
        simp
  rw [key, if_pos rfl]

theorem ddot_repro_nan_precedence_witness :
    ((∃ p ∈ ([(0x7FF8000000000001, 0x3FF0000000000000)] : List (Nat × Nat)),
        pairNaN p = true) ∨
      (∃ p ∈ ([(0x7FF8000000000001, 0x3FF0000000000000)] : List (Nat × Nat)),
        pairZeroInf p = true)) ∧
    ddot_repro [(0x7FF8000000000001, 0x3FF0000000000000)] = 0x7FF8000000000001 :=
  ⟨Or.inl (by decide), ddot_repro_nan_precedence _ (Or.inl (by decide))⟩

/-- C4.  Infinity combination: with no NaN and no 0·∞ pair, mixed-sign
infinite products give the canonical NaN, and single-signed infinite products
give the corresponding ±∞, overriding any finite contributions. -/
theorem ddot_repro_inf_combination (l : List (Nat × Nat))
    (hno : ∀ p ∈ l, pairNaN p = false ∧ pairZeroInf p = false) :
    (l.any pairPosInf = true → l.any pairNegInf = true →
        ddot_repro l = 0x7FF8000000000001) ∧
    (l.any pairPosInf = true → l.any pairNegInf = false →
        ddot_repro l = 0x7FF0000000000000) ∧
    (l.any pairPosInf = false → l.any pairNegInf = true →
        ddot_repro l = 0xFFF0000000000000) := by
  obtain ⟨_, _, _, _, _, ha, hb, hc, hd⟩ := ddot_run_spec l
  have hna : l.any pairNaN = false :=
    any_false_of_all _ _ (fun p hp => (hno p hp).1)
  have hza : l.any pairInvalid = false := by
    refine any_false_of_all _ _ (fun p hp => ?_)
    unfold pairInvalid
    rw [(hno p hp).2]
    simp
  refine ⟨?_, ?_, ?_⟩ <;> intro h1 h2 <;>
    (unfold ddot_repro ddot_dispatch;
     rw [ha, hb, hc, hd, hna, hza, h1, h2];
     rw [if_neg (by simp)])
  · rw [if_pos (show (true && true) = true from rfl)]
  · rw [if_neg (show ¬ (true && false) = true from by simp),
      if_pos (show (true && !false) = true from rfl), pack_double_inf]
    norm_num
  · rw [if_neg (show ¬ (false && true) = true from by simp),
      if_neg (show ¬ (false && !true) = true from by simp),
      if_pos (show (!false && true) = true from rfl), pack_double_inf]
    norm_num

theorem ddot_repro_inf_combination_witness :
    (∀ p ∈ ([(0x7FF0000000000000, 0x3FF0000000000000)] : List (Nat × Nat)),
      pairNaN p = false ∧ pairZeroInf p = false) ∧
    (([(0x7FF0000000000000, 0x3FF0000000000000)] : List (Nat × Nat)).any
        pairPosInf = true →
      ([(0x7FF0000000000000, 0x3FF0000000000000)] : List (Nat × Nat)).any
        pairNegInf = false →
      ddot_repro [(0x7FF0000000000000, 0x3FF0000000000000)]
        = 0x7FF0000000000000) :=
  ⟨by decide, (ddot_repro_inf_combination _ (by decide)).2.1⟩

/-- C5.  The empty input returns `+0.0` (bit pattern 0), and whenever no
exceptional flag and no overflow is latched and the two accumulators are
equal at finalization, the result is `+0.0`, never `-0.0`. -/
theorem ddot_repro_plus_zero :
    ddot_repro [] = 0 ∧
    ∀ l : List (Nat × Nat),
      (l.foldl ddot_step dstate_init).saw_nan = false →
      (l.foldl ddot_step dstate_init).saw_invalid_zero_inf = false →
      (l.foldl ddot_step dstate_init).saw_pos_inf = false →
      (l.foldl ddot_step dstate_init).saw_neg_inf = false →
      (l.foldl ddot_step dstate_init).overflow = false →
      biguVal (l.foldl ddot_step dstate_init).pos
        = biguVal (l.foldl ddot_step dstate_init).neg →
      ddot_repro l = 0 := by
  constructor
  · decide
  · intro l h1 h2 h3 h4 h5 h6
    obtain ⟨hwp, hwn, _, _, _, _, _, _, _⟩ := ddot_run_spec l
    unfold ddot_repro ddot_dispatch
    rw [h1, h2, h3, h4, h5]
    rw [if_neg (show ¬ (false || false) = true from by simp),
      if_neg (show ¬ (false && false) = true from by simp),
      if_neg (show ¬ (false && !false) = true from by simp),
      if_neg (show ¬ (!false && false) = true from by simp),
      if_neg (show ¬ false = true from by simp)]
    obtain ⟨_, c2, _⟩ := bigu_cmp_spec _ _ hwp hwn
    have hcmp : bigu_cmp (l.foldl ddot_step dstate_init).pos
        (l.foldl ddot_step dstate_init).neg = 0 := c2.mpr h6
    unfold finalize_to_double
    rw [hcmp, if_pos rfl]

theorem ddot_repro_plus_zero_witness :
    ddot_repro [(0x3FF0000000000000, 0x3FF0000000000000),
      (0xBFF0000000000000, 0x3FF0000000000000)] = 0 :=
  ddot_repro_plus_zero.2 _ (by decide) (by decide) (by decide) (by decide)
    (by decide) (by decide)

/-- C7.  For finite non-zero operands the decoded exponent sum
`Eprod = Ex + Ey` lies in `[-2148, 1942]`, so the `Eprod < ACC_EMIN` drop
branch of the loop is never taken. -/
theorem decode_eprod_range (u v : Nat) (su sv : Int) (Su Sv : Nat) (Eu Ev : Int)
    (hu : decode_double_SE u = some (su, Su, Eu))
    (hv : decode_double_SE v = some (sv, Sv, Ev))
    (_hSu : Su ≠ 0) (_hSv : Sv ≠ 0) :
    -2148 ≤ Eu + Ev ∧ Eu + Ev ≤ 1942 ∧ ¬ (Eu + Ev < ACC_EMIN) := by
  obtain ⟨_, _, hu1, hu2, _⟩ := decode_bounds u su Su Eu hu
  obtain ⟨_, _, hv1, hv2, _⟩ := decode_bounds v sv Sv Ev hv
  unfold ACC_EMIN
  omega

theorem decode_eprod_range_witness :
    decode_double_SE 0x3FF0000000000000 = some (1, 2 ^ 52, -52) ∧
    decode_double_SE 0x4000000000000000 = some (1, 2 ^ 52, -51) ∧
    (2 ^ 52 : Nat) ≠ 0 ∧
    (-2148 ≤ (-52 : Int) + -51 ∧ (-52 : Int) + -51 ≤ 1942 ∧
      ¬ ((-52 : Int) + -51 < ACC_EMIN)) :=
  ⟨by decide, by decide, by decide,
    decode_eprod_range 0x3FF0000000000000 0x4000000000000000 1 1 (2 ^ 52) (2 ^ 52)
      (-52) (-51) (by decide) (by decide) (by decide) (by decide)⟩

/-- C8.  `bigu_add_shifted_u128` adds `val · 2^shift` into the accumulator
exactly: when it completes without the overflow flag the new value is the old
value plus the addend with no bit lost, and when the exact result would
exceed the accumulator width the overflow flag is set. -/
theorem bigu_add_shifted_exact (a : Bigu) (v shift : Nat) (ovf : Bool)
    (hwf : BiguWF a) (hv : v < 2 ^ 128) (hs : shift ≤ 4090) :
    BiguWF (bigu_add_shifted_u128 a v shift ovf).1 ∧
    ((bigu_add_shifted_u128 a v shift ovf).2 = false →
      biguVal (bigu_add_shifted_u128 a v shift ovf).1
        = biguVal a + v * 2 ^ shift) ∧
    (ACC_RADIX ≤ biguVal a + v * 2 ^ shift →
      (bigu_add_shifted_u128 a v shift ovf).2 = true) := by
  obtain ⟨h1, h2, h3⟩ := bigu_add_shifted_u128_spec a v shift ovf hwf hv hs
  refine ⟨h1, ?_, ?_⟩
  · intro hfalse
    rw [h3] at hfalse
    simp only [Bool.or_eq_false_iff] at hfalse
    have hlt : biguVal a + v * 2 ^ shift < ACC_RADIX :=
      Nat.lt_of_not_le (of_decide_eq_false hfalse.2)
    rw [h2, Nat.mod_eq_of_lt hlt]
  · intro hge
    rw [h3]
    simp [hge]

theorem bigu_add_shifted_exact_witness :
    BiguWF bigu_zero ∧ (7 : Nat) < 2 ^ 128 ∧ (5 : Nat) ≤ 4090 ∧
    ((bigu_add_shifted_u128 bigu_zero 7 5 false).2 = false →
      biguVal (bigu_add_shifted_u128 bigu_zero 7 5 false).1
        = biguVal bigu_zero + 7 * 2 ^ 5) :=
  ⟨bigu_zero_wf, by decide, by decide,
    (bigu_add_shifted_exact bigu_zero 7 5 false bigu_zero_wf (by decide)
      (by decide)).2.1⟩

theorem finPair_flags (p : Nat × Nat) (h : finPair p = true) :
    pairNaN p = false ∧ pairZeroInf p = false ∧ pairAnyInf p = false ∧
    pairInvalid p = false ∧ pairPosInf p = false ∧ pairNegInf p = false := by
  unfold finPair at h
  simp only [Bool.and_eq_true, Bool.not_eq_true'] at h
  obtain ⟨⟨⟨hn1, hn2⟩, hi1⟩, hi2⟩ := h
  refine ⟨?_, ?_, ?_, ?_, ?_, ?_⟩
  · unfold pairNaN; rw [hn1, hn2]; rfl
  · unfold pairZeroInf; rw [hi1, hi2]; rfl
  · unfold pairAnyInf; rw [hi1, hi2]; rfl
  · unfold pairInvalid pairZeroInf; rw [hi1, hi2]; simp
  · unfold pairPosInf pairAnyInf; rw [hi1, hi2]; simp
  · unfold pairNegInf pairAnyInf; rw [hi1, hi2]; simp

theorem ddot_overflow_case (l : List (Nat × Nat))
    (hfin : ∀ p ∈ l, finPair p = true)
    (hovf : ACC_RADIX ≤ posSumL l ∨ ACC_RADIX ≤ negSumL l) :
    ddot_repro l
      = (if posSumL l % ACC_RADIX = negSumL l % ACC_RADIX then 0
         else if negSumL l % ACC_RADIX < posSumL l % ACC_RADIX
           then 0x7FF0000000000000 else 0xFFF0000000000000) := by
  obtain ⟨hwp, hwn, hvp, hvn, ho, ha, hb, hc, hd⟩ := ddot_run_spec l
  have hall := fun p hp => finPair_flags p (hfin p hp)
  have h1 : l.any pairNaN = false :=
    any_false_of_all _ _ (fun p hp => (hall p hp).1)
  have h2 : l.any pairInvalid = false :=
    any_false_of_all _ _ (fun p hp => (hall p hp).2.2.2.1)
  have h3 : l.any pairPosInf = false :=
    any_false_of_all _ _ (fun p hp => (hall p hp).2.2.2.2.1)
  have h4 : l.any pairNegInf = false :=
    any_false_of_all _ _ (fun p hp => (hall p hp).2.2.2.2.2)
  have hovb : (l.foldl ddot_step dstate_init).overflow = true := by
    rw [ho]
    rcases hovf with hle | hle <;> simp [hle]
  unfold ddot_repro ddot_dispatch
  rw [ha, hb, hc, hd, h1, h2, h3, h4, hovb]
  rw [if_neg (show ¬ (false || false) = true from by simp),
    if_neg (show ¬ (false && false) = true from by simp),
    if_neg (show ¬ (false && !false) = true from by simp),
    if_neg (show ¬ (!false && false) = true from by simp),
    if_pos (show (true : Bool) = true from rfl)]
  dsimp only
  obtain ⟨c1, c2, c3⟩ := bigu_cmp_spec _ _ hwp hwn
  by_cases heq : posSumL l % ACC_RADIX = negSumL l % ACC_RADIX
  · have hcmp : bigu_cmp (l.foldl ddot_step dstate_init).pos
        (l.foldl ddot_step dstate_init).neg = 0 :=
      c2.mpr (by rw [hvp, hvn, heq])
    rw [hcmp, if_pos rfl, if_pos heq]
  · rw [if_neg heq]
    by_cases hlt : negSumL l % ACC_RADIX < posSumL l % ACC_RADIX
    · have hcmp : bigu_cmp (l.foldl ddot_step dstate_init).pos
          (l.foldl ddot_step dstate_init).neg = 1 :=
        c3.mpr (by rw [hvp, hvn]; exact hlt)
      rw [hcmp, if_neg (show ¬ (1 : Int) = 0 from by norm_num), if_pos hlt,
        if_pos (show (0 : Int) < 1 from by norm_num), pack_double_inf]
      norm_num
    · have hlt2 : posSumL l % ACC_RADIX < negSumL l % ACC_RADIX := by omega
      have hcmp : bigu_cmp (l.foldl ddot_step dstate_init).pos
          (l.foldl ddot_step dstate_init).neg = -1 :=
        c1.mpr (by rw [hvp, hvn]; exact hlt2)
      rw [hcmp, if_neg (show ¬ (-1 : Int) = 0 from by norm_num), if_neg hlt,
        if_neg (show ¬ (0 : Int) < -1 from by norm_num), pack_double_inf]
      norm_num

/-- C9.  With only finite operands, once the accumulator overflow flag is
latched `ddot_repro` returns `+0.0`, `+∞` or `-∞` according to the comparison
of the two accumulators, and never takes the finalizer's rounding path. -/
theorem ddot_repro_overflow (l : List (Nat × Nat))
    (hfin : ∀ p ∈ l, finPair p = true)
    (hovf : ACC_RADIX ≤ posSumL l ∨ ACC_RADIX ≤ negSumL l) :
    ddot_repro l
      = (if posSumL l % ACC_RADIX = negSumL l % ACC_RADIX then 0
         else if negSumL l % ACC_RADIX < posSumL l % ACC_RADIX
           then 0x7FF0000000000000 else 0xFFF0000000000000) :=
  ddot_overflow_case l hfin hovf

theorem ddot_repro_overflow_witness :
    (∀ p ∈ List.replicate (2 ^ 28 + 1)
        ((0x7FEFFFFFFFFFFFFF : Nat), (0x7FEFFFFFFFFFFFFF : Nat)),
      finPair p = true) ∧
    (ACC_RADIX ≤ posSumL (List.replicate (2 ^ 28 + 1)
        (0x7FEFFFFFFFFFFFFF, 0x7FEFFFFFFFFFFFFF)) ∨
      ACC_RADIX ≤ negSumL (List.replicate (2 ^ 28 + 1)
        (0x7FEFFFFFFFFFFFFF, 0x7FEFFFFFFFFFFFFF))) ∧
    ddot_repro (List.replicate (2 ^ 28 + 1)
        (0x7FEFFFFFFFFFFFFF, 0x7FEFFFFFFFFFFFFF))
      = (if posSumL (List.replicate (2 ^ 28 + 1)
              (0x7FEFFFFFFFFFFFFF, 0x7FEFFFFFFFFFFFFF)) % ACC_RADIX
            = negSumL (List.replicate (2 ^ 28 + 1)
              (0x7FEFFFFFFFFFFFFF, 0x7FEFFFFFFFFFFFFF)) % ACC_RADIX then 0
         else if negSumL (List.replicate (2 ^ 28 + 1)
              (0x7FEFFFFFFFFFFFFF, 0x7FEFFFFFFFFFFFFF)) % ACC_RADIX
            < posSumL (List.replicate (2 ^ 28 + 1)
              (0x7FEFFFFFFFFFFFFF, 0x7FEFFFFFFFFFFFFF)) % ACC_RADIX
           then 0x7FF0000000000000 else 0xFFF0000000000000) := by
  have hfin : ∀ p ∈ List.replicate (2 ^ 28 + 1)
      ((0x7FEFFFFFFFFFFFFF : Nat), (0x7FEFFFFFFFFFFFFF : Nat)),
      finPair p = true := by
    intro p hp
    rw [List.eq_of_mem_replicate hp]
    decide
  have hc : posContrib (0x7FEFFFFFFFFFFFFF, 0x7FEFFFFFFFFFFFFF)
      = (2 ^ 53 - 1) ^ 2 * 2 ^ 4090 := by decide
  have hsum : posSumL (List.replicate (2 ^ 28 + 1)
      (0x7FEFFFFFFFFFFFFF, 0x7FEFFFFFFFFFFFFF))
      = (2 ^ 28 + 1) * ((2 ^ 53 - 1) ^ 2 * 2 ^ 4090) := by
    unfold posSumL
    rw [List.map_replicate, List.sum_replicate, smul_eq_mul, hc]
  have hge : ACC_RADIX ≤ posSumL (List.replicate (2 ^ 28 + 1)
      (0x7FEFFFFFFFFFFFFF, 0x7FEFFFFFFFFFFFFF)) := by
    rw [hsum]
    decide
  exact ⟨hfin, Or.inl hge, ddot_repro_overflow _ hfin (Or.inl hge)⟩

theorem contrib_prodZ (p : Nat × Nat) (h : finPair p = true) :
    (posContrib p : Int) - negContrib p = prodZ p := by
  obtain ⟨hpn, hzi, hai, _, _, _⟩ := finPair_flags p h
  unfold finPair at h
  simp only [Bool.and_eq_true, Bool.not_eq_true'] at h
  obtain ⟨⟨⟨hn1, hn2⟩, hi1⟩, hi2⟩ := h
  obtain ⟨sx, Sx, Ex, hdx⟩ := decode_finite_some p.1 hn1 hi1
  obtain ⟨sy, Sy, Ey, hdy⟩ := decode_finite_some p.2 hn2 hi2
  obtain ⟨hsx, hSx, hEx1, hEx2, _⟩ := decode_bounds p.1 sx Sx Ex hdx
  obtain ⟨hsy, hSy, hEy1, hEy2, _⟩ := decode_bounds p.2 sy Sy Ey hdy
  have hpp : pairProd p
      = (if Sx = 0 ∨ Sy = 0 then none
         else if Ex + Ey < ACC_EMIN then none
         else some (sx * sy,
           (Sx * Sy % 2 ^ 128) * 2 ^ (Ex + Ey - ACC_EMIN).toNat)) := by
    unfold pairProd
    rw [if_neg (by rw [show (pairNaN p || pairZeroInf p || pairAnyInf p)
      = (false || false || false) from by rw [hpn, hzi, hai]]; simp), hdx, hdy]
  unfold prodZ
  rw [hdx, hdy]
  dsimp only
  by_cases hS0 : Sx = 0 ∨ Sy = 0
  · have hnone : pairProd p = none := by rw [hpp, if_pos hS0]
    unfold posContrib negContrib
    rw [hnone]
    rcases hS0 with h0 | h0 <;> rw [h0] <;> simp
  · have hnotE : ¬ (Ex + Ey < ACC_EMIN) := by unfold ACC_EMIN; omega
    have hppm : pairProd p = some (sx * sy,
        (Sx * Sy % 2 ^ 128) * 2 ^ (Ex + Ey - ACC_EMIN).toNat) := by
      rw [hpp, if_neg hS0, if_neg hnotE]
    have hmul : Sx * Sy < 2 ^ 128 := by
      calc Sx * Sy < 2 ^ 53 * 2 ^ 53 := Nat.mul_lt_mul'' hSx hSy
        _ ≤ 2 ^ 128 := by norm_num
    have hmod : Sx * Sy % 2 ^ 128 = Sx * Sy := Nat.mod_eq_of_lt hmul
    have hexp : (Ex + Ey + 2148).toNat = (Ex + Ey - ACC_EMIN).toNat := by
      unfold ACC_EMIN
      omega
    unfold posContrib negContrib
    rw [hppm]
    dsimp only
    by_cases hsgn : 0 < sx * sy
    · rw [if_pos hsgn, if_pos hsgn]
      have hs1 : sx * sy = 1 := by
        rcases hsx with h' | h' <;> rcases hsy with h'' | h'' <;>
          rw [h', h''] at hsgn ⊢ <;> norm_num at hsgn ⊢
      rw [hs1, hmod, hexp]
      push_cast
      ring
    · rw [if_neg hsgn, if_neg hsgn]
      have hs1 : sx * sy = -1 := by
        rcases hsx with h' | h' <;> rcases hsy with h'' | h'' <;>
          rw [h', h''] at hsgn ⊢ <;> norm_num at hsgn ⊢
      rw [hs1, hmod, hexp]
      push_cast
      ring

theorem exact_sum_split (l : List (Nat × Nat))
    (h : ∀ p ∈ l, finPair p = true) :
    exactSumZ l = (posSumL l : Int) - negSumL l := by
  induction l with
  | nil => simp [exactSumZ, posSumL, negSumL]
  | cons q t ih =>
    have hq := contrib_prodZ q (h q (List.mem_cons_self q t))
    have ht := ih (fun p hp => h p (List.mem_cons_of_mem q hp))
    simp only [exactSumZ, posSumL, negSumL, List.map_cons, List.sum_cons] at hq ht ⊢
    push_cast
    push_cast at ht
    omega

theorem mod_of_lt_two (x R : Nat) (h1 : R ≤ x) (h2 : x < 2 * R) :
    x % R = x - R := by
  rw [Nat.mod_eq_sub_mod h1, Nat.mod_eq_of_lt (by omega)]

/-- C1 (amended).  For inputs of finite binary64 values whose positive and
negative running product totals both stay below the accumulator radix (so the
4197-bit accumulator cannot overflow), `ddot_repro` returns exactly the
round-to-nearest-ties-to-even binary64 encoding of the exact sum
`Σ x_i · y_i`, rounded once on the final significand, with subnormal range
and overflow to ±∞ after rounding handled. -/
theorem ddot_repro_rounds_exact (l : List (Nat × Nat))
    (hfin : ∀ p ∈ l, finPair p = true)
    (hpos : posSumL l < ACC_RADIX) (hneg : negSumL l < ACC_RADIX) :
    ddot_repro l = round_to_nearest_even_binary64 (exactSumZ l) := by
  obtain ⟨hwp, hwn, hvp, hvn, ho, ha, hb, hc, hd⟩ := ddot_run_spec l
  have hall := fun p hp => finPair_flags p (hfin p hp)
  have h1 : l.any pairNaN = false :=
    any_false_of_all _ _ (fun p hp => (hall p hp).1)
  have h2 : l.any pairInvalid = false :=
    any_false_of_all _ _ (fun p hp => (hall p hp).2.2.2.1)
  have h3 : l.any pairPosInf = false :=
    any_false_of_all _ _ (fun p hp => (hall p hp).2.2.2.2.1)
  have h4 : l.any pairNegInf = false :=
    any_false_of_all _ _ (fun p hp => (hall p hp).2.2.2.2.2)
  have hono : (l.foldl ddot_step dstate_init).overflow = false := by
    rw [ho, decide_eq_false (Nat.not_le.mpr hpos),
      decide_eq_false (Nat.not_le.mpr hneg)]
    rfl
  unfold ddot_repro ddot_dispatch
  rw [ha, hb, hc, hd, h1, h2, h3, h4, hono]
  rw [if_neg (show ¬ (false || false) = true from by simp),
    if_neg (show ¬ (false && false) = true from by simp),
    if_neg (show ¬ (false && !false) = true from by simp),
    if_neg (show ¬ (!false && false) = true from by simp),
    if_neg (show ¬ false = true from by simp)]
  rw [finalize_eq_round _ _ hwp hwn, hvp, hvn, Nat.mod_eq_of_lt hpos,
    Nat.mod_eq_of_lt hneg, exact_sum_split l hfin]

theorem ddot_repro_rounds_exact_witness :
    (∀ p ∈ ([(0x3FF0000000000000, 0x4000000000000000)] : List (Nat × Nat)),
      finPair p = true) ∧
    posSumL [(0x3FF0000000000000, 0x4000000000000000)] < ACC_RADIX ∧
    negSumL [(0x3FF0000000000000, 0x4000000000000000)] < ACC_RADIX ∧
    ddot_repro [(0x3FF0000000000000, 0x4000000000000000)]
      = round_to_nearest_even_binary64
          (exactSumZ [(0x3FF0000000000000, 0x4000000000000000)]) :=
  ⟨by decide, by decide, by decide,
    ddot_repro_rounds_exact _ (by decide) (by decide) (by decide)⟩

/-- The input refuting the unamended rounding claim: `2^28 + 1` copies of
`DBL_MAX · DBL_MAX`, the same number of copies of `(-DBL_MAX) · DBL_MAX`, and
one product `2^-1074 · 2^-1074`.  Every element is finite and the exact sum
is `2^-2148` (finite), but the one-sided totals overflow the accumulator. -/
def overflowCancelList : List (Nat × Nat) :=
  List.replicate (2 ^ 28 + 1) (0x7FEFFFFFFFFFFFFF, 0x7FEFFFFFFFFFFFFF)
    ++ List.replicate (2 ^ 28 + 1) (0xFFEFFFFFFFFFFFFF, 0x7FEFFFFFFFFFFFFF)
    ++ [(1, 1)]

theorem ddot_repro_round_counterexample :
    (∀ p ∈ overflowCancelList, finPair p = true) ∧
    ddot_repro overflowCancelList
      ≠ round_to_nearest_even_binary64 (exactSumZ overflowCancelList) := by
  have hfin : ∀ p ∈ overflowCancelList, finPair p = true := by
    intro p hp
    unfold overflowCancelList at hp
    rcases List.mem_append.mp hp with hp1 | hp2
    · rcases List.mem_append.mp hp1 with hp3 | hp4
      · rw [List.eq_of_mem_replicate hp3]; decide
      · rw [List.eq_of_mem_replicate hp4]; decide
    · rw [List.mem_singleton.mp hp2]; decide
  have c1 : posContrib (0x7FEFFFFFFFFFFFFF, 0x7FEFFFFFFFFFFFFF)
      = (2 ^ 53 - 1) ^ 2 * 2 ^ 4090 := by decide
  have c2 : posContrib (0xFFEFFFFFFFFFFFFF, 0x7FEFFFFFFFFFFFFF) = 0 := by decide
  have c3 : posContrib (1, 1) = 1 := by decide
  have d1 : negContrib (0x7FEFFFFFFFFFFFFF, 0x7FEFFFFFFFFFFFFF) = 0 := by decide
  have d2 : negContrib (0xFFEFFFFFFFFFFFFF, 0x7FEFFFFFFFFFFFFF)
      = (2 ^ 53 - 1) ^ 2 * 2 ^ 4090 := by decide
  have d3 : negContrib (1, 1) = 0 := by decide
  have hsP : posSumL overflowCancelList
      = (2 ^ 28 + 1) * ((2 ^ 53 - 1) ^ 2 * 2 ^ 4090) + 1 := by
    unfold posSumL overflowCancelList
    rw [List.map_append, List.map_append, List.sum_append, List.sum_append,
      List.map_replicate, List.map_replicate, List.sum_replicate,
      List.sum_replicate, smul_eq_mul, smul_eq_mul, c1, c2, List.map_cons,
      List.map_nil, List.sum_cons, List.sum_nil, c3]
    ring
  have hsN : negSumL overflowCancelList
      = (2 ^ 28 + 1) * ((2 ^ 53 - 1) ^ 2 * 2 ^ 4090) := by
    unfold negSumL overflowCancelList
    rw [List.map_append, List.map_append, List.sum_append, List.sum_append,
      List.map_replicate, List.map_replicate, List.sum_replicate,
      List.sum_replicate, smul_eq_mul, smul_eq_mul, d1, d2, List.map_cons,
      List.map_nil, List.sum_cons, List.sum_nil, d3]
    ring
  have e1 : prodZ (0x7FEFFFFFFFFFFFFF, 0x7FEFFFFFFFFFFFFF)
      = (((2 ^ 53 - 1) ^ 2 * 2 ^ 4090 : Nat) : Int) := by decide
  have e2 : prodZ (0xFFEFFFFFFFFFFFFF, 0x7FEFFFFFFFFFFFFF)
      = -(((2 ^ 53 - 1) ^ 2 * 2 ^ 4090 : Nat) : Int) := by decide
  have e3 : prodZ (1, 1) = 1 := by decide
  have hex : exactSumZ overflowCancelList = 1 := by
    unfold exactSumZ overflowCancelList
    rw [List.map_append, List.map_append, List.sum_append, List.sum_append,
      List.map_replicate, List.map_replicate, List.sum_replicate,
      List.sum_replicate, nsmul_eq_mul, nsmul_eq_mul, e1, e2, List.map_cons,
      List.map_nil, List.sum_cons, List.sum_nil, e3]
    push_cast
  have hKP1 : ACC_RADIX ≤ (2 ^ 28 + 1) * ((2 ^ 53 - 1) ^ 2 * 2 ^ 4090) := by
    decide
  have hKP2 : (2 ^ 28 + 1) * ((2 ^ 53 - 1) ^ 2 * 2 ^ 4090) + 1
      < 2 * ACC_RADIX := by decide
  have hres := ddot_overflow_case overflowCancelList hfin
    (Or.inl (by rw [hsP]; omega))
  have hm1 : posSumL overflowCancelList % ACC_RADIX
      = (2 ^ 28 + 1) * ((2 ^ 53 - 1) ^ 2 * 2 ^ 4090) + 1 - ACC_RADIX := by
    rw [hsP]
    exact mod_of_lt_two _ _ (by omega) (by omega)
  have hm2 : negSumL overflowCancelList % ACC_RADIX
      = (2 ^ 28 + 1) * ((2 ^ 53 - 1) ^ 2 * 2 ^ 4090) - ACC_RADIX := by
    rw [hsN]
    exact mod_of_lt_two _ _ hKP1 (by omega)
  refine ⟨hfin, ?_⟩
  rw [hres, hex]
  rw [if_neg (show ¬ posSumL overflowCancelList % ACC_RADIX
      = negSumL overflowCancelList % ACC_RADIX from by rw [hm1, hm2]; omega),
    if_pos (show negSumL overflowCancelList % ACC_RADIX
      < posSumL overflowCancelList % ACC_RADIX from by rw [hm1, hm2]; omega)]
  decide

/-! ## Sign-bit flips -/

theorem xor_top_lo (u : Nat) (h : u < 2 ^ 63) : u ^^^ 2 ^ 63 = u + 2 ^ 63 := by
  have hor : (1 : Nat) * 2 ^ 63 + u = 1 * 2 ^ 63 ||| u := Nat.mul_add_lt_is_or h 1
  have hxo : u ^^^ 2 ^ 63 = 2 ^ 63 ||| u := by
    apply Nat.eq_of_testBit_eq
    intro i
    rw [Nat.testBit_xor, Nat.testBit_or]
    by_cases hi : i = 63
    · subst hi
      rw [Nat.testBit_lt_two_pow h, Nat.testBit_two_pow_self]
      rfl
    · rw [Nat.testBit_two_pow_of_ne (fun hh => hi hh.symm)]
      cases hu : u.testBit i <;> rfl
  rw [hxo]
  rw [show (2 : Nat) ^ 63 ||| u = 1 * 2 ^ 63 ||| u from by rw [Nat.one_mul],
    ← hor]
  omega

theorem xor_top_hi (u : Nat) (h1 : 2 ^ 63 ≤ u) (h2 : u < 2 ^ 64) :
    u ^^^ 2 ^ 63 = u - 2 ^ 63 := by
  have hlt : u - 2 ^ 63 < 2 ^ 63 := by omega
  have hlo := xor_top_lo (u - 2 ^ 63) hlt
  calc u ^^^ 2 ^ 63 = (u - 2 ^ 63 + 2 ^ 63) ^^^ 2 ^ 63 := by
        rw [show u - 2 ^ 63 + 2 ^ 63 = u from by omega]
    _ = ((u - 2 ^ 63) ^^^ 2 ^ 63) ^^^ 2 ^ 63 := by rw [hlo]
    _ = (u - 2 ^ 63) ^^^ (2 ^ 63 ^^^ 2 ^ 63) := Nat.xor_assoc _ _ _
    _ = u - 2 ^ 63 := by rw [Nat.xor_self, Nat.xor_zero]

theorem exp_field_flip (u : Nat) (h : u < 2 ^ 64) :
    ((u ^^^ 2 ^ 63) >>> 52) &&& 0x7FF = (u >>> 52) &&& 0x7FF := by
  rw [show (0x7FF : Nat) = 2 ^ 11 - 1 from rfl, Nat.and_pow_two_sub_one_eq_mod,
    Nat.and_pow_two_sub_one_eq_mod, Nat.shiftRight_eq_div_pow,
    Nat.shiftRight_eq_div_pow]
  by_cases hu : u < 2 ^ 63
  · rw [xor_top_lo u hu]
    omega
  · rw [xor_top_hi u (Nat.le_of_not_lt hu) h]
    omega

theorem frac_field_flip (u : Nat) (h : u < 2 ^ 64) :
    (u ^^^ 2 ^ 63) &&& (2 ^ 52 - 1) = u &&& (2 ^ 52 - 1) := by
  rw [Nat.and_pow_two_sub_one_eq_mod, Nat.and_pow_two_sub_one_eq_mod]
  by_cases hu : u < 2 ^ 63
  · rw [xor_top_lo u hu]
    omega
  · rw [xor_top_hi u (Nat.le_of_not_lt hu) h]
    omega

theorem low_field_flip (u : Nat) (h : u < 2 ^ 64) :
    (u ^^^ 2 ^ 63) &&& 0x7FFFFFFFFFFFFFFF = u &&& 0x7FFFFFFFFFFFFFFF := by
  rw [show (0x7FFFFFFFFFFFFFFF : Nat) = 2 ^ 63 - 1 from rfl,
    Nat.and_pow_two_sub_one_eq_mod, Nat.and_pow_two_sub_one_eq_mod]
  by_cases hu : u < 2 ^ 63
  · rw [xor_top_lo u hu]
    omega
  · rw [xor_top_hi u (Nat.le_of_not_lt hu) h]
    omega

theorem is_nan_flip (u : Nat) (h : u < 2 ^ 64) :
    is_nan_u64 (u ^^^ 2 ^ 63) = is_nan_u64 u := by
  unfold is_nan_u64
  rw [exp_field_flip u h, frac_field_flip u h]

theorem is_inf_flip (u : Nat) (h : u < 2 ^ 64) :
    is_inf_u64 (u ^^^ 2 ^ 63) = is_inf_u64 u := by
  unfold is_inf_u64
  rw [exp_field_flip u h, frac_field_flip u h]

theorem is_zero_flip (u : Nat) (h : u < 2 ^ 64) :
    is_zero_u64 (u ^^^ 2 ^ 63) = is_zero_u64 u := by
  unfold is_zero_u64
  rw [low_field_flip u h]

theorem sign_u64_cases (u : Nat) : sign_u64 u = 1 ∨ sign_u64 u = -1 := by
  unfold sign_u64
  by_cases hb : (u >>> 63 != 0) = true
  · rw [if_pos hb]; right; rfl
  · rw [if_neg hb]; left; rfl

theorem sign_u64_flip (u : Nat) (h : u < 2 ^ 64) :
    sign_u64 (u ^^^ 2 ^ 63) = - sign_u64 u := by
  unfold sign_u64
  by_cases hu : u < 2 ^ 63
  · rw [xor_top_lo u hu]
    have h1 : u >>> 63 = 0 := by rw [Nat.shiftRight_eq_div_pow]; omega
    have h2 : (u + 2 ^ 63) >>> 63 = 1 := by rw [Nat.shiftRight_eq_div_pow]; omega
    rw [h1, h2]
    decide
  · rw [xor_top_hi u (Nat.le_of_not_lt hu) h]
    have h1 : u >>> 63 = 1 := by rw [Nat.shiftRight_eq_div_pow]; omega
    have h2 : (u - 2 ^ 63) >>> 63 = 0 := by rw [Nat.shiftRight_eq_div_pow]; omega
    rw [h1, h2]
    decide

theorem decode_flip (u : Nat) (h : u < 2 ^ 64) :
    decode_double_SE (u ^^^ 2 ^ 63)
      = (decode_double_SE u).map (fun t => (-t.1, t.2.1, t.2.2)) := by
  unfold decode_double_SE
  dsimp only
  rw [exp_field_flip u h, frac_field_flip u h, sign_u64_flip u h]
  by_cases h7 : (u >>> 52) &&& 0x7FF = 0x7FF
  · rw [if_pos h7, if_pos h7]
    rfl
  · rw [if_neg h7, if_neg h7]
    by_cases h0 : (u >>> 52) &&& 0x7FF = 0
    · rw [if_pos h0, if_pos h0]
      by_cases hf : u &&& (2 ^ 52 - 1) = 0
      · rw [if_pos hf, if_pos hf]
        rfl
      · rw [if_neg hf, if_neg hf]
        rfl
    · rw [if_neg h0, if_neg h0]
      rfl

theorem pairNaN_flipX (p : Nat × Nat) (h : p.1 < 2 ^ 64) :
    pairNaN (p.1 ^^^ 2 ^ 63, p.2) = pairNaN p := by
  unfold pairNaN
  dsimp only
  rw [is_nan_flip p.1 h]

theorem pairZeroInf_flipX (p : Nat × Nat) (h : p.1 < 2 ^ 64) :
    pairZeroInf (p.1 ^^^ 2 ^ 63, p.2) = pairZeroInf p := by
  unfold pairZeroInf
  dsimp only
  rw [is_inf_flip p.1 h, is_zero_flip p.1 h]

theorem pairAnyInf_flipX (p : Nat × Nat) (h : p.1 < 2 ^ 64) :
    pairAnyInf (p.1 ^^^ 2 ^ 63, p.2) = pairAnyInf p := by
  unfold pairAnyInf
  dsimp only
  rw [is_inf_flip p.1 h]

theorem pairInvalid_flipX (p : Nat × Nat) (h : p.1 < 2 ^ 64) :
    pairInvalid (p.1 ^^^ 2 ^ 63, p.2) = pairInvalid p := by
  unfold pairInvalid
  rw [pairNaN_flipX p h, pairZeroInf_flipX p h]

theorem sign_prod_flip (p : Nat × Nat) (h : p.1 < 2 ^ 64) :
    decide (0 < sign_u64 (p.1 ^^^ 2 ^ 63) * sign_u64 p.2)
      = !decide (0 < sign_u64 p.1 * sign_u64 p.2) := by
  rw [sign_u64_flip p.1 h]
  rcases sign_u64_cases p.1 with h1 | h1 <;> rcases sign_u64_cases p.2 with h2 | h2 <;>
    rw [h1, h2] <;> decide

theorem pairPosInf_flipX (p : Nat × Nat) (h : p.1 < 2 ^ 64) :
    pairPosInf (p.1 ^^^ 2 ^ 63, p.2) = pairNegInf p := by
  unfold pairPosInf pairNegInf
  rw [pairNaN_flipX p h, pairZeroInf_flipX p h, pairAnyInf_flipX p h]
  have hs : decide (0 < sign_u64 (p.1 ^^^ 2 ^ 63, p.2).1
      * sign_u64 (p.1 ^^^ 2 ^ 63, p.2).2)
        = !decide (0 < sign_u64 p.1 * sign_u64 p.2) := sign_prod_flip p h
  rw [hs]

theorem pairNegInf_flipX (p : Nat × Nat) (h : p.1 < 2 ^ 64) :
    pairNegInf (p.1 ^^^ 2 ^ 63, p.2) = pairPosInf p := by
  unfold pairPosInf pairNegInf
  rw [pairNaN_flipX p h, pairZeroInf_flipX p h, pairAnyInf_flipX p h]
  have hs : decide (0 < sign_u64 (p.1 ^^^ 2 ^ 63, p.2).1
      * sign_u64 (p.1 ^^^ 2 ^ 63, p.2).2)
        = !decide (0 < sign_u64 p.1 * sign_u64 p.2) := sign_prod_flip p h
  rw [hs, Bool.not_not]

theorem pairProd_sign (p : Nat × Nat) (s : Int) (m : Nat)
    (h : pairProd p = some (s, m)) : s = 1 ∨ s = -1 := by
  unfold pairProd at h
  by_cases hc : (pairNaN p || pairZeroInf p || pairAnyInf p) = true
  · rw [if_pos hc] at h
    exact absurd h (by simp)
  · rw [if_neg hc] at h
    cases hdx : decode_double_SE p.1 with
    | none =>
      rw [hdx] at h
      exact absurd h (by simp)
    | some tx =>
      cases hdy : decode_double_SE p.2 with
      | none =>
        rw [hdx, hdy] at h
        exact absurd h (by simp)
      | some ty =>
        rw [hdx, hdy] at h
        obtain ⟨sx, Sx, Ex⟩ := tx
        obtain ⟨sy, Sy, Ey⟩ := ty
        dsimp only at h
        obtain ⟨hsx, _, _, _, _⟩ := decode_bounds p.1 sx Sx Ex hdx
        obtain ⟨hsy, _, _, _, _⟩ := decode_bounds p.2 sy Sy Ey hdy
        by_cases hS0 : Sx = 0 ∨ Sy = 0
        · rw [if_pos hS0] at h
          exact absurd h (by simp)
        · rw [if_neg hS0] at h
          by_cases hE : Ex + Ey < ACC_EMIN
          · rw [if_pos hE] at h
            exact absurd h (by simp)
          · rw [if_neg hE] at h
            simp only [Option.some.injEq, Prod.mk.injEq] at h
            rcases hsx with h1 | h1 <;> rcases hsy with h2 | h2 <;>
              rw [← h.1, h1, h2] <;> norm_num

theorem pairProd_flipX (p : Nat × Nat) (h : p.1 < 2 ^ 64) :
    pairProd (p.1 ^^^ 2 ^ 63, p.2)
      = (pairProd p).map (fun t => (-t.1, t.2)) := by
  unfold pairProd
  rw [show (pairNaN (p.1 ^^^ 2 ^ 63, p.2) || pairZeroInf (p.1 ^^^ 2 ^ 63, p.2)
      || pairAnyInf (p.1 ^^^ 2 ^ 63, p.2))
      = (pairNaN p || pairZeroInf p || pairAnyInf p) from by
    rw [pairNaN_flipX p h, pairZeroInf_flipX p h, pairAnyInf_flipX p h]]
  by_cases hc : (pairNaN p || pairZeroInf p || pairAnyInf p) = true
  · rw [if_pos hc, if_pos hc]
    rfl
  · rw [if_neg hc, if_neg hc]
    show (match decode_double_SE (p.1 ^^^ 2 ^ 63), decode_double_SE p.2 with
      | some (sx, Sx, Ex), some (sy, Sy, Ey) =>
        if Sx = 0 ∨ Sy = 0 then none
        else if Ex + Ey < ACC_EMIN then none
        else some (sx * sy, (Sx * Sy % 2 ^ 128) * 2 ^ (Ex + Ey - ACC_EMIN).toNat)
      | _, _ => none) = _
    rw [decode_flip p.1 h]
    cases hdx : decode_double_SE p.1 with
    | none => rfl
    | some tx =>
      cases hdy : decode_double_SE p.2 with
      | none => rfl
      | some ty =>
        obtain ⟨sx, Sx, Ex⟩ := tx
        obtain ⟨sy, Sy, Ey⟩ := ty
        dsimp only [Option.map]
        by_cases hS0 : Sx = 0 ∨ Sy = 0
        · rw [if_pos hS0, if_pos hS0]
        · rw [if_neg hS0, if_neg hS0]
          by_cases hE : Ex + Ey < ACC_EMIN
          · rw [if_pos hE, if_pos hE]
          · rw [if_neg hE, if_neg hE]
            dsimp only
            rw [show -sx * sy = -(sx * sy) from by ring]

theorem posContrib_flipX (p : Nat × Nat) (h : p.1 < 2 ^ 64) :
    posContrib (p.1 ^^^ 2 ^ 63, p.2) = negContrib p := by
  unfold posContrib negContrib
  rw [pairProd_flipX p h]
  cases hpp : pairProd p with
  | none => rfl
  | some t =>
    obtain ⟨s, m⟩ := t
    dsimp only [Option.map]
    rcases pairProd_sign p s m hpp with h1 | h1 <;> subst h1
    · rw [if_neg (by norm_num), if_pos (by norm_num)]
    · rw [if_pos (by norm_num), if_neg (by norm_num)]

theorem negContrib_flipX (p : Nat × Nat) (h : p.1 < 2 ^ 64) :
    negContrib (p.1 ^^^ 2 ^ 63, p.2) = posContrib p := by
  unfold posContrib negContrib
  rw [pairProd_flipX p h]
  cases hpp : pairProd p with
  | none => rfl
  | some t =>
    obtain ⟨s, m⟩ := t
    dsimp only [Option.map]
    rcases pairProd_sign p s m hpp with h1 | h1 <;> subst h1
    · rw [if_neg (by norm_num), if_pos (by norm_num)]
    · rw [if_pos (by norm_num), if_neg (by norm_num)]

theorem pairNaN_swap (p : Nat × Nat) : pairNaN (p.2, p.1) = pairNaN p := by
  unfold pairNaN
  dsimp only
  exact Bool.or_comm _ _

theorem pairZeroInf_swap (p : Nat × Nat) :
    pairZeroInf (p.2, p.1) = pairZeroInf p := by
  unfold pairZeroInf
  dsimp only
  exact Bool.or_comm _ _

theorem pairAnyInf_swap (p : Nat × Nat) :
    pairAnyInf (p.2, p.1) = pairAnyInf p := by
  unfold pairAnyInf
  dsimp only
  exact Bool.or_comm _ _

theorem pairInvalid_swap (p : Nat × Nat) :
    pairInvalid (p.2, p.1) = pairInvalid p := by
  unfold pairInvalid
  rw [pairNaN_swap p, pairZeroInf_swap p]

theorem pairPosInf_swap (p : Nat × Nat) :
    pairPosInf (p.2, p.1) = pairPosInf p := by
  unfold pairPosInf
  rw [pairNaN_swap p, pairZeroInf_swap p, pairAnyInf_swap p]
  dsimp only
  rw [mul_comm (sign_u64 p.2) (sign_u64 p.1)]

theorem pairNegInf_swap (p : Nat × Nat) :
    pairNegInf (p.2, p.1) = pairNegInf p := by
  unfold pairNegInf
  rw [pairNaN_swap p, pairZeroInf_swap p, pairAnyInf_swap p]
  dsimp only
  rw [mul_comm (sign_u64 p.2) (sign_u64 p.1)]

theorem pairProd_swap (p : Nat × Nat) : pairProd (p.2, p.1) = pairProd p := by
  unfold pairProd
  rw [show (pairNaN (p.2, p.1) || pairZeroInf (p.2, p.1)
      || pairAnyInf (p.2, p.1))
      = (pairNaN p || pairZeroInf p || pairAnyInf p) from by
    rw [pairNaN_swap p, pairZeroInf_swap p, pairAnyInf_swap p]]
  by_cases hc : (pairNaN p || pairZeroInf p || pairAnyInf p) = true
  · rw [if_pos hc, if_pos hc]
  · rw [if_neg hc, if_neg hc]
    dsimp only
    cases hdx : decode_double_SE p.1 with
    | none =>
      cases hdy : decode_double_SE p.2 with
      | none => rfl
      | some ty => rfl
    | some tx =>
      cases hdy : decode_double_SE p.2 with
      | none => rfl
      | some ty =>
        obtain ⟨sx, Sx, Ex⟩ := tx
        obtain ⟨sy, Sy, Ey⟩ := ty
        dsimp only
        rw [show Ey + Ex = Ex + Ey from add_comm _ _,
          mul_comm sy sx, Nat.mul_comm Sy Sx]
        by_cases hS0 : Sx = 0 ∨ Sy = 0
        · rw [if_pos (Or.symm hS0), if_pos hS0]
        · rw [if_neg (fun hh => hS0 (Or.symm hh)), if_neg hS0]

theorem posContrib_swap (p : Nat × Nat) :
    posContrib (p.2, p.1) = posContrib p := by
  unfold posContrib
  rw [pairProd_swap p]

theorem negContrib_swap (p : Nat × Nat) :
    negContrib (p.2, p.1) = negContrib p := by
  unfold negContrib
  rw [pairProd_swap p]

theorem pairNaN_flipY (p : Nat × Nat) (h : p.2 < 2 ^ 64) :
    pairNaN (p.1, p.2 ^^^ 2 ^ 63) = pairNaN p := by
  have h1 := pairNaN_swap (p.2 ^^^ 2 ^ 63, p.1)
  have h2 := pairNaN_flipX (p.2, p.1) h
  have h3 := pairNaN_swap p
  dsimp only at h1 h2
  rw [h1, h2]
  exact h3

theorem pairInvalid_flipY (p : Nat × Nat) (h : p.2 < 2 ^ 64) :
    pairInvalid (p.1, p.2 ^^^ 2 ^ 63) = pairInvalid p := by
  have h1 := pairInvalid_swap (p.2 ^^^ 2 ^ 63, p.1)
  have h2 := pairInvalid_flipX (p.2, p.1) h
  have h3 := pairInvalid_swap p
  dsimp only at h1 h2
  rw [h1, h2]
  exact h3

theorem pairPosInf_flipY (p : Nat × Nat) (h : p.2 < 2 ^ 64) :
    pairPosInf (p.1, p.2 ^^^ 2 ^ 63) = pairNegInf p := by
  have h1 := pairPosInf_swap (p.2 ^^^ 2 ^ 63, p.1)
  have h2 := pairPosInf_flipX (p.2, p.1) h
  have h3 := pairNegInf_swap p
  dsimp only at h1 h2
  rw [h1, h2]
  exact h3

theorem pairNegInf_flipY (p : Nat × Nat) (h : p.2 < 2 ^ 64) :
    pairNegInf (p.1, p.2 ^^^ 2 ^ 63) = pairPosInf p := by
  have h1 := pairNegInf_swap (p.2 ^^^ 2 ^ 63, p.1)
  have h2 := pairNegInf_flipX (p.2, p.1) h
  have h3 := pairPosInf_swap p
  dsimp only at h1 h2
  rw [h1, h2]
  exact h3

theorem posContrib_flipY (p : Nat × Nat) (h : p.2 < 2 ^ 64) :
    posContrib (p.1, p.2 ^^^ 2 ^ 63) = negContrib p := by
  have h1 := posContrib_swap (p.2 ^^^ 2 ^ 63, p.1)
  have h2 := posContrib_flipX (p.2, p.1) h
  have h3 := negContrib_swap p
  dsimp only at h1 h2
  rw [h1, h2]
  exact h3

theorem negContrib_flipY (p : Nat × Nat) (h : p.2 < 2 ^ 64) :
    negContrib (p.1, p.2 ^^^ 2 ^ 63) = posContrib p := by
  have h1 := negContrib_swap (p.2 ^^^ 2 ^ 63, p.1)
  have h2 := negContrib_flipX (p.2, p.1) h
  have h3 := posContrib_swap p
  dsimp only at h1 h2
  rw [h1, h2]
  exact h3
theorem roundMagCore_add (sb m : Nat) :
    roundMagCore sb m = sb + roundMagCore 0 m := by
  unfold roundMagCore
  dsimp only
  split_ifs <;> omega

theorem roundMagCore_cases (m : Nat) :
    roundMagCore 0 m = 0x7FF0000000000000
      ∨ roundMagCore 0 m < 0x7FF0000000000000 := by
  rcases Nat.eq_zero_or_pos m with hm | hm
  · subst hm
    right
    decide
  · obtain ⟨hl1, hl2⟩ := natLog2_spec m hm
    unfold roundMagCore
    dsimp only
    by_cases h1 : 3171 < natLog2 m
    · rw [if_pos h1]
      left
      omega
    · rw [if_neg h1]
      by_cases h2 : natLog2 m < 1126
      · rw [if_pos h2]
        have hq : m / 2 ^ 1074 < 2 ^ 52 := by
          have hm2 : m < 2 ^ 1126 :=
            lt_of_lt_of_le hl2 (Nat.pow_le_pow_right (by norm_num) (by omega))
          have h52 : (2 : Nat) ^ 1126 = 2 ^ 52 * 2 ^ 1074 := by
            rw [← Nat.pow_add]
          refine (Nat.div_lt_iff_lt_mul
            (Nat.pos_pow_of_pos _ (by norm_num))).mpr ?_
          omega
        split_ifs <;> omega
      · rw [if_neg h2]
        have hq : m / 2 ^ (natLog2 m - 52) < 2 ^ 53 := by
          have hsplit : (2 : Nat) ^ (natLog2 m + 1)
              = 2 ^ 53 * 2 ^ (natLog2 m - 52) := by
            rw [← Nat.pow_add]
            congr 1
            omega
          refine (Nat.div_lt_iff_lt_mul
            (Nat.pos_pow_of_pos _ (by norm_num))).mpr ?_
          omega
        split_ifs <;> omega

theorem roundMagCore_lt63 (m : Nat) : roundMagCore 0 m < 2 ^ 63 := by
  rcases roundMagCore_cases m with h | h <;> omega

theorem is_nan_add_lt (sb c : Nat) (hsb : sb = 0 ∨ sb = 2 ^ 63)
    (hc : c < 0x7FF0000000000000) : is_nan_u64 (sb + c) = false := by
  unfold is_nan_u64
  have h1 : (((sb + c) >>> 52) &&& 0x7FF == 0x7FF) = false := by
    rw [Nat.shiftRight_eq_div_pow, show (0x7FF : Nat) = 2 ^ 11 - 1 from rfl,
      Nat.and_pow_two_sub_one_eq_mod]
    refine beq_eq_false_iff_ne.mpr ?_
    rcases hsb with h | h <;> subst h <;> omega
  rw [h1]
  rfl

theorem round_not_nan (D : Int) :
    is_nan_u64 (round_to_nearest_even_binary64 D) = false := by
  unfold round_to_nearest_even_binary64
  by_cases hD : D = 0
  · rw [if_pos hD]
    decide
  · rw [if_neg hD]
    rw [roundMagCore_add (if D < 0 then 2 ^ 63 else 0) D.natAbs]
    rcases roundMagCore_cases D.natAbs with hc | hc
    · rw [hc]
      by_cases hneg : D < 0
      · rw [if_pos hneg]
        decide
      · rw [if_neg hneg]
        decide
    · refine is_nan_add_lt _ _ ?_ hc
      by_cases hneg : D < 0
      · rw [if_pos hneg]
        right
        rfl
      · rw [if_neg hneg]
        left
        rfl

theorem round_neg (D : Int) :
    round_to_nearest_even_binary64 (-D)
      = (if D = 0 then 0 else flip63 (round_to_nearest_even_binary64 D)) := by
  by_cases hD : D = 0
  · rw [if_pos hD, hD]
    rfl
  · rw [if_neg hD]
    unfold round_to_nearest_even_binary64
    rw [if_neg (by omega : ¬ (-D : Int) = 0), if_neg hD, Int.natAbs_neg]
    have hcb : roundMagCore 0 D.natAbs < 2 ^ 63 := roundMagCore_lt63 D.natAbs
    rcases lt_trichotomy D 0 with hlt | heq | hgt
    · rw [if_neg (by omega : ¬ (-D : Int) < 0), if_pos hlt,
        roundMagCore_add (2 ^ 63) D.natAbs]
      unfold flip63
      rw [xor_top_hi (2 ^ 63 + roundMagCore 0 D.natAbs) (by omega) (by omega)]
      omega
    · exact absurd heq hD
    · rw [if_pos (by omega : (-D : Int) < 0), if_neg (by omega : ¬ D < 0),
        roundMagCore_add (2 ^ 63) D.natAbs]
      unfold flip63
      rw [xor_top_lo (roundMagCore 0 D.natAbs) (by omega)]
      omega

/-- The result of `ddot_repro` as a function of the per-pair abstractions:
the latched flags, the one-sided totals, and the reference rounding of the
exact difference. -/
theorem ddot_result (l : List (Nat × Nat)) :
    ddot_repro l =
      (if l.any pairNaN || l.any pairInvalid then 0x7FF8000000000001
       else if l.any pairPosInf && l.any pairNegInf then 0x7FF8000000000001
       else if l.any pairPosInf && !l.any pairNegInf then 0x7FF0000000000000
       else if !l.any pairPosInf && l.any pairNegInf then 0xFFF0000000000000
       else if decide (ACC_RADIX ≤ posSumL l)
           || decide (ACC_RADIX ≤ negSumL l) then
         (if posSumL l % ACC_RADIX = negSumL l % ACC_RADIX then 0
          else if negSumL l % ACC_RADIX < posSumL l % ACC_RADIX
            then 0x7FF0000000000000 else 0xFFF0000000000000)
       else round_to_nearest_even_binary64
         ((posSumL l : Int) - negSumL l)) := by
  obtain ⟨hwp, hwn, hvp, hvn, ho, ha, hb, hc, hd⟩ := ddot_run_spec l
  unfold ddot_repro ddot_dispatch
  rw [ha, hb, hc, hd, ho, Bool.false_or]
  by_cases h1 : (l.any pairNaN || l.any pairInvalid) = true
  · rw [if_pos h1, if_pos h1]
  · rw [if_neg h1, if_neg h1]
    by_cases h2 : (l.any pairPosInf && l.any pairNegInf) = true
    · rw [if_pos h2, if_pos h2]
    · rw [if_neg h2, if_neg h2]
      by_cases h3 : (l.any pairPosInf && !l.any pairNegInf) = true
      · rw [if_pos h3, if_pos h3, pack_double_inf]
        norm_num
      · rw [if_neg h3, if_neg h3]
        by_cases h4 : (!l.any pairPosInf && l.any pairNegInf) = true
        · rw [if_pos h4, if_pos h4, pack_double_inf]
          norm_num
        · rw [if_neg h4, if_neg h4]
          by_cases h5 : (decide (ACC_RADIX ≤ posSumL l)
              || decide (ACC_RADIX ≤ negSumL l)) = true
          · rw [if_pos h5, if_pos h5]
            dsimp only
            obtain ⟨c1, c2, c3⟩ := bigu_cmp_spec _ _ hwp hwn
            by_cases heq : posSumL l % ACC_RADIX = negSumL l % ACC_RADIX
            · have hcmp : bigu_cmp (l.foldl ddot_step dstate_init).pos
                  (l.foldl ddot_step dstate_init).neg = 0 :=
                c2.mpr (by rw [hvp, hvn, heq])
              rw [hcmp, if_pos rfl, if_pos heq]
            · rw [if_neg heq]
              by_cases hlt : negSumL l % ACC_RADIX < posSumL l % ACC_RADIX
              · have hcmp : bigu_cmp (l.foldl ddot_step dstate_init).pos
                    (l.foldl ddot_step dstate_init).neg = 1 :=
                  c3.mpr (by rw [hvp, hvn]; exact hlt)
                rw [hcmp, if_neg (show ¬ (1 : Int) = 0 from by norm_num),
                  if_pos hlt, if_pos (show (0 : Int) < 1 from by norm_num),
                  pack_double_inf]
                norm_num
              · have hlt2 : posSumL l % ACC_RADIX < negSumL l % ACC_RADIX := by
                  omega
                have hcmp : bigu_cmp (l.foldl ddot_step dstate_init).pos
                    (l.foldl ddot_step dstate_init).neg = -1 :=
                  c1.mpr (by rw [hvp, hvn]; exact hlt2)
                rw [hcmp, if_neg (show ¬ (-1 : Int) = 0 from by norm_num),
                  if_neg hlt, if_neg (show ¬ (0 : Int) < -1 from by norm_num),
                  pack_double_inf]
                norm_num
          · rw [if_neg h5, if_neg h5]
            simp only [Bool.or_eq_true, decide_eq_true_eq, not_or] at h5
            rw [finalize_eq_round _ _ hwp hwn, hvp, hvn,
              Nat.mod_eq_of_lt (Nat.lt_of_not_le h5.1),
              Nat.mod_eq_of_lt (Nat.lt_of_not_le h5.2)]

theorem negX_transfer (l : List (Nat × Nat)) (hb : ∀ p ∈ l, p.1 < 2 ^ 64) :
    (negX l).any pairNaN = l.any pairNaN ∧
    (negX l).any pairInvalid = l.any pairInvalid ∧
    (negX l).any pairPosInf = l.any pairNegInf ∧
    (negX l).any pairNegInf = l.any pairPosInf ∧
    posSumL (negX l) = negSumL l ∧ negSumL (negX l) = posSumL l := by
  induction l with
  | nil => exact ⟨rfl, rfl, rfl, rfl, rfl, rfl⟩
  | cons q t ih =>
    obtain ⟨i1, i2, i3, i4, i5, i6⟩ :=
      ih (fun p hp => hb p (List.mem_cons_of_mem q hp))
    have hq : q.1 < 2 ^ 64 := hb q (List.mem_cons_self q t)
    simp only [negX, List.map_cons] at i1 i2 i3 i4 i5 i6 ⊢
    simp only [posSumL, negSumL, List.map_cons, List.sum_cons] at i5 i6 ⊢
    refine ⟨?_, ?_, ?_, ?_, ?_, ?_⟩
    · rw [List.any_cons, List.any_cons, pairNaN_flipX q hq, i1]
    · rw [List.any_cons, List.any_cons, pairInvalid_flipX q hq, i2]
    · rw [List.any_cons, List.any_cons, pairPosInf_flipX q hq, i3]
    · rw [List.any_cons, List.any_cons, pairNegInf_flipX q hq, i4]
    · rw [posContrib_flipX q hq, i5]
    · rw [negContrib_flipX q hq, i6]

theorem negY_transfer (l : List (Nat × Nat)) (hb : ∀ p ∈ l, p.2 < 2 ^ 64) :
    (negY l).any pairNaN = l.any pairNaN ∧
    (negY l).any pairInvalid = l.any pairInvalid ∧
    (negY l).any pairPosInf = l.any pairNegInf ∧
    (negY l).any pairNegInf = l.any pairPosInf ∧
    posSumL (negY l) = negSumL l ∧ negSumL (negY l) = posSumL l := by
  induction l with
  | nil => exact ⟨rfl, rfl, rfl, rfl, rfl, rfl⟩
  | cons q t ih =>
    obtain ⟨i1, i2, i3, i4, i5, i6⟩ :=
      ih (fun p hp => hb p (List.mem_cons_of_mem q hp))
    have hq : q.2 < 2 ^ 64 := hb q (List.mem_cons_self q t)
    simp only [negY, List.map_cons] at i1 i2 i3 i4 i5 i6 ⊢
    simp only [posSumL, negSumL, List.map_cons, List.sum_cons] at i5 i6 ⊢
    refine ⟨?_, ?_, ?_, ?_, ?_, ?_⟩
    · rw [List.any_cons, List.any_cons, pairNaN_flipY q hq, i1]
    · rw [List.any_cons, List.any_cons, pairInvalid_flipY q hq, i2]
    · rw [List.any_cons, List.any_cons, pairPosInf_flipY q hq, i3]
    · rw [List.any_cons, List.any_cons, pairNegInf_flipY q hq, i4]
    · rw [posContrib_flipY q hq, i5]
    · rw [negContrib_flipY q hq, i6]

/-- C6 (amended).  Sign symmetry: negating one input sequence elementwise
(flipping bit 63) gives the same result whichever sequence is negated; a NaN
result stays the canonical NaN (it is not bit-negated); every non-NaN,
non-zero result is exactly the bit-63 negation of the original; and a zero
result maps to `+0.0` when it comes from exact cancellation, or to `-0.0`
(bit pattern `2^63`) when a tiny positive sum was rounded down to `+0.0`. -/
theorem ddot_repro_sign_symmetry (l : List (Nat × Nat))
    (hb : ∀ p ∈ l, p.1 < 2 ^ 64 ∧ p.2 < 2 ^ 64) :
    ddot_repro (negX l) = ddot_repro (negY l) ∧
    (ddot_repro l = 0x7FF8000000000001 →
      ddot_repro (negX l) = 0x7FF8000000000001) ∧
    (ddot_repro l ≠ 0x7FF8000000000001 → ddot_repro l ≠ 0 →
      ddot_repro (negX l) = flip63 (ddot_repro l)) ∧
    (ddot_repro l = 0 →
      ddot_repro (negX l) = 0 ∨ ddot_repro (negX l) = 2 ^ 63) := by
  obtain ⟨x1, x2, x3, x4, x5, x6⟩ := negX_transfer l (fun p hp => (hb p hp).1)
  obtain ⟨y1, y2, y3, y4, y5, y6⟩ := negY_transfer l (fun p hp => (hb p hp).2)
  have hX := ddot_result (negX l)
  have hY := ddot_result (negY l)
  have hL := ddot_result l
  rw [x1, x2, x3, x4, x5, x6] at hX
  rw [y1, y2, y3, y4, y5, y6] at hY
  refine ⟨by rw [hX, hY], ?_⟩
  by_cases c1 : (l.any pairNaN || l.any pairInvalid) = true
  · rw [if_pos c1] at hX hL
    exact ⟨fun _ => hX, fun hne _ => absurd hL hne,
      fun hz => absurd (hL.symm.trans hz) (by norm_num)⟩
  · rw [if_neg c1] at hX hL
    by_cases c2 : (l.any pairPosInf && l.any pairNegInf) = true
    · rw [if_pos c2] at hL
      rw [if_pos (by rw [Bool.and_comm]; exact c2)] at hX
      exact ⟨fun _ => hX, fun hne _ => absurd hL hne,
        fun hz => absurd (hL.symm.trans hz) (by norm_num)⟩
    · rw [if_neg c2] at hL
      rw [if_neg (fun hh => c2 (by rw [Bool.and_comm]; exact hh))] at hX
      by_cases c3 : (l.any pairPosInf && !l.any pairNegInf) = true
      · have hcomp : l.any pairPosInf = true ∧ l.any pairNegInf = false := by
          have := c3
          simp only [Bool.and_eq_true, Bool.not_eq_true'] at this
          exact this
        rw [if_pos c3] at hL
        rw [if_neg (by rw [hcomp.1, hcomp.2]; decide)] at hX
        rw [if_pos (by rw [hcomp.1, hcomp.2]; decide)] at hX
        refine ⟨fun h => absurd (hL.symm.trans h) (by norm_num),
          fun _ _ => ?_, fun hz => absurd (hL.symm.trans hz) (by norm_num)⟩
        rw [hX, hL]
        decide
      · rw [if_neg c3] at hL
        by_cases c4 : (!l.any pairPosInf && l.any pairNegInf) = true
        · have hcomp : l.any pairPosInf = false ∧ l.any pairNegInf = true := by
            have := c4
            simp only [Bool.and_eq_true, Bool.not_eq_true'] at this
            exact ⟨this.1, this.2⟩
          rw [if_pos c4] at hL
          rw [if_pos (by rw [hcomp.1, hcomp.2]; decide)] at hX
          refine ⟨fun h => absurd (hL.symm.trans h) (by norm_num),
            fun _ _ => ?_, fun hz => absurd (hL.symm.trans hz) (by norm_num)⟩
          rw [hX, hL]
          decide
        · rw [if_neg c4] at hL
          have hcomp : l.any pairPosInf = false ∧ l.any pairNegInf = false := by
            cases hp : l.any pairPosInf <;> cases hm : l.any pairNegInf
            · exact ⟨rfl, rfl⟩
            · exact absurd (by rw [hp, hm]; rfl : (!l.any pairPosInf
                && l.any pairNegInf) = true) c4
            · exact absurd (by rw [hp, hm]; rfl : (l.any pairPosInf
                && !l.any pairNegInf) = true) c3
            · exact absurd (by rw [hp, hm]; rfl : (l.any pairPosInf
                && l.any pairNegInf) = true) c2
          rw [if_neg (by rw [hcomp.1, hcomp.2]; decide)] at hX
          rw [if_neg (by rw [hcomp.1, hcomp.2]; decide)] at hX
          by_cases c5 : (decide (ACC_RADIX ≤ posSumL l)
              || decide (ACC_RADIX ≤ negSumL l)) = true
          · rw [if_pos c5] at hL
            rw [if_pos (by rw [Bool.or_comm]; exact c5)] at hX
            by_cases heq : posSumL l % ACC_RADIX = negSumL l % ACC_RADIX
            · rw [if_pos heq] at hL
              rw [if_pos heq.symm] at hX
              exact ⟨fun h => absurd (hL.symm.trans h) (by norm_num),
                fun _ h0 => absurd hL h0, fun _ => Or.inl hX⟩
            · rw [if_neg heq] at hL
              rw [if_neg (fun hh => heq hh.symm)] at hX
              by_cases hlt : negSumL l % ACC_RADIX < posSumL l % ACC_RADIX
              · rw [if_pos hlt] at hL
                rw [if_neg (by omega)] at hX
                refine ⟨fun h => absurd (hL.symm.trans h) (by norm_num),
                  fun _ _ => ?_, fun hz => absurd (hL.symm.trans hz) (by norm_num)⟩
                rw [hX, hL]
                decide
              · rw [if_neg hlt] at hL
                rw [if_pos (by omega)] at hX
                refine ⟨fun h => absurd (hL.symm.trans h) (by norm_num),
                  fun _ _ => ?_, fun hz => absurd (hL.symm.trans hz) (by norm_num)⟩
                rw [hX, hL]
                decide
          · rw [if_neg c5] at hL
            rw [if_neg (fun hh => c5 (by rw [Bool.or_comm]; exact hh))] at hX
            rw [show ((negSumL l : Int) - posSumL l)
                = -((posSumL l : Int) - negSumL l) from by ring,
              round_neg ((posSumL l : Int) - negSumL l)] at hX
            by_cases hD : ((posSumL l : Int) - negSumL l) = 0
            · rw [if_pos hD] at hX
              refine ⟨fun h => ?_, fun _ h0 => ?_, fun _ => Or.inl hX⟩
              · have hn := round_not_nan ((posSumL l : Int) - negSumL l)
                rw [← hL, h] at hn
                exact absurd hn (by decide)
              · rw [hD] at hL
                exact absurd (hL.trans rfl) h0
            · rw [if_neg hD] at hX
              refine ⟨fun h => ?_, fun _ _ => by rw [hX, hL], fun hz => ?_⟩
              · have hn := round_not_nan ((posSumL l : Int) - negSumL l)
                rw [← hL, h] at hn
                exact absurd hn (by decide)
              · right
                rw [hL] at hz
                rw [hX, hz]
                decide

theorem ddot_repro_sign_symmetry_witness :
    (∀ p ∈ ([(1, 1)] : List (Nat × Nat)), p.1 < 2 ^ 64 ∧ p.2 < 2 ^ 64) ∧
    (ddot_repro (negX [(1, 1)]) = ddot_repro (negY [(1, 1)]) ∧
      (ddot_repro [(1, 1)] = 0x7FF8000000000001 →
        ddot_repro (negX [(1, 1)]) = 0x7FF8000000000001) ∧
      (ddot_repro [(1, 1)] ≠ 0x7FF8000000000001 → ddot_repro [(1, 1)] ≠ 0 →
        ddot_repro (negX [(1, 1)]) = flip63 (ddot_repro [(1, 1)])) ∧
      (ddot_repro [(1, 1)] = 0 →
        ddot_repro (negX [(1, 1)]) = 0 ∨ ddot_repro (negX [(1, 1)]) = 2 ^ 63)) :=
  ⟨by decide, ddot_repro_sign_symmetry [(1, 1)] (by decide)⟩

/-- Inputs refuting the unamended sign-symmetry claim.  The pair
`(2^-1074, 2^-1074)` has a product that rounds to `+0.0`; negating `x`
yields `-0.0` (bit pattern `2^63`), not the `+0.0` the claim's exception
promises.  A NaN input gives the canonical NaN under both signs, not the
bit-negation the claim's main clause promises. -/
theorem ddot_repro_sign_counterexample :
    ddot_repro [((1 : Nat), (1 : Nat))] = 0 ∧
    ddot_repro (negX [(1, 1)]) = 2 ^ 63 ∧
    ddot_repro [(0x7FF8000000000001, 0x3FF0000000000000)]
      = 0x7FF8000000000001 ∧
    ddot_repro (negX [(0x7FF8000000000001, 0x3FF0000000000000)])
      ≠ flip63 (ddot_repro [(0x7FF8000000000001, 0x3FF0000000000000)]) :=
  ⟨by decide, by decide, by decide, by decide⟩

/-- C10.  The finalizer never returns a NaN bit pattern; `ddot_repro`
returns a NaN exactly when `saw_nan`, `saw_invalid_zero_inf`, or both
infinity flags are latched, and any NaN it returns is exactly
`0x7FF8000000000001`. -/
theorem ddot_repro_nan_only_flagged :
    (∀ Pos Neg : Bigu, BiguWF Pos → BiguWF Neg →
      is_nan_u64 (finalize_to_double Pos Neg) = false) ∧
    ∀ l : List (Nat × Nat),
      (is_nan_u64 (ddot_repro l) = true ↔
        ((l.foldl ddot_step dstate_init).saw_nan
          || (l.foldl ddot_step dstate_init).saw_invalid_zero_inf
          || ((l.foldl ddot_step dstate_init).saw_pos_inf
            && (l.foldl ddot_step dstate_init).saw_neg_inf)) = true) ∧
      (is_nan_u64 (ddot_repro l) = true →
        ddot_repro l = 0x7FF8000000000001) := by
  have hfin : ∀ Pos Neg : Bigu, BiguWF Pos → BiguWF Neg →
      is_nan_u64 (finalize_to_double Pos Neg) = false := by
    intro Pos Neg hP hN
    rw [finalize_eq_round Pos Neg hP hN]
    exact round_not_nan _
  refine ⟨hfin, ?_⟩
  intro l
  obtain ⟨hwp, hwn, hvp, hvn, ho, ha, hb, hc, hd⟩ := ddot_run_spec l
  have hres := ddot_result l
  rw [ha, hb, hc, hd]
  by_cases c1 : (l.any pairNaN || l.any pairInvalid) = true
  · rw [if_pos c1] at hres
    exact ⟨⟨fun _ => by rw [c1]; rfl, fun _ => by rw [hres]; decide⟩,
      fun _ => hres⟩
  · rw [if_neg c1] at hres
    have c1f : (l.any pairNaN || l.any pairInvalid) = false := by
      cases hv : (l.any pairNaN || l.any pairInvalid) with
      | false => rfl
      | true => exact absurd hv c1
    by_cases c2 : (l.any pairPosInf && l.any pairNegInf) = true
    · rw [if_pos c2] at hres
      refine ⟨⟨fun _ => ?_, fun _ => by rw [hres]; decide⟩, fun _ => hres⟩
      rw [c1f, c2]
      rfl
    · rw [if_neg c2] at hres
      have c2f : (l.any pairPosInf && l.any pairNegInf) = false := by
        cases hv : (l.any pairPosInf && l.any pairNegInf) with
        | false => rfl
        | true => exact absurd hv c2
      have hnot : is_nan_u64 (ddot_repro l) = false := by
        rw [hres]
        by_cases c3 : (l.any pairPosInf && !l.any pairNegInf) = true
        · rw [if_pos c3]
          decide
        · rw [if_neg c3]
          by_cases c4 : (!l.any pairPosInf && l.any pairNegInf) = true
          · rw [if_pos c4]
            decide
          · rw [if_neg c4]
            by_cases c5 : (decide (ACC_RADIX ≤ posSumL l)
                || decide (ACC_RADIX ≤ negSumL l)) = true
            · rw [if_pos c5]
              split_ifs <;> decide
            · rw [if_neg c5]
              exact round_not_nan _
      refine ⟨⟨fun h => absurd h (by rw [hnot]; simp), fun h => ?_⟩,
        fun h => absurd h (by rw [hnot]; simp)⟩
      rw [c1f, c2f] at h
      exact absurd h (by decide)

/-- Sanity: the spec's first test vector, `1·4 + 2·5 + 3·6 = 32.0`. -/
theorem ddot_repro_example_32 :
    ddot_repro [(0x3FF0000000000000, 0x4010000000000000),
      (0x4000000000000000, 0x4014000000000000),
      (0x4008000000000000, 0x4018000000000000)] = 0x4040000000000000 := by
  decide

/-- Sanity: four copies of `2^-1074 · 1.0` accumulate exactly to the
subnormal `4 · 2^-1074`. -/
theorem ddot_repro_example_subnormal :
    ddot_repro [(1, 0x3FF0000000000000), (1, 0x3FF0000000000000),
      (1, 0x3FF0000000000000), (1, 0x3FF0000000000000)] = 4 := by
  decide
